import Mathlib

/-!
CompareEngine: line diff and body normalisation.

A shallow embedding of the methods of `CompareEngine` (`src/src/CompareEngine.cpp`):
`stripComments`, `extractFunctions`, `normalizeBody`, `toLines`, `diffLines` and
`buildSummary`, together with the Qt text and container primitives they call, followed by
the properties of the line diff (conservation, LCS optimality, raw text kept, reflexivity,
reorder marking, row shape, dependence on normal forms only), of `normalizeBody`
(idempotence, canonical form, spacing style), of the extraction (entries, balance, last
occurrence wins, skipped candidates, commented-out code), of the comment stripper, of the
summary (lists and layout), of index safety of the diff loops and of the agreement between
the line diff and the normalised bodies. The slot `MainWindow::saveSettings`
(`src/src/MainWindow.cpp`) is embedded as a function on an explicit state.

Modelling conventions.
* A `QString` is a list of `Char`, one per code point: well-formed text. No whitespace
  character lies outside the basic plane, so the UTF-16 view and the code point view of
  `\s` and of `QChar::isSpace` agree on such text.
* The C++ `int` counters are natural numbers: a `QStringList` the code can index has fewer
  than `2^31 - 1` lines, so `n + 1`, `m + 1` and every table entry (at most `min n m`) stay
  in range and no wrap-around occurs.
* `for` and `while` loops are recursive functions on a fuel argument that is the number of
  iterations the loop can still make; the theorems show the fuel handed in suffices.
* A position in a text is the text from that position on: the loop over the matches of
  the function pattern walks the ends of the comment-stripped text.
* A `QMap` is the list of its entries in key order; `QString::operator<` compares UTF-16
  code units.
* Index safety is stated on a second copy of the diff loops in which a read or write out of
  range, or a loop that outlives its fuel, gives `none`.
* The file system, the answers to the question boxes and the two settings stores met by
  `saveSettings` are explicit arguments and state.
-/

namespace CompareEngine

/-! ## Qt text primitives -/

/-- A `QString` restricted to well-formed text, one `Char` per code point. -/
abbrev QString := List Char

/-- The class `\s` of `QRegularExpression` when `UseUnicodePropertiesOption` is not set:
space, horizontal tab, line feed, vertical tab, form feed and carriage return. -/
def isRegexSpace (c : Char) : Bool :=
  c == ' ' || c == '\t' || c == '\n' || c == Char.ofNat 11 || c == Char.ofNat 12 || c == '\r'

/-- The predicate `QChar::isSpace`: the ASCII white space, U+0085, U+00A0 and the code
points of the Unicode categories Zs, Zl and Zp. -/
def isSpace (c : Char) : Bool :=
  c.toNat == 0x20 || (0x09 ≤ c.toNat && c.toNat ≤ 0x0d) || c.toNat == 0x85 || c.toNat == 0xa0
    || c.toNat == 0x1680 || (0x2000 ≤ c.toNat && c.toNat ≤ 0x200a) || c.toNat == 0x2028
    || c.toNat == 0x2029 || c.toNat == 0x202f || c.toNat == 0x205f || c.toNat == 0x3000

/-- The call `QString::replace(before, after)` for a one-character `before`: every
occurrence of the character is replaced by `after`. -/
def replaceChar (before : Char) (after : QString) (s : QString) : QString :=
  s.flatMap (fun c => if c == before then after else [c])

/-- The call `QString::replace(re, after)` for a pattern that never matches the empty
string. `m` is the pattern anchored at the head of its argument: it returns the text left
after the (greedy) match, or `none`. Scanning goes left to right; a match is replaced by
`after` and scanning resumes behind it, otherwise one character is copied. -/
def replaceRegex (m : QString → Option QString) (after : QString) : Nat → QString → QString
  | 0, s => s
  | _ + 1, [] => []
  | fuel + 1, c :: cs =>
    match m (c :: cs) with
    | some rest => after ++ replaceRegex m after fuel rest
    | none => c :: replaceRegex m after fuel cs

/-- The call `s.replace(re, after)` on a text `s`: the scan of `replaceRegex` with one unit
of fuel per character, enough since every match takes at least one character. -/
def replaceAll (m : QString → Option QString) (after : QString) (s : QString) : QString :=
  replaceRegex m after s.length s

/-- The pattern `\s+` anchored at the head of the text. -/
def matchSpaces : QString → Option QString
  | [] => none
  | c :: cs => if isRegexSpace c then some (cs.dropWhile isRegexSpace) else none

/-- The patterns `\s*\{\s*` and `\s*\}\s*` anchored at the head of the text, `b` being the
brace. The leading `\s*` is greedy and the brace is no white space, so the match exists
exactly when the brace follows the longest white-space prefix. -/
def matchBrace (b : Char) (s : QString) : Option QString :=
  match s.dropWhile isRegexSpace with
  | [] => none
  | c :: rest => if c == b then some (rest.dropWhile isRegexSpace) else none

/-- The call `QString::trimmed`: white space in the sense of `QChar::isSpace` is removed
from both ends. -/
def trimmed (s : QString) : QString :=
  ((s.dropWhile isSpace).reverse.dropWhile isSpace).reverse

/-- The opening brace. -/
def lbrace : Char := Char.ofNat 123

/-- The closing brace. -/
def rbrace : Char := Char.ofNat 125

/-! ## normalizeBody -/

/-- The method `CompareEngine::normalizeBody`. -/
def normalizeBody (body : QString) : QString :=
  let s := replaceChar '\r' [] body
  let s := replaceChar '\t' [' '] s
  let s := replaceAll matchSpaces [' '] s
  let s := replaceAll (matchBrace lbrace) [lbrace] s
  let s := replaceAll (matchBrace rbrace) [rbrace] s
  trimmed s

/-! ## diffLines -/

/-- The lambda `norm` of `diffLines`: the line-normal form. -/
def norm (l : QString) : QString :=
  let s := replaceChar '\t' [' '] l
  trimmed (replaceAll matchSpaces [' '] s)

/-- A row of the result, the `QVector<QString>` of marker, originalText, newText. -/
abbrev DiffRow := List QString

/-- The table `dp`, a `QVector<QVector<int>>`. -/
abbrev Table := List (List Nat)

/-- The marker of an unchanged line, `" "`. -/
def markUnchanged : QString := [' ']

/-- The marker of a removed line, `"-"`. -/
def markRemoved : QString := ['-']

/-- The marker of an added line, `"+"`. -/
def markAdded : QString := ['+']

/-- The marker of a reordered line, `"~"`. -/
def markReordered : QString := ['~']

/-- The read `lines[i]` of a `QStringList`. -/
def lineAt (lines : List QString) (i : Nat) : QString := lines.getD i []

/-- The read `dp[i][j]`. -/
def dpGet (dp : Table) (i j : Nat) : Nat := (dp.getD i []).getD j 0

/-- The write `dp[i][j] = v`. -/
def dpSet (dp : Table) (i j v : Nat) : Table := dp.set i ((dp.getD i []).set j v)

/-- The read `result[k][f]`. -/
def fieldAt (result : List DiffRow) (k f : Nat) : QString := (result.getD k []).getD f []

/-- The write `result[k][0] = v`. -/
def setMarker (result : List DiffRow) (k : Nat) (v : QString) : List DiffRow :=
  result.set k ((result.getD k []).set 0 v)

/-- The inner loop `for (int j = m - 1; j >= 0; --j)` of the table fill, for row `i`; the
first argument is `j + 1`. -/
def fillInner (originalLines newLines : List QString) (i : Nat) : Nat → Table → Table
  | 0, dp => dp
  | j + 1, dp =>
    fillInner originalLines newLines i j
      (dpSet dp i j
        (if norm (lineAt originalLines i) = norm (lineAt newLines j) then
          1 + dpGet dp (i + 1) (j + 1)
        else
          max (dpGet dp (i + 1) j) (dpGet dp i (j + 1))))

/-- The outer loop `for (int i = n - 1; i >= 0; --i)` of the table fill; the first argument
is `i + 1`. -/
def fillOuter (originalLines newLines : List QString) : Nat → Table → Table
  | 0, dp => dp
  | i + 1, dp =>
    fillOuter originalLines newLines i (fillInner originalLines newLines i newLines.length dp)

/-- The table `dp` once filled: `(n + 1) × (m + 1)` zeros, then the two loops. -/
def dpTable (originalLines newLines : List QString) : Table :=
  fillOuter originalLines newLines originalLines.length
    (List.replicate (originalLines.length + 1) (List.replicate (newLines.length + 1) 0))

/-- The loop `while (i < n && j < m)`; it returns `i`, `j` and the rows pushed. -/
def backtrack (originalLines newLines : List QString) (dp : Table) :
    Nat → Nat → Nat → List DiffRow → Nat × Nat × List DiffRow
  | 0, i, j, result => (i, j, result)
  | fuel + 1, i, j, result =>
    if i < originalLines.length ∧ j < newLines.length then
      if norm (lineAt originalLines i) = norm (lineAt newLines j) then
        backtrack originalLines newLines dp fuel (i + 1) (j + 1)
          (result ++ [[markUnchanged, lineAt originalLines i, lineAt newLines j]])
      else if dpGet dp (i + 1) j ≥ dpGet dp i (j + 1) then
        backtrack originalLines newLines dp fuel (i + 1) j
          (result ++ [[markRemoved, lineAt originalLines i, []]])
      else
        backtrack originalLines newLines dp fuel i (j + 1)
          (result ++ [[markAdded, [], lineAt newLines j]])
    else (i, j, result)

/-- The loop `while (i < n) { result.push_back({ "-", originalLines[i], "" }); i++; }`. -/
def flushRemoved (originalLines : List QString) : Nat → Nat → List DiffRow → List DiffRow
  | 0, _, result => result
  | fuel + 1, i, result =>
    if i < originalLines.length then
      flushRemoved originalLines fuel (i + 1) (result ++ [[markRemoved, lineAt originalLines i, []]])
    else result

/-- The loop `while (j < m) { result.push_back({ "+", "", newLines[j] }); j++; }`. -/
def flushAdded (newLines : List QString) : Nat → Nat → List DiffRow → List DiffRow
  | 0, _, result => result
  | fuel + 1, j, result =>
    if j < newLines.length then
      flushAdded newLines fuel (j + 1) (result ++ [[markAdded, [], lineAt newLines j]])
    else result

/-- The inner loop `for (int r = 0; r < result.size(); ++r)` of the reorder pass for row
`k`: at the first row `r` marked `"-"` whose normalised original text is `added`, row `k`
is marked `"~"` and the loop is left. -/
def reorderScan (result : List DiffRow) (k : Nat) (added : QString) : Nat → Nat → List DiffRow
  | 0, _ => result
  | fuel + 1, r =>
    if r < result.length then
      if fieldAt result r 0 = markRemoved ∧ norm (fieldAt result r 1) = added then
        setMarker result k markReordered
      else reorderScan result k added fuel (r + 1)
    else result

/-- The outer loop `for (int k = 0; k < result.size(); ++k)` of the reorder pass. -/
def reorderLoop : Nat → Nat → List DiffRow → List DiffRow
  | 0, _, result => result
  | fuel + 1, k, result =>
    if k < result.length then
      reorderLoop fuel (k + 1)
        (if fieldAt result k 0 = markAdded then
          reorderScan result k (norm (fieldAt result k 2)) result.length 0
        else result)
    else result

/-- The rows of `result` when the reorder pass starts: the table fill, the backtrack loop
and the two flush loops of `diffLines`. -/
def pushedRows (originalLines newLines : List QString) : List DiffRow :=
  let n := originalLines.length
  let m := newLines.length
  let dp := dpTable originalLines newLines
  let bt := backtrack originalLines newLines dp (n + m) 0 0 []
  let result := flushRemoved originalLines (n - bt.1) bt.1 bt.2.2
  flushAdded newLines (m - bt.2.1) bt.2.1 result

/-- The method `CompareEngine::diffLines`: the rows pushed, then the reorder pass over
them. -/
def diffLines (originalLines newLines : List QString) : List DiffRow :=
  let result := pushedRows originalLines newLines
  reorderLoop result.length 0 result

/-! ## Reading the result -/

/-- The marker of a row, `row[0]`. -/
def marker (row : DiffRow) : QString := row.getD 0 []

/-- The original text of a row, `row[1]`. -/
def originalText (row : DiffRow) : QString := row.getD 1 []

/-- The new text of a row, `row[2]`. -/
def newText (row : DiffRow) : QString := row.getD 2 []

/-- The number of rows of a result that carry the marker `mk`. -/
def countMarker (mk : QString) (rows : List DiffRow) : Nat :=
  rows.countP (fun row => decide (marker row = mk))

/-- The row carries a line of the original sequence: it is marked `" "` or `"-"`. -/
def onOriginalSide (row : DiffRow) : Bool :=
  decide (marker row = markUnchanged ∨ marker row = markRemoved)

/-- The row carries a line of the new sequence: it is marked `" "`, `"+"` or `"~"`. -/
def onNewSide (row : DiffRow) : Bool :=
  decide (marker row = markUnchanged ∨ marker row = markAdded ∨ marker row = markReordered)

/-- The original texts of the rows that carry an original line, in row order. -/
def originalTexts (rows : List DiffRow) : List QString :=
  (rows.filter onOriginalSide).map originalText

/-- The new texts of the rows that carry a new line, in row order. -/
def newTexts (rows : List DiffRow) : List QString :=
  (rows.filter onNewSide).map newText

/-! ## The recurrences the loops compute -/

/-- The recurrence of the table: the value `dp[i][j]` is `lcsLen` of the lines from `i` on
and the lines from `j` on. -/
def lcsLen : List QString → List QString → Nat
  | [], _ => 0
  | _ :: _, [] => 0
  | a :: xs, b :: ys =>
    if norm a = norm b then 1 + lcsLen xs ys
    else max (lcsLen xs (b :: ys)) (lcsLen (a :: xs) ys)

/-- The rows pushed by the backtrack loop and the two flush loops, as a recursion on the
lines still to be read. -/
def align : List QString → List QString → List DiffRow
  | [], ys => ys.map (fun b => [markAdded, [], b])
  | a :: xs, [] => (a :: xs).map (fun c => [markRemoved, c, []])
  | a :: xs, b :: ys =>
    if norm a = norm b then [markUnchanged, a, b] :: align xs ys
    else if lcsLen xs (b :: ys) ≥ lcsLen (a :: xs) ys then
      [markRemoved, a, []] :: align xs (b :: ys)
    else [markAdded, [], b] :: align (a :: xs) ys

/-- Some row of `rows` is marked `"-"` and its normalised original text is `added`. -/
def hasRemoved (rows : List DiffRow) (added : QString) : Bool :=
  rows.any (fun q => decide (marker q = markRemoved ∧ norm (originalText q) = added))

/-- The effect of the reorder pass, row by row: a row marked `"+"` whose normalised new
text is the normalised original text of a row of `ref` marked `"-"` gets the marker `"~"`. -/
def reclassify (ref : List DiffRow) (row : DiffRow) : DiffRow :=
  if marker row = markAdded ∧ hasRemoved ref (norm (newText row)) = true then
    row.set 0 markReordered
  else row

/-- Two lines with the same line-normal form. -/
def SameNorm (a b : QString) : Prop := norm a = norm b

/-- Two rows with the same marker whose texts have the same line-normal forms. -/
def RowRel (r q : DiffRow) : Prop :=
  marker r = marker q ∧ norm (originalText r) = norm (originalText q) ∧
    norm (newText r) = norm (newText q)

/-- The table has `n + 1` rows of `m + 1` entries. -/
def TableDims (dp : Table) (n m : Nat) : Prop :=
  dp.length = n + 1 ∧ ∀ row ∈ dp, row.length = m + 1

/-- What the table holds while row `i` is being filled and the columns from `j` on are
done: the rows below `i`, the last column, and the done part of row `i` hold `lcsLen`. -/
def FillInv (o n : List QString) (dp : Table) (i j : Nat) : Prop :=
  TableDims dp o.length n.length ∧
    ∀ i2 j2, i2 ≤ o.length → j2 ≤ n.length →
      (i < i2 ∨ j2 = n.length ∨ (i2 = i ∧ j ≤ j2)) →
      dpGet dp i2 j2 = lcsLen (o.drop i2) (n.drop j2)

/-- What the table holds between two rounds of the outer loop: the rows from `k` on and the
last column hold `lcsLen`. -/
def RowsDone (o n : List QString) (dp : Table) (k : Nat) : Prop :=
  TableDims dp o.length n.length ∧
    ∀ i2 j2, i2 ≤ o.length → j2 ≤ n.length → (k ≤ i2 ∨ j2 = n.length) →
      dpGet dp i2 j2 = lcsLen (o.drop i2) (n.drop j2)

/-! ## Canonical texts -/

/-- A pattern that takes at least one character when it matches. -/
def Shrinks (m : QString → Option QString) : Prop :=
  ∀ s rest, m s = some rest → rest.length < s.length

/-- No two white-space characters follow each other. -/
def NoSpacePair (u v : Char) : Prop := ¬ (isRegexSpace u = true ∧ isRegexSpace v = true)

/-- No white space directly after or directly before the character `b`. -/
def NoSpaceAt (b u v : Char) : Prop :=
  ¬ (u = b ∧ isRegexSpace v = true) ∧ ¬ (isRegexSpace u = true ∧ v = b)

/-- The only white-space character of the text is the blank. -/
def OnlyBlanks (s : QString) : Prop := ∀ c ∈ s, isRegexSpace c = true → c = ' '

/-- The canonical single-line form: blanks are the only white space, no two blanks follow
each other, no blank touches a brace, and nothing is left to trim. -/
def Canonical (s : QString) : Prop :=
  OnlyBlanks s ∧ List.Chain' NoSpacePair s ∧ List.Chain' (NoSpaceAt lbrace) s ∧
    List.Chain' (NoSpaceAt rbrace) s ∧ trimmed s = s

/-! ## stripComments -/

/-- The text behind the first `*/` of the argument, if there is one: the lazy `.*?\*/` of
the block-comment pattern (with DotMatchesEverythingOption the dot takes any character). -/
def afterBlockEnd : QString → Option QString
  | [] => none
  | c :: cs =>
    match cs with
    | [] => none
    | d :: ds => if c = '*' ∧ d = '/' then some ds else afterBlockEnd cs

/-- The pattern `/\*.*?\*/` anchored at the head of the text. -/
def matchBlockComment : QString → Option QString
  | c :: d :: rest => if c = '/' ∧ d = '*' then afterBlockEnd rest else none
  | _ => none

/-- The pattern `//[^\n]*` anchored at the head of the text. -/
def matchLineComment : QString → Option QString
  | c :: d :: rest => if c = '/' ∧ d = '/' then some (rest.dropWhile (fun x => x != '\n')) else none
  | _ => none

/-- The method `CompareEngine::stripComments`. -/
def stripComments (code : QString) : QString :=
  let s := replaceAll matchBlockComment [] code
  replaceAll matchLineComment [] s

/-! ## toLines -/

/-- The call `QString::split('\n', Qt::KeepEmptyParts)`. -/
def splitLines : QString → List QString
  | [] => [[]]
  | c :: cs =>
    if c = '\n' then [] :: splitLines cs
    else
      match splitLines cs with
      | [] => [[c]]
      | l :: ls => (c :: l) :: ls

/-- The method `CompareEngine::toLines`. -/
def toLines (text : QString) : List QString :=
  splitLines (replaceChar '\r' [] text)

/-! ## extractFunctions -/

/-- The struct `FunctionBlock`. -/
structure FunctionBlock where
  /-- The function signature. -/
  signature : QString
  /-- The raw function body. -/
  body : QString
  /-- The normalized body, for comparison. -/
  normalizedBody : QString
  /-- The body split into lines. -/
  bodyLines : List QString
  deriving DecidableEq

/-- A `QMap<QString, FunctionBlock>`, given by its entries in iteration order. -/
abbrev FunctionTable := List (QString × FunctionBlock)

/-- The UTF-16 code units of a character. -/
def codeUnits (c : Char) : List Nat :=
  if c.toNat < 0x10000 then [c.toNat]
  else [0xD800 + (c.toNat - 0x10000) / 0x400, 0xDC00 + (c.toNat - 0x10000) % 0x400]

/-- Lexicographic comparison of two sequences of code units. -/
def codeUnitsLt : List Nat → List Nat → Bool
  | _, [] => false
  | [], _ :: _ => true
  | a :: as, b :: bs => a < b || (a == b && codeUnitsLt as bs)

/-- The comparison `operator<` of two `QString`s, the order of the keys of a `QMap`. -/
def keyLt (a b : QString) : Bool :=
  codeUnitsLt (a.flatMap codeUnits) (b.flatMap codeUnits)

/-- The call `QMap::insert`: the value of an existing key is replaced, a new key is put at
its place in the key order. -/
def tableInsert (k : QString) (v : FunctionBlock) : FunctionTable → FunctionTable
  | [] => [(k, v)]
  | (k2, v2) :: t =>
    if k = k2 then (k, v) :: t
    else if keyLt k k2 = true then (k, v) :: (k2, v2) :: t
    else (k2, v2) :: tableInsert k v t

/-- The call `QMap::contains`. -/
def tableContains (t : FunctionTable) (k : QString) : Bool :=
  t.any (fun e => decide (e.1 = k))

/-- The call `QMap::value`: the value of the key, a default-constructed block if the key is
absent. -/
def tableValue (t : FunctionTable) (k : QString) : FunctionBlock :=
  match t.find? (fun e => decide (e.1 = k)) with
  | some e => e.2
  | none => { signature := [], body := [], normalizedBody := [], bodyLines := [] }

/-- The class `[\w:~]` of the function pattern; `\w` is `[A-Za-z0-9_]` when
`UseUnicodePropertiesOption` is not set. -/
def isNameChar (c : Char) : Bool :=
  (0x61 ≤ c.toNat && c.toNat ≤ 0x7a) || (0x41 ≤ c.toNat && c.toNat ≤ 0x5a)
    || (0x30 ≤ c.toNat && c.toNat ≤ 0x39) || c.toNat == 0x5f || c.toNat == 0x3a
    || c.toNat == 0x7e

/-- The pattern `([\w:~]+)\s*\([^\)]*\)\s*\{` anchored at the head of the text: the text
captured by group 1 and the text left after the match. Each greedy run is followed by a
character outside its class, so the longest runs give the only way to match. -/
def matchFunction (t : QString) : Option (QString × QString) :=
  if t.takeWhile isNameChar = [] then none
  else
    match (t.dropWhile isNameChar).dropWhile isRegexSpace with
    | [] => none
    | p :: r1 =>
      if p = '(' then
        match r1.dropWhile (fun x => x != ')') with
        | [] => none
        | _ :: r2 =>
          match r2.dropWhile isRegexSpace with
          | [] => none
          | b :: r3 => if b = lbrace then some (t.takeWhile isNameChar, r3) else none
      else none

/-- The loop `while (pos < s.size())` that looks for the closing brace: the argument is
the text from `pos` on and the value of `depth`; the result is `endPos - pos`, or `none`
when the loop ends with `endPos = -1`. -/
def findClose : QString → Int → Option Nat
  | [], _ => none
  | c :: cs, depth =>
    if c = lbrace then (findClose cs (depth + 1)).map (fun k => k + 1)
    else if c = rbrace then
      if depth - 1 = 0 then some 0 else (findClose cs (depth - 1)).map (fun k => k + 1)
    else (findClose cs depth).map (fun k => k + 1)

/-- The body of the loop over the matches, for a match that starts the text `t` (the text
from `idx` on) and captures `name`: the entry to insert, or `none` when the loop goes on
with the next match (`braceStart < 0` or `endPos < 0`). -/
def candidate (t name : QString) : Option (QString × FunctionBlock) :=
  match t.dropWhile (fun x => x != lbrace) with
  | [] => none
  | b :: afterBrace =>
    match findClose (b :: afterBrace) 0 with
    | none => none
    | some off =>
      some (trimmed name,
        { signature := trimmed (t.takeWhile (fun x => x != lbrace)),
          body := afterBrace.take (off - 1),
          normalizedBody := normalizeBody (afterBrace.take (off - 1)),
          bodyLines := toLines (afterBrace.take (off - 1)) })

/-- One round of the loop over the matches: `out.insert(name, fb)` unless the candidate is
skipped. -/
def extractStep (t name : QString) (out : FunctionTable) : FunctionTable :=
  match candidate t name with
  | none => out
  | some e => tableInsert e.1 e.2 out

/-- The loop `while (it.hasNext())` over the matches of the function pattern in the text
still to be searched: the next match is the leftmost one, and the search goes on behind
it. -/
def extractLoop : Nat → QString → FunctionTable → FunctionTable
  | 0, _, out => out
  | _ + 1, [], out => out
  | fuel + 1, c :: cs, out =>
    match matchFunction (c :: cs) with
    | some m => extractLoop fuel m.2 (extractStep (c :: cs) m.1 out)
    | none => extractLoop fuel cs out

/-- The method `CompareEngine::extractFunctions`. -/
def extractFunctions (code : QString) : FunctionTable :=
  let s := stripComments code
  extractLoop s.length s []

/-! ## buildSummary -/

/-- The decimal digits of a count, as `QString::arg` writes them. -/
def decimal (n : Nat) : QString := Nat.toDigits 10 n

/-- The loop of `buildSummary` over the entries of `orig`, in key order: it appends to
`missingFuncs` and `changedFuncs`, the two components of the state. -/
def scanOrig (news : FunctionTable) :
    FunctionTable → List QString × List QString → List QString × List QString
  | [], lists => lists
  | (name, fb) :: rest, lists =>
    if tableContains news name = false then
      scanOrig news rest (lists.1 ++ [name], lists.2)
    else if fb.normalizedBody ≠ (tableValue news name).normalizedBody then
      scanOrig news rest (lists.1, lists.2 ++ [name])
    else scanOrig news rest lists

/-- The loop of `buildSummary` over the entries of `news`, in key order: it appends to
`newFuncs`. -/
def scanNews (orig : FunctionTable) : FunctionTable → List QString → List QString
  | [], newFuncs => newFuncs
  | (name, _) :: rest, newFuncs =>
    if tableContains orig name = false then scanNews orig rest (newFuncs ++ [name])
    else scanNews orig rest newFuncs

/-- The list `missingFuncs` of `buildSummary` after the two loops. -/
def missingFuncs (orig news : FunctionTable) : List QString := (scanOrig news orig ([], [])).1

/-- The list `newFuncs` of `buildSummary` after the two loops. -/
def newFuncs (orig news : FunctionTable) : List QString := scanNews orig news []

/-- The list `changedFuncs` of `buildSummary` after the two loops. -/
def changedFuncs (orig news : FunctionTable) : List QString := (scanOrig news orig ([], [])).2

/-- A loop `for (const QString &f : funcs) { lines << bullet + f; }`. -/
def appendItems (bullet : QString) : List QString → List QString → List QString
  | [], lines => lines
  | f :: funcs, lines => appendItems bullet funcs (lines ++ [bullet ++ f])

/-- The method `CompareEngine::buildSummary`. -/
def buildSummary (orig news : FunctionTable) : QString :=
  let lines := ["=== Summary ===".toList]
  let lines := lines ++
    ["Missing functions in new (".toList ++ decimal (missingFuncs orig news).length
      ++ "):".toList]
  let lines := appendItems " - ".toList (missingFuncs orig news) lines
  let lines := lines ++
    ["New functions not in original (".toList ++ decimal (newFuncs orig news).length
      ++ "):".toList]
  let lines := appendItems " + ".toList (newFuncs orig news) lines
  let lines := lines ++
    ["Changed function bodies (".toList ++ decimal (changedFuncs orig news).length
      ++ "):".toList]
  let lines := appendItems " * ".toList (changedFuncs orig news) lines
  List.intercalate ['\n'] lines

/-- The invariant of a `QMap`: the keys of its entries are strictly ascending. -/
def TableOk (t : FunctionTable) : Prop :=
  (t.map (fun e => e.1)).Pairwise (fun a b => keyLt a b = true)

/-- A table of two functions, `foo` and `bar`, as `extractFunctions` builds it. -/
def sampleOrig : FunctionTable :=
  extractFunctions "int foo() \x7b return 1; \x7d\nint bar(int a) \x7b\n  return a;\n\x7d\n".toList

/-- A table of two functions, `bar` (the body of `sampleOrig` in another layout) and
`baz`. -/
def sampleNews : FunctionTable :=
  extractFunctions "int bar(int a) \x7b return a; \x7d\nint baz() \x7b return 3; \x7d\n".toList

/-- The brace depth of a text: the number of `{` minus the number of `}`. -/
def braceDepth (s : QString) : Int := (s.count lbrace : Int) - (s.count rbrace : Int)

/-- A brace-balanced text: no prefix closes more braces than it opens, and the whole text
closes as many as it opens. -/
def Balanced (s : QString) : Prop :=
  (∀ k, 0 ≤ braceDepth (s.take k)) ∧ braceDepth s = 0

/-- A function definition with a control statement in its body. -/
def sampleText : QString := "f() \x7b if (x) \x7b y; \x7d \x7d".toList

/-- The entry of `sampleText` for the key `f`. -/
def sampleEntry : QString × FunctionBlock :=
  ("f".toList,
    { signature := "f()".toList,
      body := " if (x) \x7b y; \x7d ".toList,
      normalizedBody := "if (x)\x7by;\x7d".toList,
      bodyLines := [" if (x) \x7b y; \x7d ".toList] })

/-- The candidates the loop over the matches inserts, in the order of the loop: for each
the text from the start of its match on, and the entry. -/
def candidatesOf : Nat → QString → List (QString × QString × FunctionBlock)
  | 0, _ => []
  | _ + 1, [] => []
  | fuel + 1, c :: cs =>
    match matchFunction (c :: cs) with
    | some m =>
      (match candidate (c :: cs) m.1 with
        | some e => [(c :: cs, e)]
        | none => []) ++ candidatesOf fuel m.2
    | none => candidatesOf fuel cs

/-- The candidates with a matching closing brace of a text, in text order. -/
def candidates (code : QString) : List (QString × QString × FunctionBlock) :=
  candidatesOf (stripComments code).length (stripComments code)

/-- A text that defines `f` twice, with `g` in between. -/
def twiceText : QString :=
  "f() \x7b a; \x7d g() \x7b \x7d f(int) \x7b b; \x7d".toList

/-- The second candidate `f` of `twiceText`: the text from its start on, and its entry. -/
def twiceLast : QString × QString × FunctionBlock :=
  ("f(int) \x7b b; \x7d".toList, "f".toList,
    { signature := "f(int)".toList,
      body := " b; ".toList,
      normalizedBody := "b;".toList,
      bodyLines := [" b; ".toList] })

/-! ## Spacing style -/

/-- Every maximal run of characters of the class `p` replaced by a single space, the way
the claim about spacing style words it; the flag says that the character before was of
the class, so that the run has its space already. -/
def collapseRuns (p : Char → Bool) : Bool → QString → QString
  | _, [] => []
  | inRun, c :: cs =>
    if p c = true then
      if inRun = true then collapseRuns p true cs else ' ' :: collapseRuns p true cs
    else c :: collapseRuns p false cs

/-- The white-space characters the claim about spacing style lists: space, tab, carriage
return, line feed. -/
def isListedSpace (c : Char) : Bool := c == ' ' || c == '\t' || c == '\r' || c == '\n'

/-- The listed white-space characters without the carriage return. -/
def isPlainSpace (c : Char) : Bool := c == ' ' || c == '\t' || c == '\n'

/-! ## MainWindow::saveSettings -/

/-- The part of the file system that `saveSettings` consults. `files` lists the paths for
which `QFileInfo(path).exists() && QFileInfo(path).isFile()` holds, `dirs` the paths for
which `QDir(path).exists()` holds, `mkpath p` is the list `dirs` after a successful
`QDir().mkpath(p)` and `none` when that call fails, and `jsonWritable` tells whether the
file `data/settings.json` can be opened for writing. -/
structure FileSystem where
  files : List QString
  dirs : List QString
  mkpath : QString → Option (List QString)
  jsonWritable : Bool

/-- A key-value store with text values: a `QJsonObject` or the content of a `QSettings`. -/
abbrev Store := List (QString × QString)

/-- The call `QJsonObject::insert(key, value)`: the value of an existing key is replaced. -/
def storeInsert (k v : QString) : Store → Store
  | [] => [(k, v)]
  | (k', v') :: rest => if k' = k then (k, v) :: rest else (k', v') :: storeInsert k v rest

/-- The value stored under a key, if any. -/
def storeValue : Store → QString → Option QString
  | [], _ => none
  | (k', v') :: rest, k => if k' = k then some v' else storeValue rest k

/-- What `saveSettings` can read or change: the file system, the member `m_settings` of
the object `appSettings` (class `Settings`), the content of that object's file
`data/settings.json`, and the content of `QSettings("AM-Tower", "DiffCheckAI")`. -/
structure AppState where
  fs : FileSystem
  settingsObject : Store
  settingsFile : Store
  qsettings : Store

/-- The method `Settings::setValue` called on `appSettings`. -/
def setValue (key value : QString) (st : AppState) : AppState :=
  { st with settingsObject := storeInsert key value st.settingsObject }

/-- The method `Settings::save` called on `appSettings`; its result is not looked at. -/
def save (st : AppState) : AppState :=
  if st.fs.jsonWritable then { st with settingsFile := st.settingsObject } else st

/-- The folder check of `saveSettings`: an existing folder passes; a missing one is created
when the question box is answered with Yes and `mkpath` succeeds. The result is the file
system to go on with, or `none` when the method returns false. -/
def ensureDir (path : QString) (answerYes : Bool) (fs : FileSystem) : Option FileSystem :=
  if path ∈ fs.dirs then some fs
  else if answerYes then
    match fs.mkpath path with
    | some dirs => some { fs with dirs := dirs }
    | none => none
  else none

/-- The method `MainWindow::saveSettings`. The three texts are the contents of the line
edits; `answerTemp` and `answerBackup` tell whether the question boxes, if shown, are
answered with Yes. The result is the returned flag and the state left behind. -/
def saveSettings (cmakeText tempText backupText : QString) (answerTemp answerBackup : Bool)
    (st : AppState) : Bool × AppState :=
  let cmakePath := trimmed cmakeText
  let tempPath := trimmed tempText
  let backupPath := trimmed backupText
  if cmakePath ∉ st.fs.files then (false, st)
  else
    match ensureDir tempPath answerTemp st.fs with
    | none => (false, st)
    | some fs1 =>
      match ensureDir backupPath answerBackup fs1 with
      | none => (false, { st with fs := fs1 })
      | some fs2 =>
        let st := { st with fs := fs2 }
        let st := setValue "paths/cmake".toList cmakePath st
        let st := setValue "paths/temp".toList tempPath st
        let st := setValue "paths/backup".toList backupPath st
        (true, save st)

/-- The file system of `testSaveButton`: the file `CMakeLists.txt` and the folders `temp`
and `backup` exist. -/
def testFs : FileSystem :=
  { files := ["CMakeLists.txt".toList], dirs := ["temp".toList, "backup".toList],
    mkpath := fun _ => none, jsonWritable := true }

/-- The state in which `testSaveButton` calls `saveSettings`, with nothing stored. -/
def testState : AppState :=
  { fs := testFs, settingsObject := [], settingsFile := [], qsettings := [] }

/-- The text `//* a */* b */`. -/
def commentText : QString := "//* a */* b */".toList

/-- The text `//* */ f() {}`. -/
def lineCommentText : QString := "//* */ f() \x7b\x7d".toList

/-- The text `f(int a = {}) { x; }`. -/
def defaultArgText : QString := "f(int a = \x7b\x7d) \x7b x; \x7d".toList

/-! ## diffLines with checked indexing

The same loops once more, every read and write by index now failing (`none`) when the index
is out of range, and every loop failing when its fuel is used up while its condition still
holds. -/

/-- The read `lines[i]`, checked. -/
def lineAtChecked (lines : List QString) (i : Nat) : Option QString := lines[i]?

/-- The read `dp[i][j]`, checked. -/
def dpGetChecked (dp : Table) (i j : Nat) : Option Nat :=
  match dp[i]? with
  | some row => row[j]?
  | none => none

/-- The write `dp[i][j] = v`, checked. -/
def dpSetChecked (dp : Table) (i j v : Nat) : Option Table :=
  match dp[i]? with
  | some row => if j < row.length then some (dp.set i (row.set j v)) else none
  | none => none

/-- The read `result[k][f]`, checked. -/
def fieldAtChecked (result : List DiffRow) (k f : Nat) : Option QString :=
  match result[k]? with
  | some row => row[f]?
  | none => none

/-- The write `result[k][0] = v`, checked. -/
def setMarkerChecked (result : List DiffRow) (k : Nat) (v : QString) : Option (List DiffRow) :=
  match result[k]? with
  | some row => if 0 < row.length then some (result.set k (row.set 0 v)) else none
  | none => none

/-- The value stored at `dp[i][j]` by the table fill, with checked reads. -/
def cellChecked (originalLines newLines : List QString) (dp : Table) (i j : Nat) : Option Nat :=
  match lineAtChecked originalLines i, lineAtChecked newLines j with
  | some a, some b =>
    if norm a = norm b then
      (dpGetChecked dp (i + 1) (j + 1)).map (fun d => 1 + d)
    else
      match dpGetChecked dp (i + 1) j, dpGetChecked dp i (j + 1) with
      | some x, some y => some (max x y)
      | _, _ => none
  | _, _ => none

/-- The inner loop of the table fill, checked; the first argument is `j + 1`. -/
def fillInnerChecked (originalLines newLines : List QString) (i : Nat) :
    Nat → Table → Option Table
  | 0, dp => some dp
  | j + 1, dp =>
    match cellChecked originalLines newLines dp i j with
    | some v =>
      match dpSetChecked dp i j v with
      | some dp2 => fillInnerChecked originalLines newLines i j dp2
      | none => none
    | none => none

/-- The outer loop of the table fill, checked; the first argument is `i + 1`. -/
def fillOuterChecked (originalLines newLines : List QString) : Nat → Table → Option Table
  | 0, dp => some dp
  | i + 1, dp =>
    match fillInnerChecked originalLines newLines i newLines.length dp with
    | some dp2 => fillOuterChecked originalLines newLines i dp2
    | none => none

/-- The loop `while (i < n && j < m)`, checked: `none` also when the fuel, the number of
rounds allowed, is used up while the condition holds. -/
def backtrackChecked (originalLines newLines : List QString) (dp : Table) :
    Nat → Nat → Nat → List DiffRow → Option (Nat × Nat × List DiffRow)
  | 0, i, j, result =>
    if i < originalLines.length ∧ j < newLines.length then none else some (i, j, result)
  | fuel + 1, i, j, result =>
    if i < originalLines.length ∧ j < newLines.length then
      match lineAtChecked originalLines i, lineAtChecked newLines j with
      | some a, some b =>
        if norm a = norm b then
          backtrackChecked originalLines newLines dp fuel (i + 1) (j + 1)
            (result ++ [[markUnchanged, a, b]])
        else
          match dpGetChecked dp (i + 1) j, dpGetChecked dp i (j + 1) with
          | some x, some y =>
            if x ≥ y then
              backtrackChecked originalLines newLines dp fuel (i + 1) j
                (result ++ [[markRemoved, a, []]])
            else
              backtrackChecked originalLines newLines dp fuel i (j + 1)
                (result ++ [[markAdded, [], b]])
          | _, _ => none
      | _, _ => none
    else some (i, j, result)

/-- The loop `while (i < n)`, checked. -/
def flushRemovedChecked (originalLines : List QString) :
    Nat → Nat → List DiffRow → Option (List DiffRow)
  | 0, i, result => if i < originalLines.length then none else some result
  | fuel + 1, i, result =>
    if i < originalLines.length then
      match lineAtChecked originalLines i with
      | some a => flushRemovedChecked originalLines fuel (i + 1) (result ++ [[markRemoved, a, []]])
      | none => none
    else some result

/-- The loop `while (j < m)`, checked. -/
def flushAddedChecked (newLines : List QString) :
    Nat → Nat → List DiffRow → Option (List DiffRow)
  | 0, j, result => if j < newLines.length then none else some result
  | fuel + 1, j, result =>
    if j < newLines.length then
      match lineAtChecked newLines j with
      | some b => flushAddedChecked newLines fuel (j + 1) (result ++ [[markAdded, [], b]])
      | none => none
    else some result

/-- The inner loop of the reorder pass for row `k`, checked. The second operand of `&&`,
with its read `result[r][1]`, is evaluated only when the first holds. -/
def reorderScanChecked (result : List DiffRow) (k : Nat) (added : QString) :
    Nat → Nat → Option (List DiffRow)
  | 0, r => if r < result.length then none else some result
  | fuel + 1, r =>
    if r < result.length then
      match fieldAtChecked result r 0 with
      | some mk =>
        if mk = markRemoved then
          match fieldAtChecked result r 1 with
          | some a =>
            if norm a = added then setMarkerChecked result k markReordered
            else reorderScanChecked result k added fuel (r + 1)
          | none => none
        else reorderScanChecked result k added fuel (r + 1)
      | none => none
    else some result

/-- The outer loop of the reorder pass, checked. -/
def reorderLoopChecked : Nat → Nat → List DiffRow → Option (List DiffRow)
  | 0, k, result => if k < result.length then none else some result
  | fuel + 1, k, result =>
    if k < result.length then
      match fieldAtChecked result k 0 with
      | some mk =>
        if mk = markAdded then
          match fieldAtChecked result k 2 with
          | some b =>
            match reorderScanChecked result k (norm b) result.length 0 with
            | some result2 => reorderLoopChecked fuel (k + 1) result2
            | none => none
          | none => none
        else reorderLoopChecked fuel (k + 1) result
      | none => none
    else some result

/-- The method `CompareEngine::diffLines` with checked indexing; the backtrack loop is
allowed `n + m` rounds. -/
def diffLinesChecked (originalLines newLines : List QString) : Option (List DiffRow) :=
  let n := originalLines.length
  let m := newLines.length
  match fillOuterChecked originalLines newLines n
      (List.replicate (n + 1) (List.replicate (m + 1) 0)) with
  | none => none
  | some dp =>
    match backtrackChecked originalLines newLines dp (n + m) 0 0 [] with
    | none => none
    | some bt =>
      match flushRemovedChecked originalLines (n - bt.1) bt.1 bt.2.2 with
      | none => none
      | some result =>
        match flushAddedChecked newLines (m - bt.2.1) bt.2.1 result with
        | none => none
        | some result2 => reorderLoopChecked result2.length 0 result2

/-- All rows have the three fields marker, originalText, newText. -/
def RowsOk (result : List DiffRow) : Prop := ∀ row ∈ result, row.length = 3

/-! ## Tokens of a text

A text read as a sequence of tokens: the braces, each on its own, and the maximal runs of
characters that are neither white space (`\s`) nor a brace. -/

/-- The character is a brace. -/
def isBrace (c : Char) : Bool := c == lbrace || c == rbrace

/-- The run collected so far as a token, if it is not empty. -/
def flush : QString → List QString
  | [] => []
  | c :: w => [c :: w]

/-- The run of non-space non-brace characters at the head of the text, and the tokens
behind that run. -/
def scan : QString → QString × List QString
  | [] => ([], [])
  | c :: cs =>
    if isRegexSpace c = true then ([], flush (scan cs).1 ++ (scan cs).2)
    else if isBrace c = true then ([], [c] :: (flush (scan cs).1 ++ (scan cs).2))
    else (c :: (scan cs).1, (scan cs).2)

/-- The tokens of a text. -/
def tokens (s : QString) : List QString := flush (scan s).1 ++ (scan s).2

/-- The token starts with a brace. -/
def startsBrace : QString → Bool
  | [] => false
  | c :: _ => isBrace c

/-- The tokens written out: one blank between two tokens unless one of them is a brace. -/
def render : List QString → QString
  | [] => []
  | t :: ts =>
    match ts with
    | [] => t
    | u :: _ => if startsBrace t = true ∨ startsBrace u = true then t ++ render ts
      else t ++ ' ' :: render ts

/-- The canonical form but for the start of the text: blanks are the only white space, no
two follow each other, none touches a brace, and none ends the text. -/
def CanonicalTail (s : QString) : Prop :=
  OnlyBlanks s ∧ List.Chain' NoSpacePair s ∧ List.Chain' (NoSpaceAt lbrace) s ∧
    List.Chain' (NoSpaceAt rbrace) s ∧ ∀ c ∈ s.getLast?, isRegexSpace c = false

/-- Every character that `QChar::isSpace` takes for white space is in the class `\s`. -/
def PlainSpaces (s : QString) : Prop := ∀ c ∈ s, isSpace c = true → isRegexSpace c = true

/-- The text `x`, no-break space, line feed, `y`. -/
def nbspText : QString := ['x', Char.ofNat 160, '\n', 'y']

/-- The text `x`, line feed, `y`. -/
def plainText : QString := ['x', '\n', 'y']

/-! ## The report as the specification words it -/

/-- The decimal numeral of a count, as the specification writes `<k>`. -/
def specNumeral (n : Nat) : QString := (Nat.repr n).toList

/-- The report as the specification lays it out for given lists of names: the title line,
then for Missing, New and Changed a header line with the count and one line per name, the
lines joined by single line feeds. -/
def specSummary (missing new changed : List QString) : QString :=
  List.intercalate ['\n']
    (["=== Summary ===".toList,
        "Missing functions in new (".toList ++ specNumeral missing.length ++ "):".toList]
      ++ missing.map (fun name => " - ".toList ++ name)
      ++ ["New functions not in original (".toList ++ specNumeral new.length ++ "):".toList]
      ++ new.map (fun name => " + ".toList ++ name)
      ++ ["Changed function bodies (".toList ++ specNumeral changed.length ++ "):".toList]
      ++ changed.map (fun name => " * ".toList ++ name))

/-- The value of a text read as a decimal numeral. -/
def digitsValue (s : QString) : Nat := s.foldl (fun v c => 10 * v + (c.toNat - 48)) 0

/-- The text is the decimal numeral of `n`: it is not empty, holds digits only, starts with
`0` only if it is `0`, and its value is `n`. -/
def IsDecimal (s : QString) (n : Nat) : Prop :=
  s ≠ [] ∧ (∀ c ∈ s, 48 ≤ c.toNat ∧ c.toNat ≤ 57) ∧ (s.head? = some '0' → s = ['0']) ∧
    digitsValue s = n

/-- A block with empty fields. -/
def emptyBlock : FunctionBlock := { signature := [], body := [], normalizedBody := [], bodyLines := [] }

/-- A table of the ten functions `a` to `j`. -/
def tenTable : FunctionTable :=
  [(['a'], emptyBlock), (['b'], emptyBlock), (['c'], emptyBlock), (['d'], emptyBlock),
    (['e'], emptyBlock), (['f'], emptyBlock), (['g'], emptyBlock), (['h'], emptyBlock),
    (['i'], emptyBlock), (['j'], emptyBlock)]

/-! ## Lists read and written by index -/

theorem getD_set_self {α : Type} (l : List α) (i : Nat) (a d : α) (h : i < l.length) :
    (l.set i a).getD i d = a := by
  simp [List.getD_eq_getElem?_getD, h]

theorem getD_set_ne {α : Type} (l : List α) (i j : Nat) (a d : α) (h : i ≠ j) :
    (l.set i a).getD j d = l.getD j d := by
  simp [List.getD_eq_getElem?_getD, h]

theorem getD_mem {α : Type} (l : List α) (i : Nat) (d : α) (h : i < l.length) :
    l.getD i d ∈ l := by
  rw [List.getD_eq_getElem _ _ h]
  exact List.getElem_mem _

theorem drop_eq_lineAt_cons (lines : List QString) (i : Nat) (h : i < lines.length) :
    lines.drop i = lineAt lines i :: lines.drop (i + 1) := by
  unfold lineAt
  rw [List.getD_eq_getElem _ _ h]
  exact List.drop_eq_getElem_cons h

/-! ## The table fill -/

theorem dpGet_dpSet (dp : Table) (n m i j v i2 j2 : Nat) (hd : TableDims dp n m)
    (hi : i ≤ n) (hj : j ≤ m) :
    dpGet (dpSet dp i j v) i2 j2 = if i2 = i ∧ j2 = j then v else dpGet dp i2 j2 := by
  obtain ⟨hlen, hrows⟩ := hd
  have hil : i < dp.length := by omega
  have hrow : (dp.getD i []).length = m + 1 := hrows _ (getD_mem dp i [] hil)
  unfold dpGet dpSet
  by_cases h1 : i2 = i
  · subst h1
    rw [getD_set_self _ _ _ _ hil]
    by_cases h2 : j2 = j
    · subst h2
      rw [getD_set_self _ _ _ _ (by omega)]
      simp
    · rw [getD_set_ne _ _ _ _ _ (fun h => h2 h.symm)]
      simp [h2]
  · rw [getD_set_ne _ _ _ _ _ (fun h => h1 h.symm)]
    simp [h1]

theorem tableDims_dpSet (dp : Table) (n m i j v : Nat) (hd : TableDims dp n m) :
    TableDims (dpSet dp i j v) n m := by
  obtain ⟨hlen, hrows⟩ := hd
  refine ⟨by simp [dpSet, hlen], ?_⟩
  intro row hrow
  unfold dpSet at hrow
  rcases List.mem_or_eq_of_mem_set hrow with h | h
  · exact hrows row h
  · subst h
    by_cases hil : i < dp.length
    · rw [List.length_set]
      exact hrows _ (getD_mem dp i [] hil)
    · rw [List.set_eq_of_length_le (by omega)] at hrow
      exact hrows _ hrow

theorem lcsLen_nil_right (xs : List QString) : lcsLen xs [] = 0 := by
  cases xs <;> simp [lcsLen]

/-- The recurrence of the table, read at indices. -/
theorem lcsLen_drop (o n : List QString) (i j : Nat) (hi : i < o.length) (hj : j < n.length) :
    lcsLen (o.drop i) (n.drop j) =
      if norm (lineAt o i) = norm (lineAt n j) then
        1 + lcsLen (o.drop (i + 1)) (n.drop (j + 1))
      else max (lcsLen (o.drop (i + 1)) (n.drop j)) (lcsLen (o.drop i) (n.drop (j + 1))) := by
  rw [drop_eq_lineAt_cons o i hi, drop_eq_lineAt_cons n j hj, lcsLen]

theorem fillInner_inv (o n : List QString) (i : Nat) (hi : i < o.length) :
    ∀ (j : Nat) (dp : Table), j ≤ n.length → FillInv o n dp i j →
      FillInv o n (fillInner o n i j dp) i 0 := by
  intro j
  induction j with
  | zero => intro dp _ h; exact h
  | succ j ih =>
    intro dp hj h
    obtain ⟨hd, hv⟩ := h
    rw [fillInner]
    apply ih _ (by omega)
    refine ⟨tableDims_dpSet dp _ _ i j _ hd, ?_⟩
    intro i2 j2 hi2 hj2 hc
    rw [dpGet_dpSet dp _ _ i j _ i2 j2 hd (by omega) (by omega)]
    by_cases hij : i2 = i ∧ j2 = j
    · rw [if_pos hij]
      obtain ⟨h1, h2⟩ := hij
      subst h1; subst h2
      rw [lcsLen_drop o n i2 j2 hi (by omega)]
      rw [hv (i2 + 1) (j2 + 1) (by omega) (by omega) (Or.inl (by omega)),
        hv (i2 + 1) j2 (by omega) (by omega) (Or.inl (by omega)),
        hv i2 (j2 + 1) (by omega) (by omega) (Or.inr (Or.inr ⟨rfl, le_refl _⟩))]
    · rw [if_neg hij]
      apply hv i2 j2 hi2 hj2
      rcases hc with hc | hc | ⟨hc1, hc2⟩
      · exact Or.inl hc
      · exact Or.inr (Or.inl hc)
      · refine Or.inr (Or.inr ⟨hc1, ?_⟩)
        have : j2 ≠ j := fun e => hij ⟨hc1, e⟩
        omega

theorem fillOuter_inv (o n : List QString) :
    ∀ (k : Nat) (dp : Table), k ≤ o.length → RowsDone o n dp k →
      RowsDone o n (fillOuter o n k dp) 0 := by
  intro k
  induction k with
  | zero => intro dp _ h; exact h
  | succ k ih =>
    intro dp hk h
    rw [fillOuter]
    apply ih _ (by omega)
    have hstart : FillInv o n dp k n.length := by
      refine ⟨h.1, ?_⟩
      intro i2 j2 hi2 hj2 hc
      apply h.2 i2 j2 hi2 hj2
      rcases hc with hc | hc | ⟨_, hc2⟩
      · exact Or.inl (by omega)
      · exact Or.inr hc
      · exact Or.inr (by omega)
    have hend := fillInner_inv o n k (by omega) n.length dp (le_refl _) hstart
    refine ⟨hend.1, ?_⟩
    intro i2 j2 hi2 hj2 hc
    apply hend.2 i2 j2 hi2 hj2
    rcases hc with hc | hc
    · rcases Nat.lt_or_ge k i2 with h1 | h1
      · exact Or.inl h1
      · exact Or.inr (Or.inr ⟨by omega, Nat.zero_le _⟩)
    · exact Or.inr (Or.inl hc)

theorem getD_replicate_self {α : Type} (a i : Nat) (x : α) :
    (List.replicate a x).getD i x = x := by
  by_cases hi : i < a
  · rw [List.getD_eq_getElem _ _ (by simpa using hi)]
    simp
  · rw [List.getD_eq_default _ _ (by simpa using hi)]

theorem dpGet_replicate (a b i j : Nat) :
    dpGet (List.replicate a (List.replicate b 0)) i j = 0 := by
  unfold dpGet
  by_cases hi : i < a
  · have h : (List.replicate a (List.replicate b 0)).getD i [] = List.replicate b 0 := by
      rw [List.getD_eq_getElem _ _ (by simpa using hi)]
      simp
    rw [h, getD_replicate_self]
  · have h : (List.replicate a (List.replicate b 0)).getD i [] = [] := by
      rw [List.getD_eq_default _ _ (by simpa using hi)]
    rw [h]
    rfl

/-- Every entry of the filled table is the value of the recurrence. -/
theorem dpTable_spec (o n : List QString) (i j : Nat) (hi : i ≤ o.length) (hj : j ≤ n.length) :
    dpGet (dpTable o n) i j = lcsLen (o.drop i) (n.drop j) := by
  have hinit : RowsDone o n
      (List.replicate (o.length + 1) (List.replicate (n.length + 1) 0)) o.length := by
    refine ⟨⟨by simp, ?_⟩, ?_⟩
    · intro row hrow
      rw [(List.mem_replicate.mp hrow).2]
      simp
    · intro i2 j2 hi2 hj2 hc
      rw [dpGet_replicate]
      rcases hc with hc | hc
      · have h0 : i2 = o.length := by omega
        subst h0
        simp [lcsLen]
      · subst hc
        simp [lcsLen_nil_right]
  exact (fillOuter_inv o n o.length _ (le_refl _) hinit).2 i j hi hj (Or.inl (Nat.zero_le _))

/-! ## The backtrack and the flush loops -/

theorem flushRemoved_eq (o : List QString) :
    ∀ (fuel i : Nat) (res : List DiffRow), o.length - i ≤ fuel →
      flushRemoved o fuel i res = res ++ (o.drop i).map (fun c => [markRemoved, c, []]) := by
  intro fuel
  induction fuel with
  | zero =>
    intro i res h
    rw [flushRemoved, List.drop_of_length_le (by omega)]
    simp
  | succ fuel ih =>
    intro i res h
    rw [flushRemoved]
    by_cases hi : i < o.length
    · rw [if_pos hi, ih _ _ (by omega), drop_eq_lineAt_cons o i hi]
      simp
    · rw [if_neg hi, List.drop_of_length_le (by omega)]
      simp

theorem flushAdded_eq (n : List QString) :
    ∀ (fuel j : Nat) (res : List DiffRow), n.length - j ≤ fuel →
      flushAdded n fuel j res = res ++ (n.drop j).map (fun b => [markAdded, [], b]) := by
  intro fuel
  induction fuel with
  | zero =>
    intro j res h
    rw [flushAdded, List.drop_of_length_le (by omega)]
    simp
  | succ fuel ih =>
    intro j res h
    rw [flushAdded]
    by_cases hj : j < n.length
    · rw [if_pos hj, ih _ _ (by omega), drop_eq_lineAt_cons n j hj]
      simp
    · rw [if_neg hj, List.drop_of_length_le (by omega)]
      simp

theorem align_nil_right (xs : List QString) :
    align xs [] = xs.map (fun c => [markRemoved, c, []]) := by
  cases xs <;> simp [align]

theorem align_of_exhausted (xs ys : List QString) (h : xs = [] ∨ ys = []) :
    align xs ys =
      xs.map (fun c => [markRemoved, c, []]) ++ ys.map (fun b => [markAdded, [], b]) := by
  rcases h with h | h
  · subst h; simp [align]
  · subst h; simp [align_nil_right]

/-- The three loops that push rows compute `align`. -/
theorem backtrack_flush_eq (o n : List QString) :
    ∀ (fuel i j : Nat) (res : List DiffRow), i ≤ o.length → j ≤ n.length →
      (o.length - i) + (n.length - j) ≤ fuel →
      flushAdded n (n.length - (backtrack o n (dpTable o n) fuel i j res).2.1)
          (backtrack o n (dpTable o n) fuel i j res).2.1
          (flushRemoved o (o.length - (backtrack o n (dpTable o n) fuel i j res).1)
            (backtrack o n (dpTable o n) fuel i j res).1
            (backtrack o n (dpTable o n) fuel i j res).2.2)
        = res ++ align (o.drop i) (n.drop j) := by
  intro fuel
  induction fuel with
  | zero =>
    intro i j res hi hj h
    simp only [backtrack]
    rw [flushRemoved_eq o _ _ _ (le_refl _), flushAdded_eq n _ _ _ (le_refl _),
      align_of_exhausted _ _ (Or.inl (List.drop_of_length_le (by omega)))]
    simp
  | succ fuel ih =>
    intro i j res hi hj h
    by_cases hc : i < o.length ∧ j < n.length
    · obtain ⟨hi2, hj2⟩ := hc
      have hdo := drop_eq_lineAt_cons o i hi2
      have hdn := drop_eq_lineAt_cons n j hj2
      by_cases he : norm (lineAt o i) = norm (lineAt n j)
      · have hb : backtrack o n (dpTable o n) (fuel + 1) i j res
            = backtrack o n (dpTable o n) fuel (i + 1) (j + 1)
                (res ++ [[markUnchanged, lineAt o i, lineAt n j]]) := by
          rw [backtrack, if_pos ⟨hi2, hj2⟩, if_pos he]
        rw [hb, ih _ _ _ (by omega) (by omega) (by omega), hdo, hdn, align, if_pos he]
        simp
      · by_cases hg : dpGet (dpTable o n) (i + 1) j ≥ dpGet (dpTable o n) i (j + 1)
        · have hb : backtrack o n (dpTable o n) (fuel + 1) i j res
              = backtrack o n (dpTable o n) fuel (i + 1) j
                  (res ++ [[markRemoved, lineAt o i, []]]) := by
            rw [backtrack, if_pos ⟨hi2, hj2⟩, if_neg he, if_pos hg]
          rw [dpTable_spec o n _ _ (by omega) (by omega),
            dpTable_spec o n _ _ (by omega) (by omega), hdn, hdo] at hg
          rw [hb, ih _ _ _ (by omega) (by omega) (by omega)]
          conv_rhs => rw [hdo, hdn, align, if_neg he, if_pos hg, ← hdn]
          simp
        · have hb : backtrack o n (dpTable o n) (fuel + 1) i j res
              = backtrack o n (dpTable o n) fuel i (j + 1)
                  (res ++ [[markAdded, [], lineAt n j]]) := by
            rw [backtrack, if_pos ⟨hi2, hj2⟩, if_neg he, if_neg hg]
          rw [dpTable_spec o n _ _ (by omega) (by omega),
            dpTable_spec o n _ _ (by omega) (by omega), hdn, hdo] at hg
          rw [hb, ih _ _ _ (by omega) (by omega) (by omega)]
          conv_rhs => rw [hdo, hdn, align, if_neg he, if_neg hg, ← hdo]
          simp
    · have hb : backtrack o n (dpTable o n) (fuel + 1) i j res = (i, j, res) := by
        rw [backtrack, if_neg hc]
      rw [hb]
      simp only []
      rw [flushRemoved_eq o _ _ _ (le_refl _), flushAdded_eq n _ _ _ (le_refl _)]
      have hex : o.drop i = [] ∨ n.drop j = [] := by
        rcases Nat.lt_or_ge i o.length with h1 | h1
        · exact Or.inr (List.drop_of_length_le (by omega))
        · exact Or.inl (List.drop_of_length_le h1)
      rw [align_of_exhausted _ _ hex]
      simp

/-! ## The reorder pass -/

theorem drop_eq_getD_cons {α : Type} (l : List α) (i : Nat) (d : α) (h : i < l.length) :
    l.drop i = l.getD i d :: l.drop (i + 1) := by
  rw [List.getD_eq_getElem _ _ h]
  exact List.drop_eq_getElem_cons h

theorem getD_append_cons {α : Type} (pre post : List α) (r d : α) :
    (pre ++ r :: post).getD pre.length d = r := by
  rw [List.getD_append_right _ _ _ _ (le_refl _)]
  simp

theorem set_append_cons {α : Type} (pre post : List α) (r v : α) :
    (pre ++ r :: post).set pre.length v = pre ++ v :: post := by
  induction pre with
  | nil => rfl
  | cons a pre ih => simp [ih]

theorem reorderScan_eq (result : List DiffRow) (k : Nat) (added : QString) :
    ∀ (fuel r : Nat), result.length - r ≤ fuel →
      reorderScan result k added fuel r =
        if hasRemoved (result.drop r) added = true then setMarker result k markReordered
        else result := by
  intro fuel
  induction fuel with
  | zero =>
    intro r h
    rw [reorderScan, List.drop_of_length_le (by omega)]
    simp [hasRemoved]
  | succ fuel ih =>
    intro r h
    rw [reorderScan]
    by_cases hr : r < result.length
    · rw [if_pos hr, drop_eq_getD_cons result r [] hr]
      by_cases hc : fieldAt result r 0 = markRemoved ∧ norm (fieldAt result r 1) = added
      · rw [if_pos hc]
        have : hasRemoved (result.getD r [] :: result.drop (r + 1)) added = true := by
          simp only [hasRemoved, List.any_cons, Bool.or_eq_true, decide_eq_true_eq]
          exact Or.inl hc
        rw [if_pos this]
      · rw [if_neg hc, ih _ (by omega)]
        have : hasRemoved (result.getD r [] :: result.drop (r + 1)) added
            = hasRemoved (result.drop (r + 1)) added := by
          simp only [hasRemoved, List.any_cons]
          have hd : decide (marker (result.getD r []) = markRemoved ∧
              norm (originalText (result.getD r [])) = added) = false :=
            decide_eq_false hc
          rw [hd, Bool.false_or]
        rw [this]
    · rw [if_neg hr, List.drop_of_length_le (by omega)]
      simp [hasRemoved]

theorem marker_set (row : DiffRow) (v : QString) (h : marker row = markAdded) :
    marker (row.set 0 v) = v ∧ originalText (row.set 0 v) = originalText row ∧
      newText (row.set 0 v) = newText row := by
  cases row with
  | nil => exact absurd h (by decide)
  | cons x xs => exact ⟨rfl, rfl, rfl⟩

/-- The reorder pass never changes whether a row counts as a removed line. -/
theorem reclassify_removed (ref : List DiffRow) (row : DiffRow) (a : QString) :
    decide (marker (reclassify ref row) = markRemoved ∧
        norm (originalText (reclassify ref row)) = a)
      = decide (marker row = markRemoved ∧ norm (originalText row) = a) := by
  unfold reclassify
  split
  · rename_i h
    have hm := marker_set row markReordered h.1
    have h1 : ¬ (marker (row.set 0 markReordered) = markRemoved ∧
        norm (originalText (row.set 0 markReordered)) = a) := by
      rw [hm.1]
      intro hc
      exact absurd hc.1 (by decide)
    have h2 : ¬ (marker row = markRemoved ∧ norm (originalText row) = a) := by
      rw [h.1]
      intro hc
      exact absurd hc.1 (by decide)
    rw [decide_eq_false h1, decide_eq_false h2]
  · rfl

theorem hasRemoved_append_cons (pre post : List DiffRow) (r : DiffRow) (a : QString) :
    hasRemoved (pre ++ r :: post) a =
      (hasRemoved pre a || decide (marker r = markRemoved ∧ norm (originalText r) = a)
        || hasRemoved post a) := by
  simp [hasRemoved, List.any_append, Bool.or_assoc]

/-- The outer loop of the reorder pass, started at row `pre.length`, reclassifies the rows
still ahead and leaves the rows behind. -/
theorem reorderLoop_eq (ref : List DiffRow) :
    ∀ (post pre : List DiffRow) (fuel : Nat), post.length ≤ fuel →
      (∀ a, hasRemoved (pre ++ post) a = hasRemoved ref a) →
      reorderLoop fuel pre.length (pre ++ post) = pre ++ post.map (reclassify ref) := by
  intro post
  induction post with
  | nil =>
    intro pre fuel _ _
    cases fuel with
    | zero => simp [reorderLoop]
    | succ fuel => simp [reorderLoop]
  | cons r post ih =>
    intro pre fuel hf href
    cases fuel with
    | zero => simp at hf
    | succ fuel =>
      have hk : pre.length < (pre ++ r :: post).length := by simp
      have hstep : (if fieldAt (pre ++ r :: post) pre.length 0 = markAdded then
            reorderScan (pre ++ r :: post) pre.length
              (norm (fieldAt (pre ++ r :: post) pre.length 2)) (pre ++ r :: post).length 0
          else pre ++ r :: post) = pre ++ reclassify ref r :: post := by
        have hf0 : fieldAt (pre ++ r :: post) pre.length 0 = marker r := by
          unfold fieldAt marker
          rw [getD_append_cons]
        have hf2 : fieldAt (pre ++ r :: post) pre.length 2 = newText r := by
          unfold fieldAt newText
          rw [getD_append_cons]
        rw [hf0, hf2]
        unfold reclassify
        by_cases hm : marker r = markAdded
        · rw [if_pos hm, reorderScan_eq _ _ _ _ _ (by omega), List.drop_zero, href]
          by_cases hh : hasRemoved ref (norm (newText r)) = true
          · rw [if_pos hh, if_pos ⟨hm, hh⟩]
            unfold setMarker
            rw [getD_append_cons, set_append_cons]
          · rw [if_neg hh, if_neg (fun hc => hh hc.2)]
        · rw [if_neg hm, if_neg (fun hc => hm hc.1)]
      rw [reorderLoop, if_pos hk, hstep]
      have hnext := ih (pre ++ [reclassify ref r]) fuel (by simpa using hf) (by
        intro a
        rw [← href a]
        simp only [List.append_assoc, List.singleton_append]
        rw [hasRemoved_append_cons, hasRemoved_append_cons, reclassify_removed])
      simp only [List.append_assoc, List.singleton_append, List.length_append,
        List.length_singleton] at hnext
      rw [hnext]
      simp

/-- The rows pushed before the reorder pass are those of `align`. -/
theorem pushedRows_eq (o n : List QString) : pushedRows o n = align o n := by
  unfold pushedRows
  simp only []
  rw [backtrack_flush_eq o n _ 0 0 [] (Nat.zero_le _) (Nat.zero_le _) (by omega)]
  simp

/-- The method `diffLines` as a composition: the rows of `align`, each reclassified against
all of them. -/
theorem diffLines_eq (o n : List QString) :
    diffLines o n = (align o n).map (reclassify (align o n)) := by
  unfold diffLines
  simp only []
  rw [pushedRows_eq]
  have h := reorderLoop_eq (align o n) (align o n) [] (align o n).length (le_refl _)
    (fun a => by simp)
  simpa using h

/-! ## Rows and their markers -/

theorem reclassify_unchanged (ref : List DiffRow) (a b : QString) :
    reclassify ref [markUnchanged, a, b] = [markUnchanged, a, b] := by
  unfold reclassify
  rw [if_neg]
  intro h
  exact absurd (show markUnchanged = markAdded from h.1) (by decide)

theorem reclassify_removed_row (ref : List DiffRow) (a : QString) :
    reclassify ref [markRemoved, a, []] = [markRemoved, a, []] := by
  unfold reclassify
  rw [if_neg]
  intro h
  exact absurd (show markRemoved = markAdded from h.1) (by decide)

theorem reclassify_added (ref : List DiffRow) (b : QString) :
    reclassify ref [markAdded, [], b] =
      [if hasRemoved ref (norm b) = true then markReordered else markAdded, [], b] := by
  unfold reclassify
  by_cases h : hasRemoved ref (norm b) = true
  · rw [if_pos h, if_pos ⟨rfl, h⟩]
    rfl
  · rw [if_neg h, if_neg (fun hc => h hc.2)]

theorem countMarker_cons (mk : QString) (row : DiffRow) (rows : List DiffRow) :
    countMarker mk (row :: rows) = countMarker mk rows + if marker row = mk then 1 else 0 := by
  unfold countMarker
  rw [List.countP_cons]
  simp

theorem countMarker_nil (mk : QString) : countMarker mk [] = 0 := rfl

theorem marker_row (mk a b : QString) : marker [mk, a, b] = mk := rfl

theorem originalText_row (mk a b : QString) : originalText [mk, a, b] = a := rfl

theorem newText_row (mk a b : QString) : newText [mk, a, b] = b := rfl

theorem marker_added_row (ref : List DiffRow) (b : QString) :
    (if hasRemoved ref (norm b) = true then markReordered else markAdded) = markReordered ∧
        hasRemoved ref (norm b) = true ∨
      (if hasRemoved ref (norm b) = true then markReordered else markAdded) = markAdded ∧
        hasRemoved ref (norm b) = false := by
  by_cases h : hasRemoved ref (norm b) = true
  · left; exact ⟨if_pos h, h⟩
  · right; exact ⟨if_neg h, by simpa using h⟩

theorem unchanged_ne_removed : markUnchanged ≠ markRemoved := by decide

theorem unchanged_ne_added : markUnchanged ≠ markAdded := by decide

theorem unchanged_ne_reordered : markUnchanged ≠ markReordered := by decide

theorem removed_ne_unchanged : markRemoved ≠ markUnchanged := by decide

theorem removed_ne_added : markRemoved ≠ markAdded := by decide

theorem removed_ne_reordered : markRemoved ≠ markReordered := by decide

theorem added_ne_unchanged : markAdded ≠ markUnchanged := by decide

theorem added_ne_removed : markAdded ≠ markRemoved := by decide

theorem added_ne_reordered : markAdded ≠ markReordered := by decide

theorem reordered_ne_unchanged : markReordered ≠ markUnchanged := by decide

theorem reordered_ne_removed : markReordered ≠ markRemoved := by decide

theorem reordered_ne_added : markReordered ≠ markAdded := by decide

/-- The counts of the rows of removed lines only. -/
theorem counts_removed_rows (ref : List DiffRow) (xs : List QString) :
    countMarker markUnchanged ((xs.map (fun c => [markRemoved, c, []])).map (reclassify ref)) = 0 ∧
    countMarker markRemoved ((xs.map (fun c => [markRemoved, c, []])).map (reclassify ref))
      = xs.length ∧
    countMarker markAdded ((xs.map (fun c => [markRemoved, c, []])).map (reclassify ref)) = 0 ∧
    countMarker markReordered ((xs.map (fun c => [markRemoved, c, []])).map (reclassify ref))
      = 0 := by
  induction xs with
  | nil => exact ⟨rfl, rfl, rfl, rfl⟩
  | cons a xs ih =>
    obtain ⟨h1, h2, h3, h4⟩ := ih
    simp only [List.map_cons, reclassify_removed_row, countMarker_cons, marker_row, h1, h2, h3,
      h4, List.length_cons]
    simp [-List.map_map, unchanged_ne_removed, unchanged_ne_added, unchanged_ne_reordered, removed_ne_unchanged, removed_ne_added, removed_ne_reordered, added_ne_unchanged, added_ne_removed, added_ne_reordered, reordered_ne_unchanged, reordered_ne_removed, reordered_ne_added]

/-- The counts of the rows of added lines only. -/
theorem counts_added_rows (ref : List DiffRow) (ys : List QString) :
    countMarker markUnchanged ((ys.map (fun b => [markAdded, [], b])).map (reclassify ref)) = 0 ∧
    countMarker markRemoved ((ys.map (fun b => [markAdded, [], b])).map (reclassify ref)) = 0 ∧
    countMarker markAdded ((ys.map (fun b => [markAdded, [], b])).map (reclassify ref))
      + countMarker markReordered ((ys.map (fun b => [markAdded, [], b])).map (reclassify ref))
      = ys.length := by
  induction ys with
  | nil => exact ⟨rfl, rfl, rfl⟩
  | cons b ys ih =>
    obtain ⟨h1, h2, h3⟩ := ih
    simp only [List.map_cons, reclassify_added, countMarker_cons, marker_row, h1, h2,
      List.length_cons]
    rcases marker_added_row ref b with ⟨hm, _⟩ | ⟨hm, _⟩
    · rw [hm]
      simp [-List.map_map, unchanged_ne_removed, unchanged_ne_added, unchanged_ne_reordered, removed_ne_unchanged, removed_ne_added, removed_ne_reordered, added_ne_unchanged, added_ne_removed, added_ne_reordered, reordered_ne_unchanged, reordered_ne_removed, reordered_ne_added]
      omega
    · rw [hm]
      simp [-List.map_map, unchanged_ne_removed, unchanged_ne_added, unchanged_ne_reordered, removed_ne_unchanged, removed_ne_added, removed_ne_reordered, added_ne_unchanged, added_ne_removed, added_ne_reordered, reordered_ne_unchanged, reordered_ne_removed, reordered_ne_added]
      omega

/-- Line conservation for the rows of `align`, whatever the reorder pass compares with. -/
theorem counts_align (ref : List DiffRow) (xs ys : List QString) :
    countMarker markUnchanged ((align xs ys).map (reclassify ref))
        + countMarker markRemoved ((align xs ys).map (reclassify ref)) = xs.length ∧
    countMarker markUnchanged ((align xs ys).map (reclassify ref))
        + countMarker markAdded ((align xs ys).map (reclassify ref))
        + countMarker markReordered ((align xs ys).map (reclassify ref)) = ys.length := by
  induction xs, ys using align.induct with
  | case1 ys =>
    obtain ⟨h1, h2, h3⟩ := counts_added_rows ref ys
    rw [align, h1, h2]
    exact ⟨rfl, by omega⟩
  | case2 a xs =>
    obtain ⟨h1, h2, h3, h4⟩ := counts_removed_rows ref (a :: xs)
    rw [align, h1, h2, h3, h4]
    exact ⟨by omega, rfl⟩
  | case3 a xs b ys he ih =>
    rw [align, if_pos he]
    simp only [List.map_cons, reclassify_unchanged, countMarker_cons, marker_row,
      List.length_cons]
    simp [-List.map_map, unchanged_ne_removed, unchanged_ne_added, unchanged_ne_reordered, removed_ne_unchanged, removed_ne_added, removed_ne_reordered, added_ne_unchanged, added_ne_removed, added_ne_reordered, reordered_ne_unchanged, reordered_ne_removed, reordered_ne_added]
    omega
  | case4 a xs b ys he hg ih =>
    rw [align, if_neg he, if_pos hg]
    simp only [List.map_cons, reclassify_removed_row, countMarker_cons, marker_row,
      List.length_cons] at ih ⊢
    simp [-List.map_map, unchanged_ne_removed, unchanged_ne_added, unchanged_ne_reordered, removed_ne_unchanged, removed_ne_added, removed_ne_reordered, added_ne_unchanged, added_ne_removed, added_ne_reordered, reordered_ne_unchanged, reordered_ne_removed, reordered_ne_added]
    omega
  | case5 a xs b ys he hg ih =>
    rw [align, if_neg he, if_neg hg]
    simp only [List.map_cons, reclassify_added, countMarker_cons, marker_row,
      List.length_cons] at ih ⊢
    rcases marker_added_row ref b with ⟨hm, _⟩ | ⟨hm, _⟩
    · rw [hm]
      simp [-List.map_map, unchanged_ne_removed, unchanged_ne_added, unchanged_ne_reordered, removed_ne_unchanged, removed_ne_added, removed_ne_reordered, added_ne_unchanged, added_ne_removed, added_ne_reordered, reordered_ne_unchanged, reordered_ne_removed, reordered_ne_added]
      omega
    · rw [hm]
      simp [-List.map_map, unchanged_ne_removed, unchanged_ne_added, unchanged_ne_reordered, removed_ne_unchanged, removed_ne_added, removed_ne_reordered, added_ne_unchanged, added_ne_removed, added_ne_reordered, reordered_ne_unchanged, reordered_ne_removed, reordered_ne_added]
      omega

/-- The three kinds of row the backtrack and flush loops push. -/
theorem align_rows (xs ys : List QString) :
    ∀ r ∈ align xs ys,
      (∃ a b, r = [markUnchanged, a, b] ∧ norm a = norm b) ∨
        (∃ a, r = [markRemoved, a, []]) ∨ (∃ b, r = [markAdded, [], b]) := by
  induction xs, ys using align.induct with
  | case1 ys =>
    intro r hr
    rw [align, List.mem_map] at hr
    obtain ⟨b, _, hb⟩ := hr
    exact Or.inr (Or.inr ⟨b, hb.symm⟩)
  | case2 a xs =>
    intro r hr
    rw [align, List.mem_map] at hr
    obtain ⟨c, _, hc⟩ := hr
    exact Or.inr (Or.inl ⟨c, hc.symm⟩)
  | case3 a xs b ys he ih =>
    intro r hr
    rw [align, if_pos he, List.mem_cons] at hr
    rcases hr with hr | hr
    · exact Or.inl ⟨a, b, hr, he⟩
    · exact ih r hr
  | case4 a xs b ys he hg ih =>
    intro r hr
    rw [align, if_neg he, if_pos hg, List.mem_cons] at hr
    rcases hr with hr | hr
    · exact Or.inr (Or.inl ⟨a, hr⟩)
    · exact ih r hr
  | case5 a xs b ys he hg ih =>
    intro r hr
    rw [align, if_neg he, if_neg hg, List.mem_cons] at hr
    rcases hr with hr | hr
    · exact Or.inr (Or.inr ⟨b, hr⟩)
    · exact ih r hr

theorem hasRemoved_iff (rows : List DiffRow) (a : QString) :
    hasRemoved rows a = true ↔
      ∃ q ∈ rows, marker q = markRemoved ∧ norm (originalText q) = a := by
  simp [hasRemoved, List.any_eq_true]

/-- The rows that count as removed lines are the same before and after the reorder pass. -/
theorem hasRemoved_map_reclassify (ref rows : List DiffRow) (a : QString) :
    hasRemoved (rows.map (reclassify ref)) a = hasRemoved rows a := by
  induction rows with
  | nil => rfl
  | cons r rows ih =>
    unfold hasRemoved at ih ⊢
    rw [List.map_cons, List.any_cons, List.any_cons, ih, reclassify_removed]

/-- The shape of every row of the result. -/
theorem diffLines_rows (o n : List QString) :
    ∀ r ∈ diffLines o n,
      (∃ a b, r = [markUnchanged, a, b] ∧ norm a = norm b) ∨
        (∃ a, r = [markRemoved, a, []]) ∨
        (∃ b, r = [markAdded, [], b] ∧ hasRemoved (diffLines o n) (norm b) = false) ∨
        (∃ b, r = [markReordered, [], b] ∧ hasRemoved (diffLines o n) (norm b) = true) := by
  intro r hr
  have hh : ∀ a, hasRemoved (diffLines o n) a = hasRemoved (align o n) a := by
    intro a
    rw [diffLines_eq, hasRemoved_map_reclassify]
  rw [diffLines_eq, List.mem_map] at hr
  obtain ⟨r0, hr0, hrr⟩ := hr
  rcases align_rows o n r0 hr0 with ⟨a, b, h, he⟩ | ⟨a, h⟩ | ⟨b, h⟩
  · subst h
    rw [reclassify_unchanged] at hrr
    exact Or.inl ⟨a, b, hrr.symm, he⟩
  · subst h
    rw [reclassify_removed_row] at hrr
    exact Or.inr (Or.inl ⟨a, hrr.symm⟩)
  · subst h
    rw [reclassify_added] at hrr
    rcases marker_added_row (align o n) b with ⟨hm, hb⟩ | ⟨hm, hb⟩
    · rw [hm] at hrr
      exact Or.inr (Or.inr (Or.inr ⟨b, hrr.symm, by rw [hh, hb]⟩))
    · rw [hm] at hrr
      exact Or.inr (Or.inr (Or.inl ⟨b, hrr.symm, by rw [hh, hb]⟩))

/-! ## The texts kept in the rows -/

theorem texts_unchanged_cons (a b : QString) (rows : List DiffRow) :
    originalTexts ([markUnchanged, a, b] :: rows) = a :: originalTexts rows ∧
      newTexts ([markUnchanged, a, b] :: rows) = b :: newTexts rows := by
  simp [originalTexts, newTexts, onOriginalSide, onNewSide, marker_row, originalText_row,
    newText_row, List.filter_cons]

theorem texts_removed_cons (a : QString) (rows : List DiffRow) :
    originalTexts ([markRemoved, a, []] :: rows) = a :: originalTexts rows ∧
      newTexts ([markRemoved, a, []] :: rows) = newTexts rows := by
  simp [originalTexts, newTexts, onOriginalSide, onNewSide, marker_row, originalText_row,
    List.filter_cons, unchanged_ne_removed, unchanged_ne_added, unchanged_ne_reordered, removed_ne_unchanged, removed_ne_added, removed_ne_reordered, added_ne_unchanged, added_ne_removed, added_ne_reordered, reordered_ne_unchanged, reordered_ne_removed, reordered_ne_added]

theorem texts_added_cons (ref : List DiffRow) (b : QString) (rows : List DiffRow) :
    originalTexts
        ([if hasRemoved ref (norm b) = true then markReordered else markAdded, [], b] :: rows)
        = originalTexts rows ∧
      newTexts
        ([if hasRemoved ref (norm b) = true then markReordered else markAdded, [], b] :: rows)
        = b :: newTexts rows := by
  rcases marker_added_row ref b with ⟨hm, _⟩ | ⟨hm, _⟩
  · rw [hm]
    simp [originalTexts, newTexts, onOriginalSide, onNewSide, marker_row, newText_row,
      List.filter_cons, unchanged_ne_removed, unchanged_ne_added, unchanged_ne_reordered, removed_ne_unchanged, removed_ne_added, removed_ne_reordered, added_ne_unchanged, added_ne_removed, added_ne_reordered, reordered_ne_unchanged, reordered_ne_removed, reordered_ne_added]
  · rw [hm]
    simp [originalTexts, newTexts, onOriginalSide, onNewSide, marker_row, newText_row,
      List.filter_cons, unchanged_ne_removed, unchanged_ne_added, unchanged_ne_reordered, removed_ne_unchanged, removed_ne_added, removed_ne_reordered, added_ne_unchanged, added_ne_removed, added_ne_reordered, reordered_ne_unchanged, reordered_ne_removed, reordered_ne_added]

theorem texts_removed_rows (ref : List DiffRow) (xs : List QString) :
    originalTexts ((xs.map (fun c => [markRemoved, c, []])).map (reclassify ref)) = xs ∧
      newTexts ((xs.map (fun c => [markRemoved, c, []])).map (reclassify ref)) = [] := by
  induction xs with
  | nil => exact ⟨rfl, rfl⟩
  | cons a xs ih =>
    rw [List.map_cons, List.map_cons, reclassify_removed_row, (texts_removed_cons a _).1,
      (texts_removed_cons a _).2, ih.1, ih.2]
    exact ⟨rfl, rfl⟩

theorem texts_added_rows (ref : List DiffRow) (ys : List QString) :
    originalTexts ((ys.map (fun b => [markAdded, [], b])).map (reclassify ref)) = [] ∧
      newTexts ((ys.map (fun b => [markAdded, [], b])).map (reclassify ref)) = ys := by
  induction ys with
  | nil => exact ⟨rfl, rfl⟩
  | cons b ys ih =>
    rw [List.map_cons, List.map_cons, reclassify_added, (texts_added_cons ref b _).1,
      (texts_added_cons ref b _).2, ih.1, ih.2]
    exact ⟨rfl, rfl⟩

/-- The raw lines are kept, in order, whatever the reorder pass compares with. -/
theorem texts_align (ref : List DiffRow) (xs ys : List QString) :
    originalTexts ((align xs ys).map (reclassify ref)) = xs ∧
      newTexts ((align xs ys).map (reclassify ref)) = ys := by
  induction xs, ys using align.induct with
  | case1 ys =>
    rw [align]
    exact texts_added_rows ref ys
  | case2 a xs =>
    rw [align]
    exact texts_removed_rows ref (a :: xs)
  | case3 a xs b ys he ih =>
    rw [align, if_pos he, List.map_cons, reclassify_unchanged, (texts_unchanged_cons a b _).1,
      (texts_unchanged_cons a b _).2, ih.1, ih.2]
    exact ⟨rfl, rfl⟩
  | case4 a xs b ys he hg ih =>
    rw [align, if_neg he, if_pos hg, List.map_cons, reclassify_removed_row,
      (texts_removed_cons a _).1, (texts_removed_cons a _).2, ih.1, ih.2]
    exact ⟨rfl, rfl⟩
  | case5 a xs b ys he hg ih =>
    rw [align, if_neg he, if_neg hg, List.map_cons, reclassify_added,
      (texts_added_cons ref b _).1, (texts_added_cons ref b _).2, ih.1, ih.2]
    exact ⟨rfl, rfl⟩

/-! ## The longest common subsequence -/

/-- No common subsequence of the normal forms is longer than `lcsLen`. -/
theorem lcsLen_upper (xs ys : List QString) :
    ∀ c : List QString, List.Sublist c (xs.map norm) → List.Sublist c (ys.map norm) →
      c.length ≤ lcsLen xs ys := by
  induction xs, ys using lcsLen.induct with
  | case1 ys =>
    intro c h1 _
    rw [List.map_nil, List.sublist_nil] at h1
    subst h1
    exact Nat.zero_le _
  | case2 a xs =>
    intro c _ h2
    rw [List.map_nil, List.sublist_nil] at h2
    subst h2
    exact Nat.zero_le _
  | case3 a xs b ys he ih =>
    intro c h1 h2
    rw [lcsLen, if_pos he]
    cases c with
    | nil => exact Nat.zero_le _
    | cons x t =>
      have := ih t h1.of_cons_cons h2.of_cons_cons
      rw [List.length_cons]
      omega
  | case4 a xs b ys he ih1 ih2 =>
    intro c h1 h2
    rw [lcsLen, if_neg he]
    have h1c := h1
    rw [List.map_cons, List.sublist_cons_iff] at h1
    rcases h1 with h1 | ⟨t, hc, ht⟩
    · have := ih1 c h1 h2
      omega
    · rw [List.map_cons, List.sublist_cons_iff] at h2
      rcases h2 with h2 | ⟨t2, hc2, _⟩
      · have := ih2 c h1c h2
        omega
      · rw [hc] at hc2
        exact absurd (List.cons.inj hc2).1 he

/-- Some common subsequence of the normal forms has length `lcsLen`. -/
theorem lcsLen_attained (xs ys : List QString) :
    ∃ c : List QString, List.Sublist c (xs.map norm) ∧ List.Sublist c (ys.map norm) ∧
      c.length = lcsLen xs ys := by
  induction xs, ys using lcsLen.induct with
  | case1 ys => exact ⟨[], List.nil_sublist _, List.nil_sublist _, by simp [lcsLen]⟩
  | case2 a xs => exact ⟨[], List.nil_sublist _, List.nil_sublist _, by simp [lcsLen]⟩
  | case3 a xs b ys he ih =>
    obtain ⟨c, h1, h2, h3⟩ := ih
    refine ⟨norm a :: c, ?_, ?_, ?_⟩
    · rw [List.map_cons]
      exact h1.cons₂ _
    · rw [List.map_cons, ← he]
      exact h2.cons₂ _
    · rw [lcsLen, if_pos he, List.length_cons, h3]
      omega
  | case4 a xs b ys he ih1 ih2 =>
    rw [lcsLen, if_neg he]
    rcases Nat.le_total (lcsLen (a :: xs) ys) (lcsLen xs (b :: ys)) with hle | hle
    · obtain ⟨c, h1, h2, h3⟩ := ih1
      refine ⟨c, ?_, h2, ?_⟩
      · rw [List.map_cons]
        exact h1.cons _
      · rw [h3, Nat.max_eq_left hle]
    · obtain ⟨c, h1, h2, h3⟩ := ih2
      refine ⟨c, h1, ?_, ?_⟩
      · rw [List.map_cons]
        exact h2.cons _
      · rw [h3, Nat.max_eq_right hle]

/-- The backtrack pushes as many unchanged rows as the recurrence promises. -/
theorem countUnchanged_align (ref : List DiffRow) (xs ys : List QString) :
    countMarker markUnchanged ((align xs ys).map (reclassify ref)) = lcsLen xs ys := by
  induction xs, ys using align.induct with
  | case1 ys =>
    rw [align, (counts_added_rows ref ys).1, lcsLen]
  | case2 a xs =>
    rw [align, (counts_removed_rows ref (a :: xs)).1, lcsLen]
  | case3 a xs b ys he ih =>
    rw [align, if_pos he, lcsLen, if_pos he, List.map_cons, reclassify_unchanged,
      countMarker_cons, marker_row, ih, if_pos rfl]
    omega
  | case4 a xs b ys he hg ih =>
    rw [align, if_neg he, if_pos hg, lcsLen, if_neg he, List.map_cons, reclassify_removed_row,
      countMarker_cons, marker_row, ih, if_neg removed_ne_unchanged, Nat.max_eq_left hg]
    rfl
  | case5 a xs b ys he hg ih =>
    rw [align, if_neg he, if_neg hg, lcsLen, if_neg he, List.map_cons, reclassify_added,
      countMarker_cons, marker_row, ih, Nat.max_eq_right (by omega)]
    rcases marker_added_row ref b with ⟨hm, _⟩ | ⟨hm, _⟩
    · rw [hm, if_neg reordered_ne_unchanged]
      rfl
    · rw [hm, if_neg added_ne_unchanged]
      rfl

/-! ## Equal sequences -/

theorem align_self (xs : List QString) :
    align xs xs = xs.map (fun l => [markUnchanged, l, l]) := by
  induction xs with
  | nil => rw [align]; rfl
  | cons a xs ih => rw [align, if_pos rfl, ih, List.map_cons]

theorem reclassify_unchanged_rows (ref : List DiffRow) (xs : List QString) :
    (xs.map (fun l => [markUnchanged, l, l])).map (reclassify ref)
      = xs.map (fun l => [markUnchanged, l, l]) := by
  induction xs with
  | nil => rfl
  | cons a xs ih => rw [List.map_cons, List.map_cons, reclassify_unchanged, ih]

theorem countMarker_unchanged_rows (mk : QString) (xs : List QString)
    (h : markUnchanged ≠ mk) :
    countMarker mk (xs.map (fun l => [markUnchanged, l, l])) = 0 := by
  induction xs with
  | nil => rfl
  | cons a xs ih => rw [List.map_cons, countMarker_cons, ih, marker_row, if_neg h]

/-! ## Sequences without a common line -/

theorem lcsLen_disjoint (xs ys : List QString)
    (h : ∀ a ∈ xs, ∀ b ∈ ys, norm a ≠ norm b) : lcsLen xs ys = 0 := by
  induction xs, ys using lcsLen.induct with
  | case1 ys => rw [lcsLen]
  | case2 a xs => rw [lcsLen]
  | case3 a xs b ys he ih =>
    exact absurd he (h a (List.mem_cons_self _ _) b (List.mem_cons_self _ _))
  | case4 a xs b ys he ih1 ih2 =>
    rw [lcsLen, if_neg he,
      ih1 (fun x hx y hy => h x (List.mem_cons_of_mem _ hx) y hy),
      ih2 (fun x hx y hy => h x hx y (List.mem_cons_of_mem _ hy))]
    rfl

theorem align_disjoint (xs ys : List QString)
    (h : ∀ a ∈ xs, ∀ b ∈ ys, norm a ≠ norm b) :
    align xs ys =
      xs.map (fun c => [markRemoved, c, []]) ++ ys.map (fun b => [markAdded, [], b]) := by
  induction xs with
  | nil => rw [align]; rfl
  | cons a xs ih =>
    cases ys with
    | nil => rw [align_nil_right]; simp
    | cons b ys =>
      have he : ¬ norm a = norm b := h a (List.mem_cons_self _ _) b (List.mem_cons_self _ _)
      have h1 : lcsLen xs (b :: ys) = 0 :=
        lcsLen_disjoint _ _ (fun x hx y hy => h x (List.mem_cons_of_mem _ hx) y hy)
      have h2 : lcsLen (a :: xs) ys = 0 :=
        lcsLen_disjoint _ _ (fun x hx y hy => h x hx y (List.mem_cons_of_mem _ hy))
      rw [align, if_neg he, if_pos (by rw [h1, h2]),
        ih (fun x hx y hy => h x (List.mem_cons_of_mem _ hx) y hy)]
      rfl

theorem reclassify_of_not_hasRemoved (ref : List DiffRow) (ys : List QString)
    (h : ∀ b ∈ ys, hasRemoved ref (norm b) = false) :
    (ys.map (fun b => [markAdded, [], b])).map (reclassify ref)
      = ys.map (fun b => [markAdded, [], b]) := by
  induction ys with
  | nil => rfl
  | cons b ys ih =>
    rw [List.map_cons, List.map_cons, reclassify_added,
      ih (fun y hy => h y (List.mem_cons_of_mem _ hy)), h b (List.mem_cons_self _ _)]
    rfl

theorem reclassify_removed_rows (ref : List DiffRow) (xs : List QString) :
    (xs.map (fun c => [markRemoved, c, []])).map (reclassify ref)
      = xs.map (fun c => [markRemoved, c, []]) := by
  induction xs with
  | nil => rfl
  | cons a xs ih => rw [List.map_cons, List.map_cons, reclassify_removed_row, ih]

theorem hasRemoved_disjoint (xs ys : List QString) (b : QString)
    (h : ∀ a ∈ xs, norm a ≠ norm b) :
    hasRemoved
      (xs.map (fun c => [markRemoved, c, []]) ++ ys.map (fun y => [markAdded, [], y]))
      (norm b) = false := by
  rw [Bool.eq_false_iff]
  intro hc
  rw [hasRemoved_iff] at hc
  obtain ⟨q, hq, hm, hn⟩ := hc
  rw [List.mem_append, List.mem_map, List.mem_map] at hq
  rcases hq with ⟨a, ha, hqa⟩ | ⟨y, _, hqy⟩
  · subst hqa
    exact h a ha hn
  · subst hqy
    exact added_ne_removed hm

/-! ## Dependence on the normal forms only -/

theorem lcsLen_congr (xs ys : List QString) :
    ∀ xs2 ys2 : List QString, List.Forall₂ SameNorm xs xs2 → List.Forall₂ SameNorm ys ys2 →
      lcsLen xs ys = lcsLen xs2 ys2 := by
  induction xs, ys using lcsLen.induct with
  | case1 ys =>
    intro xs2 ys2 hx _
    cases hx
    rw [lcsLen, lcsLen]
  | case2 a xs =>
    intro xs2 ys2 hx hy
    cases hy
    rw [lcsLen_nil_right, lcsLen_nil_right]
  | case3 a xs b ys he ih =>
    intro xs2 ys2 hx hy
    cases hx with
    | cons ha hx =>
      cases hy with
      | cons hb hy =>
        unfold SameNorm at ha hb
        rw [lcsLen, lcsLen, if_pos he, if_pos (by rw [← ha, ← hb, he]), ih _ _ hx hy]
  | case4 a xs b ys he ih1 ih2 =>
    intro xs2 ys2 hx hy
    cases hx with
    | cons ha hx =>
      cases hy with
      | cons hb hy =>
        have ha2 := ha
        have hb2 := hb
        unfold SameNorm at ha2 hb2
        rw [lcsLen, lcsLen, if_neg he, if_neg (by rw [← ha2, ← hb2]; exact he),
          ih1 _ _ hx (List.Forall₂.cons hb hy), ih2 _ _ (List.Forall₂.cons ha hx) hy]

theorem rowRel_removed_rows (xs xs2 : List QString) (h : List.Forall₂ SameNorm xs xs2) :
    List.Forall₂ RowRel (xs.map (fun c => [markRemoved, c, []]))
      (xs2.map (fun c => [markRemoved, c, []])) := by
  induction h with
  | nil => exact List.Forall₂.nil
  | cons ha _ ih => exact List.Forall₂.cons ⟨rfl, ha, rfl⟩ ih

theorem rowRel_added_rows (ys ys2 : List QString) (h : List.Forall₂ SameNorm ys ys2) :
    List.Forall₂ RowRel (ys.map (fun b => [markAdded, [], b]))
      (ys2.map (fun b => [markAdded, [], b])) := by
  induction h with
  | nil => exact List.Forall₂.nil
  | cons hb _ ih => exact List.Forall₂.cons ⟨rfl, rfl, hb⟩ ih

theorem align_congr (xs ys : List QString) :
    ∀ xs2 ys2 : List QString, List.Forall₂ SameNorm xs xs2 → List.Forall₂ SameNorm ys ys2 →
      List.Forall₂ RowRel (align xs ys) (align xs2 ys2) := by
  induction xs, ys using align.induct with
  | case1 ys =>
    intro xs2 ys2 hx hy
    cases hx
    rw [align, align]
    exact rowRel_added_rows _ _ hy
  | case2 a xs =>
    intro xs2 ys2 hx hy
    cases hy
    rw [align_nil_right, align_nil_right]
    exact rowRel_removed_rows _ _ hx
  | case3 a xs b ys he ih =>
    intro xs2 ys2 hx hy
    obtain ⟨a2, xt, ha, hxt, rfl⟩ := List.forall₂_cons_left_iff.mp hx
    obtain ⟨b2, yt, hb, hyt, rfl⟩ := List.forall₂_cons_left_iff.mp hy
    have he2 : norm a2 = norm b2 := by
      rw [← show norm a = norm a2 from ha, ← show norm b = norm b2 from hb, he]
    have e1 : align (a :: xs) (b :: ys) = [markUnchanged, a, b] :: align xs ys := by
      rw [align, if_pos he]
    have e2 : align (a2 :: xt) (b2 :: yt) = [markUnchanged, a2, b2] :: align xt yt := by
      rw [align, if_pos he2]
    rw [e1, e2]
    exact List.Forall₂.cons ⟨rfl, ha, hb⟩ (ih _ _ hxt hyt)
  | case4 a xs b ys he hg ih =>
    intro xs2 ys2 hx hy
    obtain ⟨a2, xt, ha, hxt, rfl⟩ := List.forall₂_cons_left_iff.mp hx
    obtain ⟨b2, yt, hb, hyt, rfl⟩ := List.forall₂_cons_left_iff.mp hy
    have he2 : ¬ norm a2 = norm b2 := by
      rw [← show norm a = norm a2 from ha, ← show norm b = norm b2 from hb]
      exact he
    have hg2 : lcsLen xt (b2 :: yt) ≥ lcsLen (a2 :: xt) yt := by
      rw [← lcsLen_congr _ _ _ _ hxt hy,
        ← lcsLen_congr _ _ _ _ hx hyt]
      exact hg
    have e1 : align (a :: xs) (b :: ys) = [markRemoved, a, []] :: align xs (b :: ys) := by
      rw [align, if_neg he, if_pos hg]
    have e2 : align (a2 :: xt) (b2 :: yt) = [markRemoved, a2, []] :: align xt (b2 :: yt) := by
      rw [align, if_neg he2, if_pos hg2]
    rw [e1, e2]
    exact List.Forall₂.cons ⟨rfl, ha, rfl⟩ (ih _ _ hxt hy)
  | case5 a xs b ys he hg ih =>
    intro xs2 ys2 hx hy
    obtain ⟨a2, xt, ha, hxt, rfl⟩ := List.forall₂_cons_left_iff.mp hx
    obtain ⟨b2, yt, hb, hyt, rfl⟩ := List.forall₂_cons_left_iff.mp hy
    have he2 : ¬ norm a2 = norm b2 := by
      rw [← show norm a = norm a2 from ha, ← show norm b = norm b2 from hb]
      exact he
    have hg2 : ¬ lcsLen xt (b2 :: yt) ≥ lcsLen (a2 :: xt) yt := by
      rw [← lcsLen_congr _ _ _ _ hxt hy,
        ← lcsLen_congr _ _ _ _ hx hyt]
      exact hg
    have e1 : align (a :: xs) (b :: ys) = [markAdded, [], b] :: align (a :: xs) ys := by
      rw [align, if_neg he, if_neg hg]
    have e2 : align (a2 :: xt) (b2 :: yt) = [markAdded, [], b2] :: align (a2 :: xt) yt := by
      rw [align, if_neg he2, if_neg hg2]
    rw [e1, e2]
    exact List.Forall₂.cons ⟨rfl, rfl, hb⟩ (ih _ _ hx hyt)

theorem hasRemoved_congr (ref ref2 : List DiffRow) (h : List.Forall₂ RowRel ref ref2)
    (a : QString) : hasRemoved ref a = hasRemoved ref2 a := by
  induction h with
  | nil => rfl
  | cons hr _ ih =>
    unfold hasRemoved at ih ⊢
    rw [List.any_cons, List.any_cons, ih]
    obtain ⟨h1, h2, _⟩ := hr
    rw [h1, h2]

theorem marker_reclassify_congr (ref ref2 : List DiffRow) (r q : DiffRow)
    (href : ∀ a, hasRemoved ref a = hasRemoved ref2 a) (h : RowRel r q) :
    marker (reclassify ref r) = marker (reclassify ref2 q) := by
  obtain ⟨h1, _, h3⟩ := h
  unfold reclassify
  by_cases hc : marker r = markAdded ∧ hasRemoved ref (norm (newText r)) = true
  · have hc2 : marker q = markAdded ∧ hasRemoved ref2 (norm (newText q)) = true := by
      rw [← h1, ← h3, ← href]
      exact hc
    rw [if_pos hc, if_pos hc2, (marker_set r _ hc.1).1, (marker_set q _ hc2.1).1]
  · have hc2 : ¬ (marker q = markAdded ∧ hasRemoved ref2 (norm (newText q)) = true) := by
      rw [← h1, ← h3, ← href]
      exact hc
    rw [if_neg hc, if_neg hc2, h1]

theorem markers_congr (ref ref2 rows rows2 : List DiffRow)
    (href : ∀ a, hasRemoved ref a = hasRemoved ref2 a) (h : List.Forall₂ RowRel rows rows2) :
    (rows.map (reclassify ref)).map marker = (rows2.map (reclassify ref2)).map marker := by
  induction h with
  | nil => rfl
  | cons hr _ ih =>
    rw [List.map_cons, List.map_cons, List.map_cons, List.map_cons, ih,
      marker_reclassify_congr ref ref2 _ _ href hr]

theorem forall₂_of_lineAt (xs xs2 : List QString) (hl : xs.length = xs2.length)
    (h : ∀ i, i < xs.length → norm (lineAt xs i) = norm (lineAt xs2 i)) :
    List.Forall₂ SameNorm xs xs2 := by
  induction xs generalizing xs2 with
  | nil =>
    cases xs2 with
    | nil => exact List.Forall₂.nil
    | cons _ _ => simp at hl
  | cons a xs ih =>
    cases xs2 with
    | nil => simp at hl
    | cons b xs2 =>
      refine List.Forall₂.cons (h 0 (by simp)) (ih xs2 (by simpa using hl) ?_)
      intro i hi
      exact h (i + 1) (by simpa using hi)

theorem fieldAt_zero_eq (rows : List DiffRow) (k : Nat) :
    fieldAt rows k 0 = (rows.map marker).getD k [] := by
  unfold fieldAt
  have h := List.getD_map (l := rows) (d := ([] : DiffRow)) (n := k) marker
  rw [show marker ([] : DiffRow) = [] from rfl] at h
  rw [h]
  rfl

/-! ## The claims about `diffLines` -/

/-- C1. Line conservation: in the result of `diffLines` the Unchanged and Removed rows
together are as many as the original lines, and the Unchanged, Added and Reordered rows
together are as many as the new lines. -/
theorem diffLines_line_conservation (originalLines newLines : List QString) :
    countMarker markUnchanged (diffLines originalLines newLines)
        + countMarker markRemoved (diffLines originalLines newLines) = originalLines.length ∧
    countMarker markUnchanged (diffLines originalLines newLines)
        + countMarker markAdded (diffLines originalLines newLines)
        + countMarker markReordered (diffLines originalLines newLines) = newLines.length := by
  rw [diffLines_eq]
  exact counts_align _ originalLines newLines

/-- C2. The number of Unchanged rows of `diffLines` is the length of a longest common
subsequence of the two sequences of line-normal forms: some common subsequence has that
length and no common subsequence is longer. -/
theorem diffLines_unchanged_is_lcs (originalLines newLines : List QString) :
    (∃ c : List QString, List.Sublist c (originalLines.map norm) ∧
        List.Sublist c (newLines.map norm) ∧
        c.length = countMarker markUnchanged (diffLines originalLines newLines)) ∧
    (∀ c : List QString, List.Sublist c (originalLines.map norm) →
        List.Sublist c (newLines.map norm) →
        c.length ≤ countMarker markUnchanged (diffLines originalLines newLines)) := by
  rw [diffLines_eq, countUnchanged_align]
  exact ⟨lcsLen_attained originalLines newLines, lcsLen_upper originalLines newLines⟩

/-- C3. The raw lines are stored and none is lost: the original texts of the Unchanged and
Removed rows, in row order, are the original sequence, and the new texts of the Unchanged,
Added and Reordered rows, in row order, are the new sequence. -/
theorem diffLines_keeps_raw_lines (originalLines newLines : List QString) :
    ((diffLines originalLines newLines).filter
        (fun row => decide (marker row = markUnchanged ∨ marker row = markRemoved))).map
        originalText = originalLines ∧
    ((diffLines originalLines newLines).filter
        (fun row => decide (marker row = markUnchanged ∨ marker row = markAdded ∨
          marker row = markReordered))).map newText = newLines := by
  rw [diffLines_eq]
  exact texts_align _ originalLines newLines

/-- C4. Reflexivity: `diffLines X X` is one Unchanged row per line of `X`, the row of
`X[k]` holding it as original and as new text; it has `len X` rows and no Removed, Added or
Reordered row. -/
theorem diffLines_self (X : List QString) :
    diffLines X X = X.map (fun l => [markUnchanged, l, l]) ∧
      (diffLines X X).length = X.length ∧
      (∀ k, k < X.length →
        (diffLines X X).getD k [] = [markUnchanged, lineAt X k, lineAt X k]) ∧
      countMarker markRemoved (diffLines X X) = 0 ∧
      countMarker markAdded (diffLines X X) = 0 ∧
      countMarker markReordered (diffLines X X) = 0 := by
  have h : diffLines X X = X.map (fun l => [markUnchanged, l, l]) := by
    rw [diffLines_eq, align_self, reclassify_unchanged_rows]
  rw [h]
  refine ⟨rfl, List.length_map _ _, ?_, countMarker_unchanged_rows _ X unchanged_ne_removed,
    countMarker_unchanged_rows _ X unchanged_ne_added,
    countMarker_unchanged_rows _ X unchanged_ne_reordered⟩
  intro k hk
  unfold lineAt
  rw [List.getD_eq_getElem _ _ (by simpa using hk), List.getD_eq_getElem _ _ hk]
  simp

/-- C5. The rows of `diffLines ["x","y"] ["y","x"]`: the loops push Removed "x",
Unchanged "y"/"y", Added "x", and the reorder pass turns the Added row into Reordered,
leaving the Removed row as it is. -/
theorem diffLines_swapped_pair :
    pushedRows [['x'], ['y']] [['y'], ['x']]
        = [[markRemoved, ['x'], []], [markUnchanged, ['y'], ['y']], [markAdded, [], ['x']]] ∧
      diffLines [['x'], ['y']] [['y'], ['x']]
        = [[markRemoved, ['x'], []], [markUnchanged, ['y'], ['y']],
            [markReordered, [], ['x']]] := by
  decide

/-- C6. The reorder pass: a row of the result that is neither Unchanged nor Removed is
marked Reordered or Added, and Reordered exactly when some Removed row of the result has an
original text with the line-normal form of the row's new text; a row pushed as Removed is
the same row in the result. -/
theorem diffLines_reorder_marking (originalLines newLines : List QString) :
    (∀ r ∈ diffLines originalLines newLines,
        marker r ≠ markUnchanged → marker r ≠ markRemoved →
        (marker r = markReordered ∨ marker r = markAdded) ∧
        (marker r = markReordered ↔
          ∃ q ∈ diffLines originalLines newLines,
            marker q = markRemoved ∧ norm (originalText q) = norm (newText r))) ∧
    (diffLines originalLines newLines).length = (pushedRows originalLines newLines).length ∧
    (∀ k, fieldAt (pushedRows originalLines newLines) k 0 = markRemoved →
        (diffLines originalLines newLines).getD k []
          = (pushedRows originalLines newLines).getD k []) := by
  refine ⟨?_, ?_, ?_⟩
  · intro r hr hu hrm
    rcases diffLines_rows originalLines newLines r hr with
      ⟨a, b, h, _⟩ | ⟨a, h⟩ | ⟨b, h, hb⟩ | ⟨b, h, hb⟩
    · subst h; exact absurd rfl hu
    · subst h; exact absurd rfl hrm
    · subst h
      refine ⟨Or.inr rfl, ?_⟩
      rw [← hasRemoved_iff, newText_row, hb, marker_row]
      exact ⟨fun hc => absurd hc added_ne_reordered, fun hc => absurd hc (by decide)⟩
    · subst h
      refine ⟨Or.inl rfl, ?_⟩
      rw [← hasRemoved_iff, newText_row, hb, marker_row]
      exact ⟨fun _ => rfl, fun _ => rfl⟩
  · rw [diffLines_eq, pushedRows_eq, List.length_map]
  · intro k hk
    rw [diffLines_eq, pushedRows_eq]
    rw [pushedRows_eq] at hk
    have hmap := List.getD_map (l := align originalLines newLines) (d := ([] : DiffRow))
      (n := k) (reclassify (align originalLines newLines))
    have hnil : reclassify (align originalLines newLines) [] = [] := by
      unfold reclassify
      rw [if_neg]
      intro hc
      exact absurd (show ([] : QString) = markAdded from hc.1) (by decide)
    rw [hnil] at hmap
    rw [hmap]
    unfold reclassify
    rw [if_neg]
    intro hc
    have hk2 : marker ((align originalLines newLines).getD k []) = markRemoved := hk
    rw [hk2] at hc
    exact removed_ne_added hc.1

/-- C7. Sequences without a common line-normal form: the result is the original lines as
Removed rows, in order, followed by the new lines as Added rows, in order. -/
theorem diffLines_no_common_line (originalLines newLines : List QString)
    (h : ∀ a ∈ originalLines, ∀ b ∈ newLines, norm a ≠ norm b) :
    diffLines originalLines newLines =
      originalLines.map (fun c => [markRemoved, c, []])
        ++ newLines.map (fun b => [markAdded, [], b]) := by
  rw [diffLines_eq, align_disjoint _ _ h, List.map_append, reclassify_removed_rows,
    reclassify_of_not_hasRemoved]
  intro b hb
  exact hasRemoved_disjoint _ _ b (fun a ha => h a ha b hb)

/-- C7 at concrete inputs: two empty sequences give the empty result, and `["a","b"]`
against `["c"]` gives Removed "a", Removed "b", Added "c". -/
theorem diffLines_no_common_line_witness :
    diffLines [] [] = [] ∧
      diffLines [['a'], ['b']] [['c']]
        = [[markRemoved, ['a'], []], [markRemoved, ['b'], []], [markAdded, [], ['c']]] :=
  ⟨diffLines_no_common_line [] [] (by decide),
    diffLines_no_common_line [['a'], ['b']] [['c']] (by decide)⟩

/-- C8. Every row of the result has three fields and one of the four markers; a Removed
row has an empty new text, an Added or Reordered row an empty original text, and the two
texts of an Unchanged row have the same line-normal form. -/
theorem diffLines_row_shape (originalLines newLines : List QString) (r : DiffRow)
    (hr : r ∈ diffLines originalLines newLines) :
    r.length = 3 ∧
      (marker r = markUnchanged ∨ marker r = markRemoved ∨ marker r = markAdded ∨
        marker r = markReordered) ∧
      (marker r = markRemoved → newText r = []) ∧
      (marker r = markAdded ∨ marker r = markReordered → originalText r = []) ∧
      (marker r = markUnchanged → norm (originalText r) = norm (newText r)) := by
  rcases diffLines_rows originalLines newLines r hr with
    ⟨a, b, h, he⟩ | ⟨a, h⟩ | ⟨b, h, _⟩ | ⟨b, h, _⟩
  · subst h
    refine ⟨rfl, Or.inl rfl, fun hc => absurd hc unchanged_ne_removed, ?_, fun _ => he⟩
    rintro (hc | hc)
    · exact absurd hc unchanged_ne_added
    · exact absurd hc unchanged_ne_reordered
  · subst h
    refine ⟨rfl, Or.inr (Or.inl rfl), fun _ => rfl, ?_,
      fun hc => absurd hc removed_ne_unchanged⟩
    rintro (hc | hc)
    · exact absurd hc removed_ne_added
    · exact absurd hc removed_ne_reordered
  · subst h
    exact ⟨rfl, Or.inr (Or.inr (Or.inl rfl)), fun hc => absurd hc added_ne_removed,
      fun _ => rfl, fun hc => absurd hc added_ne_unchanged⟩
  · subst h
    exact ⟨rfl, Or.inr (Or.inr (Or.inr rfl)), fun hc => absurd hc reordered_ne_removed,
      fun _ => rfl, fun hc => absurd hc reordered_ne_unchanged⟩

/-- C8 at a concrete row: the Reordered row of `diffLines ["x","y"] ["y","x"]`. -/
theorem diffLines_row_shape_witness :
    [markReordered, [], ['x']] ∈ diffLines [['x'], ['y']] [['y'], ['x']] ∧
      ([markReordered, [], ['x']] : DiffRow).length = 3 ∧
      originalText [markReordered, [], ['x']] = [] :=
  ⟨by decide,
    (diffLines_row_shape [['x'], ['y']] [['y'], ['x']] [markReordered, [], ['x']]
      (by decide)).1,
    (diffLines_row_shape [['x'], ['y']] [['y'], ['x']] [markReordered, [], ['x']]
      (by decide)).2.2.2.1 (Or.inr rfl)⟩

/-- C9. The markers depend on the line-normal forms only: when the original sequences
agree line by line up to normal form, and so do the new sequences, the two results have
the same length and the same marker in every row. -/
theorem diffLines_markers_congr (X X2 Y Y2 : List QString)
    (hX : X.length = X2.length) (hY : Y.length = Y2.length)
    (hXn : ∀ i, i < X.length → norm (lineAt X i) = norm (lineAt X2 i))
    (hYn : ∀ j, j < Y.length → norm (lineAt Y j) = norm (lineAt Y2 j)) :
    (diffLines X Y).length = (diffLines X2 Y2).length ∧
      ∀ k, fieldAt (diffLines X Y) k 0 = fieldAt (diffLines X2 Y2) k 0 := by
  have hrel := align_congr X Y X2 Y2 (forall₂_of_lineAt X X2 hX hXn)
    (forall₂_of_lineAt Y Y2 hY hYn)
  have hm : (diffLines X Y).map marker = (diffLines X2 Y2).map marker := by
    rw [diffLines_eq, diffLines_eq]
    exact markers_congr _ _ _ _ (hasRemoved_congr _ _ hrel) hrel
  refine ⟨?_, ?_⟩
  · have := congrArg List.length hm
    simpa using this
  · intro k
    rw [fieldAt_zero_eq, fieldAt_zero_eq, hm]

/-- C9 at concrete inputs: `["a  b", "c"]` against `["c"]` and `[" a b", "c "]` against
`["\tc"]` give results of the same length with the same markers. -/
theorem diffLines_markers_congr_witness :
    (diffLines [['a', ' ', ' ', 'b'], ['c']] [['c']]).length
        = (diffLines [[' ', 'a', ' ', 'b'], ['c', ' ']] [['\t', 'c']]).length ∧
      ∀ k, fieldAt (diffLines [['a', ' ', ' ', 'b'], ['c']] [['c']]) k 0
        = fieldAt (diffLines [[' ', 'a', ' ', 'b'], ['c', ' ']] [['\t', 'c']]) k 0 :=
  diffLines_markers_congr [['a', ' ', ' ', 'b'], ['c']] [[' ', 'a', ' ', 'b'], ['c', ' ']]
    [['c']] [['\t', 'c']] rfl rfl
    (by
      intro i hi
      have hi2 : i < 2 := hi
      interval_cases i <;> decide)
    (by
      intro j hj
      have hj2 : j < 1 := hj
      interval_cases j
      decide)

/-! ## Regular-expression replacement -/

theorem matchSpaces_cons (c : Char) (cs : QString) :
    matchSpaces (c :: cs) =
      if isRegexSpace c = true then some (cs.dropWhile isRegexSpace) else none := rfl

theorem matchSpaces_shrinks : Shrinks matchSpaces := by
  intro s rest h
  cases s with
  | nil => exact absurd h (by simp [matchSpaces])
  | cons c cs =>
    rw [matchSpaces_cons] at h
    split at h
    · have := (List.dropWhile_suffix isRegexSpace (l := cs)).length_le
      rw [← Option.some.inj h, List.length_cons]
      omega
    · exact absurd h (by simp)

theorem matchBrace_shrinks (b : Char) : Shrinks (matchBrace b) := by
  intro s rest h
  unfold matchBrace at h
  have h1 := (List.dropWhile_suffix isRegexSpace (l := s)).length_le
  split at h
  · exact absurd h (by simp)
  · rename_i c t heq
    split at h
    · have h2 := (List.dropWhile_suffix isRegexSpace (l := t)).length_le
      rw [heq, List.length_cons] at h1
      rw [← Option.some.inj h]
      omega
    · exact absurd h (by simp)

/-- More fuel than characters changes nothing. -/
theorem replaceRegex_fuel (m : QString → Option QString) (after : QString) (hm : Shrinks m) :
    ∀ (f1 f2 : Nat) (s : QString), s.length ≤ f1 → s.length ≤ f2 →
      replaceRegex m after f1 s = replaceRegex m after f2 s := by
  intro f1
  induction f1 with
  | zero =>
    intro f2 s h1 _
    have hs : s = [] := List.length_eq_zero.mp (by omega)
    subst hs
    cases f2 <;> rfl
  | succ f1 ih =>
    intro f2 s h1 h2
    cases s with
    | nil => cases f2 <;> rfl
    | cons c cs =>
      cases f2 with
      | zero => simp at h2
      | succ f2 =>
        rw [replaceRegex, replaceRegex]
        rw [List.length_cons] at h1 h2
        cases hmc : m (c :: cs) with
        | none => simp only []; rw [ih f2 cs (by omega) (by omega)]
        | some rest =>
          have := hm _ _ hmc
          rw [List.length_cons] at this
          simp only []
          rw [ih f2 rest (by omega) (by omega)]

theorem replaceAll_nil (m : QString → Option QString) (after : QString) :
    replaceAll m after [] = [] := rfl

theorem replaceAll_cons_some (m : QString → Option QString) (after : QString) (hm : Shrinks m)
    (c : Char) (cs rest : QString) (h : m (c :: cs) = some rest) :
    replaceAll m after (c :: cs) = after ++ replaceAll m after rest := by
  have hl := hm _ _ h
  rw [List.length_cons] at hl
  unfold replaceAll
  rw [List.length_cons, replaceRegex, h]
  simp only []
  rw [replaceRegex_fuel m after hm cs.length rest.length rest (by omega) (le_refl _)]

theorem replaceAll_cons_none (m : QString → Option QString) (after : QString)
    (c : Char) (cs : QString) (h : m (c :: cs) = none) :
    replaceAll m after (c :: cs) = c :: replaceAll m after cs := by
  unfold replaceAll
  rw [List.length_cons, replaceRegex, h]

/-! ## The brace patterns -/

theorem matchBrace_nil (b : Char) : matchBrace b [] = none := rfl

theorem matchBrace_space (b c : Char) (cs : QString) (hc : isRegexSpace c = true) :
    matchBrace b (c :: cs) = matchBrace b cs := by
  unfold matchBrace
  rw [List.dropWhile_cons_of_pos hc]

theorem matchBrace_self (b : Char) (cs : QString) (hb : isRegexSpace b = false) :
    matchBrace b (b :: cs) = some (cs.dropWhile isRegexSpace) := by
  unfold matchBrace
  rw [List.dropWhile_cons_of_neg (by simp [hb])]
  simp

theorem matchBrace_other (b c : Char) (cs : QString) (hc : isRegexSpace c = false)
    (hcb : c ≠ b) : matchBrace b (c :: cs) = none := by
  unfold matchBrace
  rw [List.dropWhile_cons_of_neg (by simp [hc])]
  simp [hcb]

theorem dropWhile_head_not (p : Char → Bool) (s : QString) :
    ∀ d ∈ (s.dropWhile p).head?, p d = false := by
  induction s with
  | nil => intro d hd; simp at hd
  | cons c cs ih =>
    by_cases hc : p c = true
    · rw [List.dropWhile_cons_of_pos hc]
      exact ih
    · rw [List.dropWhile_cons_of_neg hc]
      intro d hd
      simp only [List.head?_cons, Option.mem_def, Option.some.injEq] at hd
      subst hd
      simpa using hc

theorem dropWhile_of_head (p : Char → Bool) (s : QString) (h : ∀ d ∈ s.head?, p d = false) :
    s.dropWhile p = s := by
  cases s with
  | nil => rfl
  | cons d ds =>
    rw [List.dropWhile_cons_of_neg]
    simp [h d (by simp)]

/-- What is left after a brace match is the end of the text and starts with no white space. -/
theorem matchBrace_rest (b : Char) (hb : isRegexSpace b = false) :
    ∀ (s rest : QString), matchBrace b s = some rest →
      rest <:+ s ∧ ∀ d ∈ rest.head?, isRegexSpace d = false := by
  intro s
  induction s with
  | nil => intro rest h; exact absurd h (by simp [matchBrace_nil])
  | cons c cs ih =>
    intro rest h
    by_cases hc : isRegexSpace c = true
    · rw [matchBrace_space b c cs hc] at h
      obtain ⟨h1, h2⟩ := ih rest h
      exact ⟨h1.trans (List.suffix_cons c cs), h2⟩
    · have hc2 : isRegexSpace c = false := by simpa using hc
      by_cases hcb : c = b
      · subst hcb
        rw [matchBrace_self c cs hb] at h
        rw [← Option.some.inj h]
        exact ⟨(List.dropWhile_suffix _).trans (List.suffix_cons c cs), dropWhile_head_not isRegexSpace cs⟩
      · rw [matchBrace_other b c cs hc2 hcb] at h
        exact absurd h (by simp)

theorem brace_head (b c : Char) (cs : QString) :
    (replaceAll (matchBrace b) [b] (c :: cs)).head? =
      some (if (matchBrace b (c :: cs)).isSome = true then b else c) := by
  cases h : matchBrace b (c :: cs) with
  | none => rw [replaceAll_cons_none _ _ c cs h]; rfl
  | some rest => rw [replaceAll_cons_some _ _ (matchBrace_shrinks b) c cs rest h]; rfl

/-- A brace pass keeps every adjacency condition that the brace itself never violates. -/
theorem brace_chain_keep (R : Char → Char → Prop) (b : Char) (hb : isRegexSpace b = false)
    (h1 : ∀ u, R u b) (h2 : ∀ v, R b v) :
    ∀ (k : Nat) (s : QString), s.length ≤ k → List.Chain' R s →
      List.Chain' R (replaceAll (matchBrace b) [b] s) := by
  intro k
  induction k with
  | zero =>
    intro s hs _
    have : s = [] := List.length_eq_zero.mp (by omega)
    subst this
    exact List.chain'_nil
  | succ k ih =>
    intro s hs hch
    cases s with
    | nil => exact List.chain'_nil
    | cons c cs =>
      rw [List.length_cons] at hs
      cases h : matchBrace b (c :: cs) with
      | some rest =>
        rw [replaceAll_cons_some _ _ (matchBrace_shrinks b) c cs rest h]
        have hl := matchBrace_shrinks b _ _ h
        rw [List.length_cons] at hl
        have hsuf := (matchBrace_rest b hb _ _ h).1
        exact (ih rest (by omega) (hch.suffix hsuf)).cons' (fun y _ => h2 y)
      | none =>
        rw [replaceAll_cons_none _ _ c cs h]
        refine (ih cs (by omega) hch.tail).cons' ?_
        intro y hy
        cases cs with
        | nil => simp [replaceAll_nil] at hy
        | cons d ds =>
          rw [brace_head] at hy
          simp only [Option.mem_def, Option.some.injEq] at hy
          subst hy
          split
          · exact h1 c
          · exact (List.chain'_cons.mp hch).1

/-- After a brace pass no white space is next to the brace. -/
theorem brace_chain_make (b : Char) (hb : isRegexSpace b = false) :
    ∀ (k : Nat) (s : QString), s.length ≤ k →
      List.Chain' (NoSpaceAt b) (replaceAll (matchBrace b) [b] s) := by
  intro k
  induction k with
  | zero =>
    intro s hs
    have : s = [] := List.length_eq_zero.mp (by omega)
    subst this
    exact List.chain'_nil
  | succ k ih =>
    intro s hs
    cases s with
    | nil => exact List.chain'_nil
    | cons c cs =>
      rw [List.length_cons] at hs
      cases h : matchBrace b (c :: cs) with
      | some rest =>
        rw [replaceAll_cons_some _ _ (matchBrace_shrinks b) c cs rest h]
        have hl := matchBrace_shrinks b _ _ h
        rw [List.length_cons] at hl
        have hhead := (matchBrace_rest b hb _ _ h).2
        refine (ih rest (by omega)).cons' ?_
        intro y hy
        cases rest with
        | nil => simp [replaceAll_nil] at hy
        | cons d ds =>
          have hd : isRegexSpace d = false := hhead d (by simp)
          rw [brace_head] at hy
          simp only [Option.mem_def, Option.some.injEq] at hy
          subst hy
          split
          · exact ⟨fun hc => by simp [hb] at hc, fun hc => by simp [hb] at hc⟩
          · exact ⟨fun hc => by simp [hd] at hc, fun hc => by simp [hb] at hc⟩
      | none =>
        rw [replaceAll_cons_none _ _ c cs h]
        refine (ih cs (by omega)).cons' ?_
        intro y hy
        have hcb : c ≠ b := by
          intro e
          subst e
          rw [matchBrace_self c cs hb] at h
          exact absurd h (by simp)
        cases cs with
        | nil => simp [replaceAll_nil] at hy
        | cons d ds =>
          rw [brace_head] at hy
          simp only [Option.mem_def, Option.some.injEq] at hy
          subst hy
          split
          · rename_i hm
            refine ⟨fun hc => hcb hc.1, fun hc => ?_⟩
            rw [matchBrace_space b c _ hc.1] at h
            rw [h] at hm
            exact absurd hm (by simp)
          · rename_i hm
            refine ⟨fun hc => hcb hc.1, fun hc => ?_⟩
            rw [hc.2, matchBrace_self b ds hb] at hm
            exact hm rfl

/-- A brace pass adds no character other than the brace. -/
theorem brace_mem (b : Char) (hb : isRegexSpace b = false) :
    ∀ (k : Nat) (s : QString), s.length ≤ k →
      ∀ x ∈ replaceAll (matchBrace b) [b] s, x ∈ s ∨ x = b := by
  intro k
  induction k with
  | zero =>
    intro s hs x hx
    have : s = [] := List.length_eq_zero.mp (by omega)
    subst this
    simp [replaceAll_nil] at hx
  | succ k ih =>
    intro s hs x hx
    cases s with
    | nil => simp [replaceAll_nil] at hx
    | cons c cs =>
      rw [List.length_cons] at hs
      cases h : matchBrace b (c :: cs) with
      | some rest =>
        rw [replaceAll_cons_some _ _ (matchBrace_shrinks b) c cs rest h] at hx
        have hl := matchBrace_shrinks b _ _ h
        rw [List.length_cons] at hl
        rcases List.mem_append.mp hx with hx | hx
        · exact Or.inr (List.mem_singleton.mp hx)
        · rcases ih rest (by omega) x hx with hx | hx
          · exact Or.inl ((matchBrace_rest b hb _ _ h).1.subset hx)
          · exact Or.inr hx
      | none =>
        rw [replaceAll_cons_none _ _ c cs h] at hx
        rcases List.mem_cons.mp hx with hx | hx
        · exact Or.inl (by rw [hx]; exact List.mem_cons_self _ _)
        · rcases ih cs (by omega) x hx with hx | hx
          · exact Or.inl (List.mem_cons_of_mem _ hx)
          · exact Or.inr hx

/-! ## The white-space pattern -/

theorem spaces_cons_space (c : Char) (cs : QString) (hc : isRegexSpace c = true) :
    replaceAll matchSpaces [' '] (c :: cs)
      = ' ' :: replaceAll matchSpaces [' '] (cs.dropWhile isRegexSpace) := by
  rw [replaceAll_cons_some _ _ matchSpaces_shrinks c cs (cs.dropWhile isRegexSpace)
    (by rw [matchSpaces_cons, if_pos hc])]
  rfl

theorem spaces_cons_other (c : Char) (cs : QString) (hc : isRegexSpace c = false) :
    replaceAll matchSpaces [' '] (c :: cs) = c :: replaceAll matchSpaces [' '] cs := by
  rw [replaceAll_cons_none _ _ c cs (by rw [matchSpaces_cons, if_neg (by simp [hc])])]

theorem spaces_head (c : Char) (cs : QString) :
    (replaceAll matchSpaces [' '] (c :: cs)).head? =
      some (if isRegexSpace c = true then ' ' else c) := by
  by_cases hc : isRegexSpace c = true
  · rw [spaces_cons_space c cs hc, if_pos hc]; rfl
  · rw [spaces_cons_other c cs (by simpa using hc), if_neg hc]; rfl

/-- After the white-space pass every white-space character is a blank and no two of them
follow each other. -/
theorem spaces_canonical :
    ∀ (k : Nat) (s : QString), s.length ≤ k →
      OnlyBlanks (replaceAll matchSpaces [' '] s) ∧
        List.Chain' NoSpacePair (replaceAll matchSpaces [' '] s) := by
  intro k
  induction k with
  | zero =>
    intro s hs
    have : s = [] := List.length_eq_zero.mp (by omega)
    subst this
    exact ⟨fun c hc => by simp [replaceAll_nil] at hc, List.chain'_nil⟩
  | succ k ih =>
    intro s hs
    cases s with
    | nil => exact ⟨fun c hc => by simp [replaceAll_nil] at hc, List.chain'_nil⟩
    | cons c cs =>
      rw [List.length_cons] at hs
      by_cases hc : isRegexSpace c = true
      · rw [spaces_cons_space c cs hc]
        have hl := (List.dropWhile_suffix isRegexSpace (l := cs)).length_le
        obtain ⟨h1, h2⟩ := ih (cs.dropWhile isRegexSpace) (by omega)
        refine ⟨?_, h2.cons' ?_⟩
        · intro x hx hxs
          rcases List.mem_cons.mp hx with hx | hx
          · exact hx
          · exact h1 x hx hxs
        · intro y hy
          have hhead := dropWhile_head_not isRegexSpace cs
          cases hd : cs.dropWhile isRegexSpace with
          | nil => rw [hd] at hy; simp [replaceAll_nil] at hy
          | cons d ds =>
            rw [hd] at hy hhead
            have hdn : isRegexSpace d = false := hhead d (by simp)
            rw [spaces_head] at hy
            simp only [Option.mem_def, Option.some.injEq] at hy
            subst hy
            rw [if_neg (by simp [hdn])]
            exact fun hc => by simp [hdn] at hc
      · have hc2 : isRegexSpace c = false := by simpa using hc
        rw [spaces_cons_other c cs hc2]
        obtain ⟨h1, h2⟩ := ih cs (by omega)
        refine ⟨?_, h2.cons' (fun y _ hc3 => hc hc3.1)⟩
        intro x hx hxs
        rcases List.mem_cons.mp hx with hx | hx
        · rw [hx] at hxs
          exact absurd hxs hc
        · exact h1 x hx hxs

/-! ## Texts the passes leave alone -/

theorem replaceChar_absent (before : Char) (after s : QString) (h : before ∉ s) :
    replaceChar before after s = s := by
  induction s with
  | nil => rfl
  | cons c cs ih =>
    have hc : c ≠ before := fun e => h (by rw [e]; exact List.mem_cons_self _ _)
    have hcs : before ∉ cs := fun e => h (List.mem_cons_of_mem _ e)
    unfold replaceChar at ih ⊢
    rw [List.flatMap_cons, ih hcs]
    simp [hc]

theorem spaces_fixed (s : QString) (h1 : OnlyBlanks s) (h2 : List.Chain' NoSpacePair s) :
    replaceAll matchSpaces [' '] s = s := by
  induction s with
  | nil => rfl
  | cons c cs ih =>
    have hcs : OnlyBlanks cs := fun x hx => h1 x (List.mem_cons_of_mem _ hx)
    obtain ⟨hh, ht⟩ := List.chain'_cons'.mp h2
    by_cases hc : isRegexSpace c = true
    · rw [spaces_cons_space c cs hc, dropWhile_of_head isRegexSpace cs, ih hcs ht,
        ← h1 c (List.mem_cons_self _ _) hc]
      intro d hd
      have := hh d hd
      unfold NoSpacePair at this
      simpa [hc] using this
    · rw [spaces_cons_other c cs (by simpa using hc), ih hcs ht]

theorem brace_fixed (b : Char) (hb : isRegexSpace b = false) (s : QString)
    (h2 : List.Chain' NoSpacePair s) (h3 : List.Chain' (NoSpaceAt b) s) :
    replaceAll (matchBrace b) [b] s = s := by
  induction s with
  | nil => rfl
  | cons c cs ih =>
    obtain ⟨hh2, ht2⟩ := List.chain'_cons'.mp h2
    obtain ⟨hh3, ht3⟩ := List.chain'_cons'.mp h3
    by_cases hcb : c = b
    · subst hcb
      have hd : cs.dropWhile isRegexSpace = cs := by
        apply dropWhile_of_head isRegexSpace
        intro d hd
        have := (hh3 d hd).1
        simpa using this
      rw [replaceAll_cons_some _ _ (matchBrace_shrinks c) c cs cs
        (by rw [matchBrace_self c cs hb, hd]), ih ht2 ht3]
      rfl
    · have hnone : matchBrace b (c :: cs) = none := by
        by_cases hc : isRegexSpace c = true
        · rw [matchBrace_space b c cs hc]
          cases cs with
          | nil => rfl
          | cons d ds =>
            have hd1 : isRegexSpace d = false := by
              have := hh2 d (by simp)
              unfold NoSpacePair at this
              simpa [hc] using this
            have hd2 : d ≠ b := fun e => (hh3 d (by simp)).2 ⟨hc, e⟩
            exact matchBrace_other b d ds hd1 hd2
        · exact matchBrace_other b c cs (by simpa using hc) hcb
      rw [replaceAll_cons_none _ _ c cs hnone, ih ht2 ht3]

/-! ## Trimming -/

theorem trimmed_eq (s : QString) :
    trimmed s = (s.dropWhile isSpace).rdropWhile isSpace := rfl

theorem trimmed_infix (s : QString) : trimmed s <:+: s := by
  rw [trimmed_eq]
  exact (List.rdropWhile_prefix _ _).isInfix.trans (List.dropWhile_suffix _).isInfix

theorem trimmed_idem (s : QString) : trimmed (trimmed s) = trimmed s := by
  rw [trimmed_eq (trimmed s)]
  have h1 : (trimmed s).dropWhile isSpace = trimmed s := by
    apply dropWhile_of_head isSpace
    intro d hd
    rw [trimmed_eq] at hd
    obtain ⟨t, ht⟩ := List.rdropWhile_prefix isSpace (s.dropWhile isSpace)
    apply dropWhile_head_not isSpace s d
    rw [← ht]
    cases hw : (s.dropWhile isSpace).rdropWhile isSpace with
    | nil => rw [hw] at hd; simp at hd
    | cons e es => rw [hw] at hd; simpa using hd
  rw [h1, trimmed_eq, List.rdropWhile_idempotent]

/-! ## normalizeBody -/

theorem lbrace_not_space : isRegexSpace lbrace = false := by decide

theorem rbrace_not_space : isRegexSpace rbrace = false := by decide

theorem onlyBlanks_brace (b : Char) (hb : isRegexSpace b = false) (s : QString)
    (h : OnlyBlanks s) : OnlyBlanks (replaceAll (matchBrace b) [b] s) := by
  intro x hx hxs
  rcases brace_mem b hb s.length s (le_refl _) x hx with hx | hx
  · exact h x hx hxs
  · rw [hx, hb] at hxs
    exact absurd hxs (by simp)

/-- The result of `normalizeBody` is in canonical form. -/
theorem normalizeBody_canonical (body : QString) : Canonical (normalizeBody body) := by
  unfold normalizeBody
  simp only []
  generalize replaceChar '\t' [' '] (replaceChar '\r' [] body) = s2
  obtain ⟨hb3, hp3⟩ := spaces_canonical s2.length s2 (le_refl _)
  generalize replaceAll matchSpaces [' '] s2 = s3 at hb3 hp3
  have hb4 := onlyBlanks_brace lbrace lbrace_not_space s3 hb3
  have hp4 := brace_chain_keep NoSpacePair lbrace lbrace_not_space
    (fun u hc => by simp [lbrace_not_space] at hc)
    (fun v hc => by simp [lbrace_not_space] at hc) s3.length s3 (le_refl _) hp3
  have hl4 := brace_chain_make lbrace lbrace_not_space s3.length s3 (le_refl _)
  generalize replaceAll (matchBrace lbrace) [lbrace] s3 = s4 at hb4 hp4 hl4
  have hb5 := onlyBlanks_brace rbrace rbrace_not_space s4 hb4
  have hp5 := brace_chain_keep NoSpacePair rbrace rbrace_not_space
    (fun u hc => by simp [rbrace_not_space] at hc)
    (fun v hc => by simp [rbrace_not_space] at hc) s4.length s4 (le_refl _) hp4
  have hne : rbrace ≠ lbrace := by decide
  have hl5 := brace_chain_keep (NoSpaceAt lbrace) rbrace rbrace_not_space
    (fun u => ⟨fun hc => by simp [rbrace_not_space] at hc, fun hc => hne hc.2⟩)
    (fun v => ⟨fun hc => hne hc.1, fun hc => by simp [rbrace_not_space] at hc⟩)
    s4.length s4 (le_refl _) hl4
  have hr5 := brace_chain_make rbrace rbrace_not_space s4.length s4 (le_refl _)
  generalize replaceAll (matchBrace rbrace) [rbrace] s4 = s5 at hb5 hp5 hl5 hr5
  have hin := trimmed_infix s5
  exact ⟨fun x hx => hb5 x (hin.subset hx), hp5.infix hin, hl5.infix hin, hr5.infix hin,
    trimmed_idem s5⟩

/-- A text in canonical form is left as it is by `normalizeBody`. -/
theorem normalizeBody_of_canonical (s : QString) (h : Canonical s) : normalizeBody s = s := by
  obtain ⟨hb, hp, hl, hr, ht⟩ := h
  have h1 : replaceChar '\r' [] s = s := by
    apply replaceChar_absent
    intro hc
    exact absurd (hb _ hc (by decide)) (by decide)
  have h2 : replaceChar '\t' [' '] s = s := by
    apply replaceChar_absent
    intro hc
    exact absurd (hb _ hc (by decide)) (by decide)
  unfold normalizeBody
  simp only []
  rw [h1, h2, spaces_fixed s hb hp, brace_fixed lbrace lbrace_not_space s hp hl,
    brace_fixed rbrace rbrace_not_space s hp hr, ht]

/-- C10. The method `normalizeBody` is idempotent. -/
theorem normalizeBody_idempotent (x : QString) :
    normalizeBody (normalizeBody x) = normalizeBody x :=
  normalizeBody_of_canonical _ (normalizeBody_canonical x)

/-! ## The canonical form of normalizeBody, spelled out -/

theorem isSpace_of_isRegexSpace (c : Char) (h : isRegexSpace c = true) : isSpace c = true := by
  unfold isRegexSpace at h
  simp only [Bool.or_eq_true, beq_iff_eq] at h
  rcases h with ((((h | h) | h) | h) | h) | h <;> subst h <;> decide

theorem trimmed_head_not (s : QString) : ∀ c ∈ (trimmed s).head?, isSpace c = false := by
  intro c hc
  rw [trimmed_eq] at hc
  obtain ⟨t, ht⟩ := List.rdropWhile_prefix isSpace (s.dropWhile isSpace)
  apply dropWhile_head_not isSpace s c
  rw [← ht]
  cases hw : (s.dropWhile isSpace).rdropWhile isSpace with
  | nil => rw [hw] at hc; simp at hc
  | cons e es => rw [hw] at hc; simpa using hc

theorem trimmed_last_not (s : QString) : ∀ c ∈ (trimmed s).getLast?, isSpace c = false := by
  intro c hc
  rw [trimmed_eq] at hc
  by_cases hne : (s.dropWhile isSpace).rdropWhile isSpace = []
  · rw [hne] at hc; simp at hc
  · have h := List.rdropWhile_last_not isSpace (s.dropWhile isSpace) hne
    rw [List.getLast?_eq_getLast _ hne] at hc
    simp only [Option.mem_def, Option.some.injEq] at hc
    rw [← hc]
    simpa using h

theorem chain_pair_of_append (R : Char → Char → Prop) (s p q : QString) (u v : Char)
    (h : List.Chain' R s) (hs : s = p ++ u :: v :: q) : R u v := by
  subst hs
  have h2 : List.Chain' R (u :: v :: q) := h.suffix (List.suffix_append p _)
  exact (List.chain'_cons.mp h2).1

/-- C11 fails as stated when white space is taken in the sense of `QChar::isSpace`: the
patterns of `normalizeBody` know the class `\s` only, so two ideographic spaces (U+3000) in
a row stay, the line separator U+2028 stays, and a no-break space (U+00A0) stays next to a
brace. -/
theorem normalizeBody_canonical_counterexample :
    isSpace (Char.ofNat 0x3000) = true ∧
      normalizeBody ['a', Char.ofNat 0x3000, Char.ofNat 0x3000, 'b']
        = ['a', Char.ofNat 0x3000, Char.ofNat 0x3000, 'b'] ∧
      isSpace (Char.ofNat 0x2028) = true ∧
      normalizeBody ['a', Char.ofNat 0x2028, 'b'] = ['a', Char.ofNat 0x2028, 'b'] ∧
      isSpace (Char.ofNat 0xa0) = true ∧
      normalizeBody [lbrace, Char.ofNat 0xa0, 'x', Char.ofNat 0xa0, rbrace]
        = [lbrace, Char.ofNat 0xa0, 'x', Char.ofNat 0xa0, rbrace] := by
  decide

/-- C11, as amended. The result of `normalizeBody` is in canonical single-line form with
respect to the white space of the class `\s`: it holds no carriage return, tab or line feed
(the only character of `\s` left is the blank), no two characters of `\s` follow each
other, none stands directly after or before a brace, and the result neither starts nor ends
with white space, there also in the wider sense of `QChar::isSpace`. -/
theorem normalizeBody_canonical_form (x : QString) :
    '\r' ∉ normalizeBody x ∧ '\t' ∉ normalizeBody x ∧ '\n' ∉ normalizeBody x ∧
    (∀ c ∈ normalizeBody x, isRegexSpace c = true → c = ' ') ∧
    (∀ p q u v, normalizeBody x = p ++ u :: v :: q →
      ¬ (isRegexSpace u = true ∧ isRegexSpace v = true) ∧
      (u = lbrace ∨ u = rbrace → isRegexSpace v = false) ∧
      (v = lbrace ∨ v = rbrace → isRegexSpace u = false)) ∧
    (∀ c ∈ (normalizeBody x).head?, isSpace c = false ∧ isRegexSpace c = false) ∧
    (∀ c ∈ (normalizeBody x).getLast?, isSpace c = false ∧ isRegexSpace c = false) := by
  obtain ⟨hb, hp, hl, hr, ht⟩ := normalizeBody_canonical x
  have hnot : ∀ c, isSpace c = false → isRegexSpace c = false := by
    intro c hc
    by_contra hcon
    rw [isSpace_of_isRegexSpace c (by simpa using hcon)] at hc
    exact absurd hc (by simp)
  refine ⟨fun hc => absurd (hb _ hc (by decide)) (by decide),
    fun hc => absurd (hb _ hc (by decide)) (by decide),
    fun hc => absurd (hb _ hc (by decide)) (by decide), hb, ?_, ?_, ?_⟩
  · intro p q u v hs
    have h1 := chain_pair_of_append _ _ p q u v hp hs
    have h2 := chain_pair_of_append _ _ p q u v hl hs
    have h3 := chain_pair_of_append _ _ p q u v hr hs
    refine ⟨h1, ?_, ?_⟩
    · rintro (hu | hu)
      · have := h2.1
        simpa [hu] using this
      · have := h3.1
        simpa [hu] using this
    · rintro (hv | hv)
      · have := h2.2
        simpa [hv] using this
      · have := h3.2
        simpa [hv] using this
  · intro c hc
    rw [← ht] at hc
    exact ⟨trimmed_head_not _ c hc, hnot c (trimmed_head_not _ c hc)⟩
  · intro c hc
    rw [← ht] at hc
    exact ⟨trimmed_last_not _ c hc, hnot c (trimmed_last_not _ c hc)⟩

/-! ## buildSummary -/

theorem appendItems_eq (bullet : QString) (funcs lines : List QString) :
    appendItems bullet funcs lines = lines ++ funcs.map (fun f => bullet ++ f) := by
  induction funcs generalizing lines with
  | nil => simp [appendItems]
  | cons f funcs ih => rw [appendItems, ih]; simp

theorem scanOrig_eq (news : FunctionTable) (orig : FunctionTable)
    (lists : List QString × List QString) :
    scanOrig news orig lists =
      (lists.1 ++ (orig.filter (fun e => !tableContains news e.1)).map (fun e => e.1),
        lists.2 ++ (orig.filter (fun e => tableContains news e.1 &&
          decide (e.2.normalizedBody ≠ (tableValue news e.1).normalizedBody))).map
            (fun e => e.1)) := by
  induction orig generalizing lists with
  | nil => simp [scanOrig]
  | cons e orig ih =>
    obtain ⟨name, fb⟩ := e
    rw [scanOrig]
    by_cases h1 : tableContains news name = false
    · rw [if_pos h1, ih]
      simp [List.filter_cons, h1]
    · rw [if_neg h1]
      have h1t : tableContains news name = true := by simpa using h1
      by_cases h2 : fb.normalizedBody ≠ (tableValue news name).normalizedBody
      · rw [if_pos h2, ih]
        simp [List.filter_cons, h1t, h2]
      · rw [if_neg h2, ih]
        simp [List.filter_cons, h1t, h2]

theorem scanNews_eq (orig : FunctionTable) (news : FunctionTable) (acc : List QString) :
    scanNews orig news acc =
      acc ++ (news.filter (fun e => !tableContains orig e.1)).map (fun e => e.1) := by
  induction news generalizing acc with
  | nil => simp [scanNews]
  | cons e news ih =>
    obtain ⟨name, fb⟩ := e
    rw [scanNews]
    by_cases h1 : tableContains orig name = false
    · rw [if_pos h1, ih]
      simp [List.filter_cons, h1]
    · rw [if_neg h1, ih]
      have h1t : tableContains orig name = true := by simpa using h1
      simp [List.filter_cons, h1t]

theorem tableContains_iff (t : FunctionTable) (k : QString) :
    tableContains t k = true ↔ k ∈ t.map (fun e => e.1) := by
  unfold tableContains
  rw [List.any_eq_true, List.mem_map]
  constructor
  · rintro ⟨e, he, hk⟩
    exact ⟨e, he, by simpa using hk⟩
  · rintro ⟨e, he, hk⟩
    exact ⟨e, he, by simpa using hk⟩

theorem codeUnitsLt_irrefl (u : List Nat) : codeUnitsLt u u = false := by
  induction u with
  | nil => rfl
  | cons a u ih => simp [codeUnitsLt, ih]

theorem keyLt_irrefl (k : QString) : keyLt k k = false := codeUnitsLt_irrefl _

/-- In a table with ascending keys the value of a key is the block of its one entry. -/
theorem tableValue_of_mem (t : FunctionTable) (h : TableOk t) (k : QString)
    (b : FunctionBlock) (hm : (k, b) ∈ t) : tableValue t k = b := by
  induction t with
  | nil => simp at hm
  | cons e t ih =>
    obtain ⟨k2, b2⟩ := e
    unfold TableOk at h
    rw [List.map_cons, List.pairwise_cons] at h
    by_cases hk : k2 = k
    · subst hk
      have hhead : tableValue ((k2, b2) :: t) k2 = b2 := by
        simp [tableValue, List.find?_cons]
      rw [hhead]
      rcases List.mem_cons.mp hm with hm | hm
      · exact (Prod.mk.inj hm).2.symm
      · have hlt := h.1 k2 (List.mem_map.mpr ⟨(k2, b), hm, rfl⟩)
        rw [keyLt_irrefl] at hlt
        exact absurd hlt (by simp)
    · have htail : tableValue ((k2, b2) :: t) k = tableValue t k := by
        simp [tableValue, List.find?_cons, hk]
      rw [htail]
      rcases List.mem_cons.mp hm with hm | hm
      · exact absurd (Prod.mk.inj hm).1.symm hk
      · exact ih h.2 hm

theorem keys_filter_pairwise (t : FunctionTable) (h : TableOk t)
    (p : QString × FunctionBlock → Bool) :
    ((t.filter p).map (fun e => e.1)).Pairwise (fun a b => keyLt a b = true) :=
  List.Pairwise.sublist ((List.filter_sublist t).map _) h

/-- For tables with ascending keys, the loops gather in `missingFuncs` exactly the keys of
`orig` that are no keys of `news`, in `newFuncs` exactly the keys of `news` that are no keys
of `orig`, in `changedFuncs` exactly the keys of both whose normalized bodies differ, and
each of the three lists is strictly ascending in the key order. -/
theorem gathered_lists (orig news : FunctionTable) (hO : TableOk orig)
    (hN : TableOk news) :
    (∀ k, k ∈ missingFuncs orig news ↔
      k ∈ orig.map (fun e => e.1) ∧ k ∉ news.map (fun e => e.1)) ∧
    (∀ k, k ∈ newFuncs orig news ↔
      k ∈ news.map (fun e => e.1) ∧ k ∉ orig.map (fun e => e.1)) ∧
    (∀ k, k ∈ changedFuncs orig news ↔
      ∃ bo bn, (k, bo) ∈ orig ∧ (k, bn) ∈ news ∧ bo.normalizedBody ≠ bn.normalizedBody) ∧
    (missingFuncs orig news).Pairwise (fun a b => keyLt a b = true) ∧
    (newFuncs orig news).Pairwise (fun a b => keyLt a b = true) ∧
    (changedFuncs orig news).Pairwise (fun a b => keyLt a b = true) := by
  unfold missingFuncs newFuncs changedFuncs
  rw [scanOrig_eq, scanNews_eq]
  simp only [List.nil_append]
  refine ⟨?_, ?_, ?_, keys_filter_pairwise orig hO _, keys_filter_pairwise news hN _,
    keys_filter_pairwise orig hO _⟩
  · intro k
    rw [List.mem_map]
    constructor
    · rintro ⟨e, he, rfl⟩
      rw [List.mem_filter] at he
      refine ⟨List.mem_map.mpr ⟨e, he.1, rfl⟩, ?_⟩
      rw [← tableContains_iff]
      simpa using he.2
    · rintro ⟨h1, h2⟩
      obtain ⟨e, he, rfl⟩ := List.mem_map.mp h1
      rw [← tableContains_iff] at h2
      exact ⟨e, List.mem_filter.mpr ⟨he, by simpa using h2⟩, rfl⟩
  · intro k
    rw [List.mem_map]
    constructor
    · rintro ⟨e, he, rfl⟩
      rw [List.mem_filter] at he
      refine ⟨List.mem_map.mpr ⟨e, he.1, rfl⟩, ?_⟩
      rw [← tableContains_iff]
      simpa using he.2
    · rintro ⟨h1, h2⟩
      obtain ⟨e, he, rfl⟩ := List.mem_map.mp h1
      rw [← tableContains_iff] at h2
      exact ⟨e, List.mem_filter.mpr ⟨he, by simpa using h2⟩, rfl⟩
  · intro k
    rw [List.mem_map]
    constructor
    · rintro ⟨e, he, rfl⟩
      rw [List.mem_filter, Bool.and_eq_true, decide_eq_true_eq] at he
      obtain ⟨hin, hc, hne⟩ := he
      obtain ⟨e2, he2, hk⟩ := List.mem_map.mp ((tableContains_iff news e.1).mp hc)
      have hmem : (e.1, e2.2) ∈ news := by rw [← hk]; exact he2
      rw [tableValue_of_mem news hN e.1 e2.2 hmem] at hne
      exact ⟨e.2, e2.2, hin, hmem, hne⟩
    · rintro ⟨bo, bn, ho, hn, hne⟩
      refine ⟨(k, bo), ?_, rfl⟩
      rw [List.mem_filter, Bool.and_eq_true, decide_eq_true_eq]
      refine ⟨ho, (tableContains_iff news k).mpr (List.mem_map.mpr ⟨(k, bn), hn, rfl⟩), ?_⟩
      rw [tableValue_of_mem news hN k bn hn]
      exact hne

/-! ## Comment stripping and the function pattern -/

/-- A replacement by nothing, with a pattern that leaves the end of the text, only deletes
characters. -/
theorem replaceAll_nil_sublist (m : QString → Option QString) (hm : Shrinks m)
    (hs : ∀ t rest, m t = some rest → rest <:+ t) :
    ∀ (k : Nat) (s : QString), s.length ≤ k → List.Sublist (replaceAll m [] s) s := by
  intro k
  induction k with
  | zero =>
    intro s hk
    have : s = [] := List.length_eq_zero.mp (by omega)
    subst this
    exact List.Sublist.refl _
  | succ k ih =>
    intro s hk
    cases s with
    | nil => exact List.Sublist.refl _
    | cons c cs =>
      rw [List.length_cons] at hk
      cases h : m (c :: cs) with
      | some rest =>
        rw [replaceAll_cons_some m [] hm c cs rest h, List.nil_append]
        have hl := hm _ _ h
        rw [List.length_cons] at hl
        exact (ih rest (by omega)).trans (hs _ _ h).sublist
      | none =>
        rw [replaceAll_cons_none m [] c cs h]
        exact (ih cs (by omega)).cons₂ c

theorem afterBlockEnd_suffix (s rest : QString) (h : afterBlockEnd s = some rest) :
    rest <:+ s ∧ rest.length + 2 ≤ s.length := by
  induction s with
  | nil => exact absurd h (by simp [afterBlockEnd])
  | cons c cs ih =>
    cases cs with
    | nil => exact absurd h (by simp [afterBlockEnd])
    | cons d ds =>
      rw [afterBlockEnd] at h
      by_cases hc : c = '*' ∧ d = '/'
      · rw [if_pos hc] at h
        rw [← Option.some.inj h]
        exact ⟨⟨[c, d], rfl⟩, by simp⟩
      · rw [if_neg hc] at h
        obtain ⟨h1, h2⟩ := ih h
        exact ⟨h1.trans (List.suffix_cons c _), by rw [List.length_cons]; omega⟩

theorem matchBlockComment_suffix (t rest : QString) (h : matchBlockComment t = some rest) :
    rest <:+ t ∧ rest.length < t.length := by
  match t, h with
  | c :: d :: r, h =>
    rw [matchBlockComment] at h
    split at h
    · obtain ⟨h1, h2⟩ := afterBlockEnd_suffix r rest h
      exact ⟨h1.trans ⟨[c, d], rfl⟩, by simp only [List.length_cons]; omega⟩
    · exact absurd h (by simp)

theorem matchLineComment_suffix (t rest : QString) (h : matchLineComment t = some rest) :
    rest <:+ t ∧ rest.length < t.length := by
  match t, h with
  | c :: d :: r, h =>
    rw [matchLineComment] at h
    split at h
    · rw [← Option.some.inj h]
      have hs := List.dropWhile_suffix (fun x => x != '\n') (l := r)
      exact ⟨hs.trans ⟨[c, d], rfl⟩, by
        have := hs.length_le
        simp only [List.length_cons]; omega⟩
    · exact absurd h (by simp)

/-- Comment stripping only deletes characters. -/
theorem stripComments_sublist (code : QString) : List.Sublist (stripComments code) code := by
  unfold stripComments
  simp only []
  exact (replaceAll_nil_sublist matchLineComment
      (fun t rest h => (matchLineComment_suffix t rest h).2)
      (fun t rest h => (matchLineComment_suffix t rest h).1) _ _ (le_refl _)).trans
    (replaceAll_nil_sublist matchBlockComment
      (fun t rest h => (matchBlockComment_suffix t rest h).2)
      (fun t rest h => (matchBlockComment_suffix t rest h).1) _ _ (le_refl _))

/-- What a match of the function pattern tells about the text it starts. -/
theorem matchFunction_some (t name after : QString) (h : matchFunction t = some (name, after)) :
    name = t.takeWhile isNameChar ∧ name ≠ [] ∧ after <:+ t ∧ after.length < t.length ∧
      '(' ∈ t ∧ lbrace ∈ t := by
  unfold matchFunction at h
  split at h
  · exact absurd h (by simp)
  · rename_i hname
    have s1 : (t.dropWhile isNameChar).dropWhile isRegexSpace <:+ t :=
      (List.dropWhile_suffix _).trans (List.dropWhile_suffix _)
    split at h
    · exact absurd h (by simp)
    · rename_i p r1 h1
      split at h
      · rename_i hp
        subst hp
        have s2 : r1 <:+ t := (List.suffix_cons _ r1).trans (h1 ▸ s1)
        split at h
        · exact absurd h (by simp)
        · rename_i q r2 h2
          have s3 : r2 <:+ t :=
            ((List.suffix_cons q r2).trans (h2 ▸ List.dropWhile_suffix _)).trans s2
          split at h
          · exact absurd h (by simp)
          · rename_i b r3 h3
            split at h
            · rename_i hb
              subst hb
              have s4 : lbrace :: r3 <:+ t := (h3 ▸ List.dropWhile_suffix _).trans s3
              have hna := Option.some.inj h
              have e1 := (Prod.mk.inj hna).1
              have e2 := (Prod.mk.inj hna).2
              subst e2
              refine ⟨e1.symm, e1 ▸ hname, (List.suffix_cons lbrace r3).trans s4, ?_, ?_, ?_⟩
              · have := s4.length_le
                rw [List.length_cons] at this
                omega
              · exact (h1 ▸ s1).subset (List.mem_cons_self _ _)
              · exact s4.subset (List.mem_cons_self _ _)
            · exact absurd h (by simp)
      · exact absurd h (by simp)

/-! ## The loop over the matches -/

/-- An invariant of the table that every round keeps is kept by the loop; a round is run
only at the ends of the text that start with a match. -/
theorem extractLoop_invariant (P : FunctionTable → Prop) (s : QString)
    (hstep : ∀ t name after out, t <:+ s → matchFunction t = some (name, after) → P out →
      P (extractStep t name out)) :
    ∀ (fuel : Nat) (t : QString) (out : FunctionTable), t <:+ s → P out →
      P (extractLoop fuel t out) := by
  intro fuel
  induction fuel with
  | zero => intro t out _ h; exact h
  | succ fuel ih =>
    intro t out ht h
    cases t with
    | nil => exact h
    | cons c cs =>
      rw [extractLoop]
      cases hm : matchFunction (c :: cs) with
      | none => exact ih cs out ((List.suffix_cons c cs).trans ht) h
      | some m =>
        obtain ⟨name, after⟩ := m
        have hsuf := (matchFunction_some _ _ _ hm).2.2.1
        exact ih after _ (hsuf.trans ht) (hstep _ name after out ht hm h)

theorem mem_tableInsert (k : QString) (v : FunctionBlock) (t : FunctionTable)
    (e : QString × FunctionBlock) (h : e ∈ tableInsert k v t) : e = (k, v) ∨ e ∈ t := by
  induction t with
  | nil =>
    rw [tableInsert, List.mem_singleton] at h
    exact Or.inl h
  | cons e2 t ih =>
    obtain ⟨k2, v2⟩ := e2
    rw [tableInsert] at h
    split at h
    · rcases List.mem_cons.mp h with h | h
      · exact Or.inl h
      · exact Or.inr (List.mem_cons_of_mem _ h)
    · split at h
      · rcases List.mem_cons.mp h with h | h
        · exact Or.inl h
        · exact Or.inr h
      · rcases List.mem_cons.mp h with h | h
        · exact Or.inr (by rw [h]; exact List.mem_cons_self _ _)
        · rcases ih h with h | h
          · exact Or.inl h
          · exact Or.inr (List.mem_cons_of_mem _ h)

/-- Every entry of the table comes from a candidate at a match of the pattern. -/
theorem extractFunctions_entries (code : QString) (e : QString × FunctionBlock)
    (h : e ∈ extractFunctions code) :
    ∃ t name after, t <:+ stripComments code ∧ matchFunction t = some (name, after) ∧
      candidate t name = some e := by
  unfold extractFunctions at h
  simp only [] at h
  have hinv := extractLoop_invariant
    (fun out => ∀ e ∈ out, ∃ t name after, t <:+ stripComments code ∧
      matchFunction t = some (name, after) ∧ candidate t name = some e)
    (stripComments code) (by
      intro t name after out ht hm hout e he
      unfold extractStep at he
      cases hc : candidate t name with
      | none => rw [hc] at he; exact hout e he
      | some e2 =>
        rw [hc] at he
        rcases mem_tableInsert _ _ _ _ he with he | he
        · exact ⟨t, name, after, ht, hm, by rw [hc, he]⟩
        · exact hout e he)
    (stripComments code).length (stripComments code) [] (List.suffix_refl _)
    (fun e he => absurd he (List.not_mem_nil e))
  exact hinv e h

/-- Without a match at any end of the text the loop leaves the table as it is. -/
theorem extractLoop_no_match (s : QString)
    (hno : ∀ t, t <:+ s → matchFunction t = none) (out : FunctionTable) :
    extractLoop s.length s out = out := by
  apply extractLoop_invariant (fun o => o = out) s _ s.length s out (List.suffix_refl _) rfl
  intro t name after o ht hm _
  rw [hno t ht] at hm
  exact absurd hm (by simp)

/-- C18. A text without a candidate gives the empty table: the empty text, every text
without `(` and every text without `{`. -/
theorem extractFunctions_no_candidate :
    extractFunctions [] = [] ∧
    (∀ text : QString, '(' ∉ text → extractFunctions text = []) ∧
    (∀ text : QString, lbrace ∉ text → extractFunctions text = []) := by
  refine ⟨rfl, ?_, ?_⟩
  · intro text h
    unfold extractFunctions
    simp only []
    apply extractLoop_no_match
    intro t ht
    cases hm : matchFunction t with
    | none => rfl
    | some m =>
      obtain ⟨name, after⟩ := m
      have hp := (matchFunction_some _ _ _ hm).2.2.2.2.1
      exact absurd ((stripComments_sublist text).subset (ht.subset hp)) h
  · intro text h
    unfold extractFunctions
    simp only []
    apply extractLoop_no_match
    intro t ht
    cases hm : matchFunction t with
    | none => rfl
    | some m =>
      obtain ⟨name, after⟩ := m
      have hp := (matchFunction_some _ _ _ hm).2.2.2.2.2
      exact absurd ((stripComments_sublist text).subset (ht.subset hp)) h

/-! ## The closing brace -/

theorem lbrace_ne_rbrace : lbrace ≠ rbrace := by decide

theorem braceDepth_nil : braceDepth [] = 0 := rfl

theorem braceDepth_cons_lbrace (s : QString) : braceDepth (lbrace :: s) = braceDepth s + 1 := by
  unfold braceDepth
  rw [List.count_cons_self, List.count_cons_of_ne lbrace_ne_rbrace.symm]
  push_cast
  ring

theorem braceDepth_cons_rbrace (s : QString) : braceDepth (rbrace :: s) = braceDepth s - 1 := by
  unfold braceDepth
  rw [List.count_cons_self, List.count_cons_of_ne lbrace_ne_rbrace]
  push_cast
  ring

theorem braceDepth_cons_other (c : Char) (s : QString) (h1 : c ≠ lbrace) (h2 : c ≠ rbrace) :
    braceDepth (c :: s) = braceDepth s := by
  unfold braceDepth
  rw [List.count_cons_of_ne (Ne.symm h1), List.count_cons_of_ne (Ne.symm h2)]

theorem braceDepth_append (s t : QString) :
    braceDepth (s ++ t) = braceDepth s + braceDepth t := by
  unfold braceDepth
  rw [List.count_append, List.count_append]
  push_cast
  ring

/-- The scan for the closing brace, started inside the braces (`depth ≥ 1`): where it
stops there is a `}`, the text before it brings the depth to 1, and no shorter prefix
brings it below 1. -/
theorem findClose_some (u : QString) :
    ∀ (d : Int) (off : Nat), 1 ≤ d → findClose u d = some off →
      (∃ rest, u = u.take off ++ rbrace :: rest) ∧ d + braceDepth (u.take off) = 1 ∧
        ∀ k, 1 ≤ d + braceDepth ((u.take off).take k) := by
  induction u with
  | nil => intro d off _ h; exact absurd h (by simp [findClose])
  | cons c cs ih =>
    intro d off hd h
    rw [findClose] at h
    by_cases hl : c = lbrace
    · rw [if_pos hl] at h
      cases hf : findClose cs (d + 1) with
      | none => rw [hf] at h; exact absurd h (by simp)
      | some o =>
        rw [hf] at h
        have hoff : off = o + 1 := (Option.some.inj h).symm
        subst hoff
        obtain ⟨⟨rest, h1⟩, h2, h3⟩ := ih (d + 1) o (by omega) hf
        subst hl
        refine ⟨⟨rest, ?_⟩, ?_, ?_⟩
        · rw [List.take_succ_cons, List.cons_append, ← h1]
        · rw [List.take_succ_cons, braceDepth_cons_lbrace]; omega
        · intro k
          cases k with
          | zero => rw [List.take_zero, braceDepth_nil]; omega
          | succ k =>
            rw [List.take_succ_cons, List.take_succ_cons, braceDepth_cons_lbrace]
            have := h3 k
            omega
    · rw [if_neg hl] at h
      by_cases hr : c = rbrace
      · rw [if_pos hr] at h
        subst hr
        by_cases hz : d - 1 = 0
        · rw [if_pos hz] at h
          have hoff : off = 0 := (Option.some.inj h).symm
          subst hoff
          refine ⟨⟨cs, rfl⟩, ?_, ?_⟩
          · rw [List.take_zero, braceDepth_nil]; omega
          · intro k
            rw [List.take_zero, List.take_nil, braceDepth_nil]; omega
        · rw [if_neg hz] at h
          cases hf : findClose cs (d - 1) with
          | none => rw [hf] at h; exact absurd h (by simp)
          | some o =>
            rw [hf] at h
            have hoff : off = o + 1 := (Option.some.inj h).symm
            subst hoff
            obtain ⟨⟨rest, h1⟩, h2, h3⟩ := ih (d - 1) o (by omega) hf
            refine ⟨⟨rest, ?_⟩, ?_, ?_⟩
            · rw [List.take_succ_cons, List.cons_append, ← h1]
            · rw [List.take_succ_cons, braceDepth_cons_rbrace]; omega
            · intro k
              cases k with
              | zero => rw [List.take_zero, braceDepth_nil]; omega
              | succ k =>
                rw [List.take_succ_cons, List.take_succ_cons, braceDepth_cons_rbrace]
                have := h3 k
                omega
      · rw [if_neg hr] at h
        cases hf : findClose cs d with
        | none => rw [hf] at h; exact absurd h (by simp)
        | some o =>
          rw [hf] at h
          have hoff : off = o + 1 := (Option.some.inj h).symm
          subst hoff
          obtain ⟨⟨rest, h1⟩, h2, h3⟩ := ih d o hd hf
          refine ⟨⟨rest, ?_⟩, ?_, ?_⟩
          · rw [List.take_succ_cons, List.cons_append, ← h1]
          · rw [List.take_succ_cons, braceDepth_cons_other c _ hl hr]; exact h2
          · intro k
            cases k with
            | zero => rw [List.take_zero, braceDepth_nil]; omega
            | succ k =>
              rw [List.take_succ_cons, List.take_succ_cons, braceDepth_cons_other c _ hl hr]
              exact h3 k

theorem dropWhile_ne_head (b : Char) (t rest : QString) (c : Char)
    (h : t.dropWhile (fun x => x != b) = c :: rest) : c = b := by
  have := dropWhile_head_not (fun x => x != b) t c (by rw [h]; simp)
  simpa using this

theorem takeWhile_ne_not_mem (b : Char) (t : QString) :
    b ∉ t.takeWhile (fun x => x != b) := by
  intro h
  have := List.mem_takeWhile_imp h
  simp at this

/-- What a candidate that is not skipped looks like: the text from the match on is some
text without `{`, then `{`, a balanced body, `}`, and the entry holds the trimmed name,
the trimmed text before the brace, the body, its normal form and its lines. -/
theorem candidate_some (t name : QString) (e : QString × FunctionBlock)
    (h : candidate t name = some e) :
    ∃ pre body rest, t = pre ++ lbrace :: (body ++ rbrace :: rest) ∧ lbrace ∉ pre ∧
      Balanced body ∧
      e = (trimmed name,
        { signature := trimmed pre, body := body, normalizedBody := normalizeBody body,
          bodyLines := toLines body }) := by
  unfold candidate at h
  split at h
  · exact absurd h (by simp)
  · rename_i b afterBrace hd
    have hb := dropWhile_ne_head lbrace t afterBrace b hd
    subst hb
    split at h
    · exact absurd h (by simp)
    · rename_i off hf
      rw [findClose, if_pos rfl] at hf
      cases hf2 : findClose afterBrace (0 + 1) with
      | none => rw [hf2] at hf; exact absurd hf (by simp)
      | some o =>
        rw [hf2] at hf
        have hoff : off = o + 1 := (Option.some.inj hf).symm
        subst hoff
        obtain ⟨⟨rest, h1⟩, h2, h3⟩ := findClose_some afterBrace (0 + 1) o (by omega) hf2
        refine ⟨t.takeWhile (fun x => x != lbrace), afterBrace.take o, rest, ?_,
          takeWhile_ne_not_mem lbrace t, ⟨?_, ?_⟩, ?_⟩
        · rw [← h1, ← hd, List.takeWhile_append_dropWhile]
        · intro k
          have := h3 k
          omega
        · omega
        · rw [← Option.some.inj h]
          simp

/-! ## Splitting into lines -/

theorem replaceChar_nil_eq_filter (b : Char) (s : QString) :
    replaceChar b [] s = s.filter (fun c => c != b) := by
  induction s with
  | nil => rfl
  | cons c cs ih =>
    unfold replaceChar at ih ⊢
    rw [List.flatMap_cons, ih, List.filter_cons]
    by_cases h : c = b
    · simp [h]
    · simp [h]

theorem splitLines_ne_nil (s : QString) : splitLines s ≠ [] := by
  cases s with
  | nil => simp [splitLines]
  | cons c cs =>
    rw [splitLines]
    split
    · simp
    · split <;> simp

theorem intercalate_cons_cons (sep l l2 : QString) (ls : List QString) :
    List.intercalate sep (l :: l2 :: ls) = l ++ sep ++ List.intercalate sep (l2 :: ls) := by
  simp [List.intercalate, List.intersperse]

theorem intercalate_singleton (sep l : QString) : List.intercalate sep [l] = l := by
  simp [List.intercalate, List.intersperse]

/-- Joining the lines of a text with line feeds gives the text back. -/
theorem intercalate_splitLines (s : QString) : List.intercalate ['\n'] (splitLines s) = s := by
  induction s with
  | nil => simp [splitLines, intercalate_singleton]
  | cons c cs ih =>
    rw [splitLines]
    by_cases hc : c = '\n'
    · rw [if_pos hc]
      cases hs : splitLines cs with
      | nil => exact absurd hs (splitLines_ne_nil cs)
      | cons l ls =>
        rw [hs] at ih
        rw [intercalate_cons_cons, ih, hc]
        rfl
    · rw [if_neg hc]
      cases hs : splitLines cs with
      | nil => exact absurd hs (splitLines_ne_nil cs)
      | cons l ls =>
        rw [hs] at ih
        simp only []
        cases ls with
        | nil =>
          rw [intercalate_singleton] at ih ⊢
          rw [ih]
        | cons l2 ls =>
          rw [intercalate_cons_cons] at ih ⊢
          rw [← ih]
          simp

/-- A line holds no line feed, and only characters of the text. -/
theorem splitLines_lines (s : QString) :
    ∀ l ∈ splitLines s, '\n' ∉ l ∧ ∀ c ∈ l, c ∈ s := by
  induction s with
  | nil =>
    intro l hl
    rw [splitLines, List.mem_singleton] at hl
    subst hl
    exact ⟨List.not_mem_nil _, fun c hc => absurd hc (List.not_mem_nil c)⟩
  | cons c cs ih =>
    intro l hl
    rw [splitLines] at hl
    by_cases hc : c = '\n'
    · rw [if_pos hc] at hl
      rcases List.mem_cons.mp hl with hl | hl
      · subst hl
        exact ⟨List.not_mem_nil _, fun c hc => absurd hc (List.not_mem_nil c)⟩
      · exact ⟨(ih l hl).1, fun x hx => List.mem_cons_of_mem _ ((ih l hl).2 x hx)⟩
    · rw [if_neg hc] at hl
      cases hs : splitLines cs with
      | nil => exact absurd hs (splitLines_ne_nil cs)
      | cons l1 ls =>
        rw [hs] at hl ih
        simp only [] at hl
        rcases List.mem_cons.mp hl with hl | hl
        · subst hl
          have h1 := ih l1 (List.mem_cons_self _ _)
          refine ⟨?_, ?_⟩
          · intro hmem
            rcases List.mem_cons.mp hmem with hmem | hmem
            · exact hc hmem.symm
            · exact h1.1 hmem
          · intro x hx
            rcases List.mem_cons.mp hx with hx | hx
            · rw [hx]; exact List.mem_cons_self _ _
            · exact List.mem_cons_of_mem _ (h1.2 x hx)
        · have h1 := ih l (List.mem_cons_of_mem _ hl)
          exact ⟨h1.1, fun x hx => List.mem_cons_of_mem _ (h1.2 x hx)⟩

/-! ## The entries of the table -/

/-- C15. The body of every entry is brace-balanced, and `{`, the body, `}` stand together
in the comment-stripped text. -/
theorem extractFunctions_body_balanced (text : QString) (e : QString × FunctionBlock)
    (h : e ∈ extractFunctions text) :
    ((∀ k, 0 ≤ braceDepth (e.2.body.take k)) ∧ braceDepth e.2.body = 0) ∧
      lbrace :: (e.2.body ++ [rbrace]) <:+: stripComments text := by
  obtain ⟨t, name, after, ht, _, hc⟩ := extractFunctions_entries text e h
  obtain ⟨pre, body, rest, hform, _, hbal, he⟩ := candidate_some t name e hc
  subst he
  refine ⟨hbal, ?_⟩
  obtain ⟨front, hfront⟩ := ht
  refine ⟨front ++ pre, rest, ?_⟩
  rw [← hfront, hform]
  simp

/-- C15 at the entry `f` of `sampleText`. -/
theorem extractFunctions_body_balanced_witness :
    sampleEntry ∈ extractFunctions sampleText ∧
      ((∀ k, 0 ≤ braceDepth (sampleEntry.2.body.take k)) ∧
        braceDepth sampleEntry.2.body = 0) ∧
      lbrace :: (sampleEntry.2.body ++ [rbrace]) <:+: stripComments sampleText :=
  ⟨by decide, extractFunctions_body_balanced sampleText sampleEntry (by decide)⟩

/-- C16. A candidate whose brace depth, counted from its opening brace, never comes back
to 0 adds nothing to the table, and a text without `}` gives the empty table; in
`f() { x; g() { }` the candidate `f` is skipped and `g` is kept. -/
theorem extractFunctions_unclosed_dropped :
    (∀ (t name : QString) (out : FunctionTable),
      (∀ k, 1 ≤ k → braceDepth ((t.dropWhile (fun x => x != lbrace)).take k) ≠ 0) →
        extractStep t name out = out) ∧
    (∀ text : QString, rbrace ∉ text → extractFunctions text = []) ∧
    (extractFunctions "f() \x7b x; g() \x7b \x7d".toList).map (fun e => e.1)
      = ["g".toList] := by
  refine ⟨?_, ?_, by decide⟩
  · intro t name out hdepth
    unfold extractStep
    cases hc : candidate t name with
    | none => rfl
    | some e =>
      exfalso
      obtain ⟨pre, body, rest, hform, hpre, hbal, _⟩ := candidate_some t name e hc
      have hdrop : t.dropWhile (fun x => x != lbrace) = lbrace :: (body ++ rbrace :: rest) := by
        rw [hform, List.dropWhile_append]
        have hnil : pre.dropWhile (fun x => x != lbrace) = [] := by
          rw [List.dropWhile_eq_nil_iff]
          intro x hx
          have : x ≠ lbrace := fun e => hpre (e ▸ hx)
          simpa using this
        rw [hnil]
        simp
      apply hdepth (body.length + 2) (by omega)
      rw [hdrop]
      have htake : (lbrace :: (body ++ rbrace :: rest)).take (body.length + 2)
          = lbrace :: (body ++ [rbrace]) := by
        rw [List.take_succ_cons, List.take_append_eq_append_take]
        simp
      rw [htake, braceDepth_cons_lbrace, braceDepth_append, hbal.2,
        braceDepth_cons_rbrace, braceDepth_nil]
      omega
  · intro text hno
    rw [List.eq_nil_iff_forall_not_mem]
    intro e he
    obtain ⟨t, name, after, ht, _, hc⟩ := extractFunctions_entries text e he
    obtain ⟨pre, body, rest, hform, _, _, _⟩ := candidate_some t name e hc
    apply hno
    apply (stripComments_sublist text).subset
    apply ht.subset
    rw [hform]
    simp

/-- C17. The fields of every entry: the normalized body is `normalizeBody` of the body; the
lines are the body without carriage returns split at the line feeds, so there is at least
one line, no line holds a carriage return or a line feed, and the lines joined by line
feeds are the body without carriage returns; the signature neither starts nor ends with
white space. -/
theorem extractFunctions_block_fields (text : QString) (e : QString × FunctionBlock)
    (h : e ∈ extractFunctions text) :
    e.2.normalizedBody = normalizeBody e.2.body ∧
      e.2.bodyLines = splitLines (e.2.body.filter (fun c => c != '\r')) ∧
      e.2.bodyLines ≠ [] ∧
      (∀ l ∈ e.2.bodyLines, '\r' ∉ l ∧ '\n' ∉ l) ∧
      List.intercalate ['\n'] e.2.bodyLines = e.2.body.filter (fun c => c != '\r') ∧
      (∀ c ∈ e.2.signature.head?, isSpace c = false) ∧
      (∀ c ∈ e.2.signature.getLast?, isSpace c = false) := by
  obtain ⟨t, name, after, _, _, hc⟩ := extractFunctions_entries text e h
  obtain ⟨pre, body, rest, _, _, _, he⟩ := candidate_some t name e hc
  subst he
  have hlines : toLines body = splitLines (body.filter (fun c => c != '\r')) := by
    unfold toLines
    rw [replaceChar_nil_eq_filter]
  refine ⟨rfl, hlines, ?_, ?_, ?_, trimmed_head_not pre, trimmed_last_not pre⟩
  · show toLines body ≠ []
    rw [hlines]
    exact splitLines_ne_nil _
  · show ∀ l ∈ toLines body, '\r' ∉ l ∧ '\n' ∉ l
    rw [hlines]
    intro l hl
    obtain ⟨h1, h2⟩ := splitLines_lines _ l hl
    refine ⟨?_, h1⟩
    intro hcr
    have := h2 _ hcr
    rw [List.mem_filter] at this
    simpa using this.2
  · show List.intercalate ['\n'] (toLines body) = body.filter (fun c => c != '\r')
    rw [hlines]
    exact intercalate_splitLines _

/-- C17 at the entry `f` of `sampleText`. -/
theorem extractFunctions_block_fields_witness :
    sampleEntry ∈ extractFunctions sampleText ∧
      sampleEntry.2.normalizedBody = normalizeBody sampleEntry.2.body ∧
      sampleEntry.2.bodyLines ≠ [] :=
  ⟨by decide,
    (extractFunctions_block_fields sampleText sampleEntry (by decide)).1,
    (extractFunctions_block_fields sampleText sampleEntry (by decide)).2.2.1⟩

/-! ## The key order -/

theorem codeUnitsLt_trans (u v w : List Nat) (h1 : codeUnitsLt u v = true)
    (h2 : codeUnitsLt v w = true) : codeUnitsLt u w = true := by
  induction u generalizing v w with
  | nil =>
    cases v with
    | nil => exact absurd h1 (by simp [codeUnitsLt])
    | cons b bs =>
      cases w with
      | nil => exact absurd h2 (by simp [codeUnitsLt])
      | cons c cs => rfl
  | cons a as ih =>
    cases v with
    | nil => exact absurd h1 (by simp [codeUnitsLt])
    | cons b bs =>
      cases w with
      | nil => exact absurd h2 (by simp [codeUnitsLt])
      | cons c cs =>
        simp only [codeUnitsLt, Bool.or_eq_true, Bool.and_eq_true, decide_eq_true_eq,
          beq_iff_eq] at h1 h2 ⊢
        rcases h1 with h1 | ⟨h1, h1t⟩
        · rcases h2 with h2 | ⟨h2, _⟩
          · exact Or.inl (by omega)
          · exact Or.inl (by omega)
        · rcases h2 with h2 | ⟨h2, h2t⟩
          · exact Or.inl (by omega)
          · exact Or.inr ⟨by omega, ih bs cs h1t h2t⟩

theorem codeUnitsLt_total (u v : List Nat) (h1 : codeUnitsLt u v = false)
    (h2 : codeUnitsLt v u = false) : u = v := by
  induction u generalizing v with
  | nil =>
    cases v with
    | nil => rfl
    | cons b bs => exact absurd h1 (by simp [codeUnitsLt])
  | cons a as ih =>
    cases v with
    | nil => exact absurd h2 (by simp [codeUnitsLt])
    | cons b bs =>
      simp only [codeUnitsLt, Bool.or_eq_false_iff, Bool.and_eq_false_iff,
        decide_eq_false_iff_not, beq_eq_false_iff_ne, ne_eq] at h1 h2
      have hab : a = b := by omega
      subst hab
      rcases h1.2 with h | h
      · exact absurd rfl h
      · rcases h2.2 with h3 | h3
        · exact absurd rfl h3
        · rw [ih bs h h3]

theorem char_toNat_valid (c : Char) :
    c.toNat < 0xd800 ∨ (0xdfff < c.toNat ∧ c.toNat < 0x110000) := c.valid

theorem char_eq_of_toNat (c d : Char) (h : c.toNat = d.toNat) : c = d :=
  Char.eq_of_val_eq (UInt32.toNat.inj h)

/-- Different texts have different code units. -/
theorem codeUnits_injective (a b : QString)
    (h : a.flatMap codeUnits = b.flatMap codeUnits) : a = b := by
  induction a generalizing b with
  | nil =>
    cases b with
    | nil => rfl
    | cons d ds =>
      rw [List.flatMap_nil, List.flatMap_cons] at h
      unfold codeUnits at h
      split at h <;> simp at h
  | cons c cs ih =>
    cases b with
    | nil =>
      rw [List.flatMap_nil, List.flatMap_cons] at h
      unfold codeUnits at h
      split at h <;> simp at h
    | cons d ds =>
      rw [List.flatMap_cons, List.flatMap_cons] at h
      have hc := char_toNat_valid c
      have hd := char_toNat_valid d
      unfold codeUnits at h
      by_cases h1 : c.toNat < 0x10000
      · by_cases h2 : d.toNat < 0x10000
        · rw [if_pos h1, if_pos h2] at h
          simp only [List.singleton_append, List.cons.injEq] at h
          rw [char_eq_of_toNat c d h.1, ih ds h.2]
        · rw [if_pos h1, if_neg h2] at h
          simp only [List.singleton_append, List.cons_append, List.nil_append,
            List.cons.injEq] at h
          omega
      · by_cases h2 : d.toNat < 0x10000
        · rw [if_neg h1, if_pos h2] at h
          simp only [List.singleton_append, List.cons_append, List.nil_append,
            List.cons.injEq] at h
          omega
        · rw [if_neg h1, if_neg h2] at h
          simp only [List.cons_append, List.nil_append, List.cons.injEq] at h
          have hcd : c.toNat = d.toNat := by omega
          rw [char_eq_of_toNat c d hcd, ih ds h.2.2]

theorem keyLt_trans (a b c : QString) (h1 : keyLt a b = true) (h2 : keyLt b c = true) :
    keyLt a c = true := codeUnitsLt_trans _ _ _ h1 h2

theorem keyLt_total (a b : QString) (hne : a ≠ b) (h : keyLt a b = false) :
    keyLt b a = true := by
  by_contra hcon
  exact hne (codeUnits_injective a b
    (codeUnitsLt_total _ _ h (by simpa [keyLt] using hcon)))

/-- The call `QMap::insert` keeps the keys strictly ascending. -/
theorem tableOk_insert (k : QString) (v : FunctionBlock) (t : FunctionTable) (h : TableOk t) :
    TableOk (tableInsert k v t) := by
  induction t with
  | nil => simp [tableInsert, TableOk]
  | cons e t ih =>
    obtain ⟨k2, v2⟩ := e
    unfold TableOk at h ih ⊢
    rw [List.map_cons, List.pairwise_cons] at h
    rw [tableInsert]
    by_cases h1 : k = k2
    · rw [if_pos h1, List.map_cons, List.pairwise_cons]
      subst h1
      exact h
    · rw [if_neg h1]
      by_cases h2 : keyLt k k2 = true
      · rw [if_pos h2, List.map_cons, List.map_cons, List.pairwise_cons, List.pairwise_cons]
        refine ⟨?_, h⟩
        intro a ha
        rcases List.mem_cons.mp ha with ha | ha
        · rw [ha]; exact h2
        · exact keyLt_trans _ _ _ h2 (h.1 a ha)
      · rw [if_neg h2, List.map_cons, List.pairwise_cons]
        refine ⟨?_, ih h.2⟩
        intro a ha
        obtain ⟨e, he, hea⟩ := List.mem_map.mp ha
        rcases mem_tableInsert k v t e he with he | he
        · rw [← hea, he]
          exact keyLt_total k k2 h1 (by simpa using h2)
        · exact h.1 a (List.mem_map.mpr ⟨e, he, hea⟩)

/-- The table of `extractFunctions` has strictly ascending keys. -/
theorem extractFunctions_tableOk (code : QString) : TableOk (extractFunctions code) := by
  unfold extractFunctions
  simp only []
  apply extractLoop_invariant TableOk (stripComments code) _ _ _ [] (List.suffix_refl _)
  · simp [TableOk]
  · intro t name after out _ _ hout
    unfold extractStep
    cases candidate t name with
    | none => exact hout
    | some e => exact tableOk_insert _ _ _ hout

/-! ## Last occurrence wins -/

theorem extractLoop_eq_foldl :
    ∀ (fuel : Nat) (t : QString) (out : FunctionTable),
      extractLoop fuel t out =
        (candidatesOf fuel t).foldl (fun o x => tableInsert x.2.1 x.2.2 o) out := by
  intro fuel
  induction fuel with
  | zero => intro t out; rfl
  | succ fuel ih =>
    intro t out
    cases t with
    | nil => rfl
    | cons c cs =>
      rw [extractLoop, candidatesOf]
      cases hm : matchFunction (c :: cs) with
      | none => exact ih cs out
      | some m =>
        simp only []
        rw [List.foldl_append, ih]
        unfold extractStep
        cases candidate (c :: cs) m.1 <;> rfl

/-- The candidates start later and later: each starts a shorter end of the text than the
ones before it, none a longer one than the text searched. -/
theorem candidatesOf_starts :
    ∀ (fuel : Nat) (t : QString),
      (∀ x ∈ candidatesOf fuel t, x.1.length ≤ t.length) ∧
        (candidatesOf fuel t).Pairwise (fun x y => y.1.length < x.1.length) := by
  intro fuel
  induction fuel with
  | zero => intro t; exact ⟨fun x hx => absurd hx (List.not_mem_nil x), List.Pairwise.nil⟩
  | succ fuel ih =>
    intro t
    cases t with
    | nil => exact ⟨fun x hx => absurd hx (List.not_mem_nil x), List.Pairwise.nil⟩
    | cons c cs =>
      rw [candidatesOf]
      cases hm : matchFunction (c :: cs) with
      | none =>
        simp only []
        obtain ⟨h1, h2⟩ := ih cs
        exact ⟨fun x hx => Nat.le_succ_of_le (h1 x hx), h2⟩
      | some m =>
        simp only []
        obtain ⟨h1, h2⟩ := ih m.2
        have hlen : m.2.length < (c :: cs).length :=
          (matchFunction_some (c :: cs) m.1 m.2 hm).2.2.2.1
        cases candidate (c :: cs) m.1 with
        | none =>
          simp only [List.nil_append]
          exact ⟨fun x hx => Nat.le_of_lt (Nat.lt_of_le_of_lt (h1 x hx) hlen), h2⟩
        | some e =>
          simp only [List.singleton_append]
          refine ⟨?_, List.Pairwise.cons ?_ h2⟩
          · intro x hx
            rcases List.mem_cons.mp hx with hx | hx
            · rw [hx]
            · exact Nat.le_of_lt (Nat.lt_of_le_of_lt (h1 x hx) hlen)
          · intro y hy
            exact Nat.lt_of_le_of_lt (h1 y hy) hlen

theorem tableValue_insert_self (k : QString) (v : FunctionBlock) (t : FunctionTable) :
    tableValue (tableInsert k v t) k = v ∧ tableContains (tableInsert k v t) k = true := by
  induction t with
  | nil => simp [tableInsert, tableValue, tableContains]
  | cons e t ih =>
    obtain ⟨k2, v2⟩ := e
    rw [tableInsert]
    by_cases h1 : k = k2
    · rw [if_pos h1]
      simp [tableValue, tableContains]
    · rw [if_neg h1]
      by_cases h2 : keyLt k k2 = true
      · rw [if_pos h2]
        simp [tableValue, tableContains]
      · rw [if_neg h2]
        have hne : ¬ k2 = k := fun e => h1 e.symm
        unfold tableValue tableContains at ih ⊢
        simp only [List.find?_cons, List.any_cons, hne, decide_False, Bool.false_or]
        exact ih

theorem tableValue_insert_other (k k2 : QString) (v : FunctionBlock) (t : FunctionTable)
    (h : k2 ≠ k) :
    tableValue (tableInsert k v t) k2 = tableValue t k2 ∧
      tableContains (tableInsert k v t) k2 = tableContains t k2 := by
  induction t with
  | nil => simp [tableInsert, tableValue, tableContains, h.symm]
  | cons e t ih =>
    obtain ⟨k3, v3⟩ := e
    rw [tableInsert]
    by_cases h1 : k = k3
    · rw [if_pos h1]
      subst h1
      simp [tableValue, tableContains, h.symm]
    · rw [if_neg h1]
      by_cases h2 : keyLt k k3 = true
      · rw [if_pos h2]
        simp [tableValue, tableContains, h.symm]
      · rw [if_neg h2]
        unfold tableValue tableContains at ih ⊢
        by_cases h3 : k3 = k2
        · simp [List.find?_cons, h3]
        · simp only [List.find?_cons, List.any_cons, h3, decide_False, Bool.false_or]
          exact ih

theorem foldl_insert_other (k : QString) (l : List (QString × QString × FunctionBlock))
    (hl : ∀ y ∈ l, y.2.1 ≠ k) (out : FunctionTable) :
    tableValue (l.foldl (fun o x => tableInsert x.2.1 x.2.2 o) out) k = tableValue out k ∧
      tableContains (l.foldl (fun o x => tableInsert x.2.1 x.2.2 o) out) k
        = tableContains out k := by
  induction l generalizing out with
  | nil => exact ⟨rfl, rfl⟩
  | cons y l ih =>
    rw [List.foldl_cons]
    obtain ⟨h1, h2⟩ := ih (fun z hz => hl z (List.mem_cons_of_mem _ hz))
      (tableInsert y.2.1 y.2.2 out)
    obtain ⟨h3, h4⟩ := tableValue_insert_other y.2.1 k y.2.2 out
      (fun e => hl y (List.mem_cons_self _ _) e.symm)
    exact ⟨h1.trans h3, h2.trans h4⟩

/-- A member of the list of candidates starts at a match inside the text searched and is
the entry the loop makes there. -/
theorem candidatesOf_mem :
    ∀ (fuel : Nat) (t : QString) (x : QString × QString × FunctionBlock),
      x ∈ candidatesOf fuel t →
      ∃ name after, x.1 <:+ t ∧ matchFunction x.1 = some (name, after) ∧
        candidate x.1 name = some x.2 := by
  intro fuel
  induction fuel with
  | zero => intro t x hx; exact absurd hx (List.not_mem_nil x)
  | succ fuel ih =>
    intro t x hx
    cases t with
    | nil => exact absurd hx (List.not_mem_nil x)
    | cons c cs =>
      rw [candidatesOf] at hx
      cases hm : matchFunction (c :: cs) with
      | none =>
        rw [hm] at hx
        obtain ⟨name, after, h1, h2, h3⟩ := ih cs x hx
        exact ⟨name, after, h1.trans (List.suffix_cons c cs), h2, h3⟩
      | some m =>
        rw [hm] at hx
        simp only [] at hx
        rcases List.mem_append.mp hx with hx | hx
        · cases hc : candidate (c :: cs) m.1 with
          | none => rw [hc] at hx; exact absurd hx (List.not_mem_nil x)
          | some e =>
            rw [hc] at hx
            rw [List.mem_singleton] at hx
            subst hx
            exact ⟨m.1, m.2, List.suffix_refl _, hm, hc⟩
        · obtain ⟨name, after, h1, h2, h3⟩ := ih m.2 x hx
          exact ⟨name, after,
            h1.trans (matchFunction_some (c :: cs) m.1 m.2 hm).2.2.1, h2, h3⟩

/-- C14. Last wins: when a candidate with a matching closing brace starts latest in the
text among the candidates that capture its name (the text from its start on is the
shortest), the table holds that name with the signature, the body and the other fields of
this candidate, and in no other entry. The candidate is the entry the loop makes at a
match of the pattern in the comment-stripped text. -/
theorem extractFunctions_last_wins (text : QString) (x : QString × QString × FunctionBlock)
    (hx : x ∈ candidates text)
    (hlast : ∀ y ∈ candidates text, y.2.1 = x.2.1 → x.1.length ≤ y.1.length) :
    tableContains (extractFunctions text) x.2.1 = true ∧
      tableValue (extractFunctions text) x.2.1 = x.2.2 ∧
      (∀ e ∈ extractFunctions text, e.1 = x.2.1 → e.2 = x.2.2) ∧
      ∃ name after, x.1 <:+ stripComments text ∧ matchFunction x.1 = some (name, after) ∧
        candidate x.1 name = some x.2 := by
  have hsem := candidatesOf_mem _ _ x hx
  have hmain : tableContains (extractFunctions text) x.2.1 = true ∧
      tableValue (extractFunctions text) x.2.1 = x.2.2 := by
    unfold extractFunctions
    simp only []
    rw [extractLoop_eq_foldl]
    unfold candidates at hx hlast
    obtain ⟨l1, l2, hsplit⟩ := List.append_of_mem hx
    have hpw := (candidatesOf_starts (stripComments text).length (stripComments text)).2
    rw [hsplit] at hpw hlast ⊢
    have hafter : ∀ y ∈ l2, y.2.1 ≠ x.2.1 := by
      intro y hy hname
      have h1 := hlast y (List.mem_append_right _ (List.mem_cons_of_mem _ hy)) hname
      have h2 := (List.pairwise_cons.mp (List.pairwise_append.mp hpw).2.1).1 y hy
      omega
    rw [List.foldl_append, List.foldl_cons]
    obtain ⟨h1, h2⟩ := foldl_insert_other x.2.1 l2 hafter
      (tableInsert x.2.1 x.2.2 (l1.foldl (fun o x => tableInsert x.2.1 x.2.2 o) []))
    obtain ⟨h3, h4⟩ := tableValue_insert_self x.2.1 x.2.2
      (l1.foldl (fun o x => tableInsert x.2.1 x.2.2 o) [])
    exact ⟨h2.trans h4, h1.trans h3⟩
  refine ⟨hmain.1, hmain.2, ?_, hsem⟩
  intro e he hkey
  have hval := tableValue_of_mem (extractFunctions text) (extractFunctions_tableOk text)
    e.1 e.2 he
  rw [hkey, hmain.2] at hval
  exact hval.symm

/-- C14 at `twiceText`: the table holds `f` with the body of its second definition. -/
theorem extractFunctions_last_wins_witness :
    twiceLast ∈ candidates twiceText ∧
      (candidates twiceText).map (fun x => x.2.1) = ["f".toList, "g".toList, "f".toList] ∧
      tableContains (extractFunctions twiceText) "f".toList = true ∧
      tableValue (extractFunctions twiceText) "f".toList = twiceLast.2.2 :=
  ⟨by decide, by decide,
    (extractFunctions_last_wins twiceText twiceLast (by decide) (by decide)).1,
    (extractFunctions_last_wins twiceText twiceLast (by decide) (by decide)).2.1⟩

/-! ## A single function definition -/

theorem takeWhile_dropWhile_append (p : Char → Bool) (l1 l2 : QString)
    (h1 : ∀ c ∈ l1, p c = true) (h2 : ∀ c ∈ l2.head?, p c = false) :
    (l1 ++ l2).takeWhile p = l1 ∧ (l1 ++ l2).dropWhile p = l2 := by
  induction l1 with
  | nil =>
    cases l2 with
    | nil => exact ⟨rfl, rfl⟩
    | cons d ds =>
      have hd : p d = false := h2 d (by simp)
      simp [List.takeWhile_cons, List.dropWhile_cons, hd]
  | cons c cs ih =>
    have hc : p c = true := h1 c (List.mem_cons_self _ _)
    obtain ⟨i1, i2⟩ := ih (fun x hx => h1 x (List.mem_cons_of_mem _ hx))
    rw [List.cons_append, List.takeWhile_cons_of_pos hc, List.dropWhile_cons_of_pos hc, i1, i2]
    exact ⟨rfl, rfl⟩

/-- The scan for the closing brace finds the `}` behind a text that is balanced at the
depth it starts with. -/
theorem findClose_balanced (body : QString) :
    ∀ (d : Int) (rest : QString), (∀ k, 1 ≤ d + braceDepth (body.take k)) →
      d + braceDepth body = 1 → findClose (body ++ rbrace :: rest) d = some body.length := by
  induction body with
  | nil =>
    intro d rest _ htot
    rw [braceDepth_nil] at htot
    rw [List.nil_append, findClose, if_neg lbrace_ne_rbrace.symm, if_pos rfl,
      if_pos (by omega)]
    rfl
  | cons c cs ih =>
    intro d rest hpre htot
    rw [List.cons_append, findClose]
    by_cases hl : c = lbrace
    · subst hl
      rw [if_pos rfl, ih (d + 1) rest ?_ ?_]
      · rfl
      · intro k
        have := hpre (k + 1)
        rw [List.take_succ_cons, braceDepth_cons_lbrace] at this
        omega
      · rw [braceDepth_cons_lbrace] at htot
        omega
    · rw [if_neg hl]
      by_cases hr : c = rbrace
      · subst hr
        have h1 := hpre 1
        rw [List.take_succ_cons, List.take_zero, braceDepth_cons_rbrace, braceDepth_nil] at h1
        rw [if_pos rfl, if_neg (by omega), ih (d - 1) rest ?_ ?_]
        · rfl
        · intro k
          have := hpre (k + 1)
          rw [List.take_succ_cons, braceDepth_cons_rbrace] at this
          omega
        · rw [braceDepth_cons_rbrace] at htot
          omega
      · rw [if_neg hr, ih d rest ?_ ?_]
        · rfl
        · intro k
          have := hpre (k + 1)
          rw [List.take_succ_cons, braceDepth_cons_other c _ hl hr] at this
          exact this
        · rw [braceDepth_cons_other c _ hl hr] at htot
          exact htot

theorem isNameChar_not_space (c : Char) (h : isNameChar c = true) :
    isSpace c = false ∧ isRegexSpace c = false := by
  have h1 : isSpace c = false := by
    unfold isNameChar at h
    unfold isSpace
    simp only [Bool.or_eq_true, Bool.and_eq_true, decide_eq_true_eq, beq_iff_eq] at h
    simp only [Bool.or_eq_false_iff, Bool.and_eq_false_iff, decide_eq_false_iff_not,
      beq_eq_false_iff_ne, ne_eq]
    omega
  refine ⟨h1, ?_⟩
  by_contra hcon
  rw [isSpace_of_isRegexSpace c (by simpa using hcon)] at h1
  exact absurd h1 (by simp)

theorem isNameChar_ne (c b : Char) (h : isNameChar c = true) (hb : isNameChar b = false) :
    c ≠ b := by
  intro e
  rw [e, hb] at h
  exact absurd h (by simp)

theorem trimmed_fixed (s : QString) (h1 : ∀ c ∈ s.head?, isSpace c = false)
    (h2 : ∀ c ∈ s.getLast?, isSpace c = false) : trimmed s = s := by
  rw [trimmed_eq, dropWhile_of_head isSpace s h1, List.rdropWhile_eq_self_iff]
  intro hne
  have := h2 (s.getLast hne) (by rw [List.getLast?_eq_getLast _ hne]; rfl)
  simp [this]

theorem extractLoop_at_match (fuel : Nat) (t : QString) (out : FunctionTable)
    (name after : QString) (hm : matchFunction t = some (name, after)) :
    extractLoop (fuel + 1) t out = extractLoop fuel after (extractStep t name out) := by
  cases t with
  | nil => exact absurd hm (by simp [matchFunction])
  | cons c cs => rw [extractLoop, hm]

theorem extractLoop_no_match_from (fuel : Nat) (s : QString)
    (hno : ∀ t, t <:+ s → matchFunction t = none) (out : FunctionTable) :
    extractLoop fuel s out = out := by
  apply extractLoop_invariant (fun o => o = out) s _ fuel s out (List.suffix_refl _) rfl
  intro t name after o ht hm _
  rw [hno t ht] at hm
  exact absurd hm (by simp)

theorem matchFunction_definition (name sp1 args sp2 rest : QString)
    (hname : name ≠ []) (hnc : ∀ c ∈ name, isNameChar c = true)
    (hsp1 : ∀ c ∈ sp1, isRegexSpace c = true) (hsp2 : ∀ c ∈ sp2, isRegexSpace c = true)
    (hargs : ')' ∉ args) :
    matchFunction (name ++ (sp1 ++ '(' :: (args ++ ')' :: (sp2 ++ lbrace :: rest))))
      = some (name, rest) := by
  have hhead : ∀ c ∈ (sp1 ++ '(' :: (args ++ ')' :: (sp2 ++ lbrace :: rest))).head?,
      isNameChar c = false := by
    intro c hc
    cases sp1 with
    | nil =>
      simp only [List.nil_append, List.head?_cons, Option.mem_def, Option.some.injEq] at hc
      subst hc
      decide
    | cons d ds =>
      simp only [List.cons_append, List.head?_cons, Option.mem_def, Option.some.injEq] at hc
      subst hc
      have hd := hsp1 d (List.mem_cons_self _ _)
      by_contra hcon
      have := (isNameChar_not_space d (by simpa using hcon)).2
      rw [hd] at this
      exact absurd this (by simp)
  obtain ⟨t1, t2⟩ := takeWhile_dropWhile_append isNameChar name _ hnc hhead
  obtain ⟨_, t3⟩ := takeWhile_dropWhile_append isRegexSpace sp1
    ('(' :: (args ++ ')' :: (sp2 ++ lbrace :: rest))) hsp1
    (by intro c hc; simp only [List.head?_cons, Option.mem_def, Option.some.injEq] at hc
        subst hc; decide)
  obtain ⟨_, t4⟩ := takeWhile_dropWhile_append (fun x => x != ')') args
    (')' :: (sp2 ++ lbrace :: rest))
    (by intro c hc
        have : c ≠ ')' := fun e => hargs (e ▸ hc)
        simpa using this)
    (by intro c hc; simp only [List.head?_cons, Option.mem_def, Option.some.injEq] at hc
        subst hc; decide)
  obtain ⟨_, t5⟩ := takeWhile_dropWhile_append isRegexSpace sp2 (lbrace :: rest) hsp2
    (by intro c hc; simp only [List.head?_cons, Option.mem_def, Option.some.injEq] at hc
        subst hc; decide)
  unfold matchFunction
  rw [t1, t2, t3, if_neg hname]
  simp only [if_true]
  rw [t4]
  simp only []
  rw [t5]
  simp only [if_true]

theorem candidate_definition (name pre body rest : QString) (hpre : lbrace ∉ pre)
    (hbal : Balanced body) :
    candidate (pre ++ lbrace :: (body ++ rbrace :: rest)) name
      = some (trimmed name,
          { signature := trimmed pre, body := body, normalizedBody := normalizeBody body,
            bodyLines := toLines body }) := by
  obtain ⟨t1, t2⟩ := takeWhile_dropWhile_append (fun x => x != lbrace) pre
    (lbrace :: (body ++ rbrace :: rest))
    (by intro c hc
        have : c ≠ lbrace := fun e => hpre (e ▸ hc)
        simpa using this)
    (by intro c hc; simp only [List.head?_cons, Option.mem_def, Option.some.injEq] at hc
        subst hc; simp)
  have hclose : findClose (lbrace :: (body ++ rbrace :: rest)) 0 = some (body.length + 1) := by
    rw [findClose, if_pos rfl, findClose_balanced body (0 + 1) rest
      (fun k => by have := hbal.1 k; omega) (by have := hbal.2; omega)]
    rfl
  unfold candidate
  rw [t1, t2]
  simp only []
  rw [hclose]
  simp

theorem balanced_of_bounded (s : QString)
    (h : ∀ k, k < s.length + 1 → 0 ≤ braceDepth (s.take k)) (h0 : braceDepth s = 0) :
    Balanced s := by
  refine ⟨fun k => ?_, h0⟩
  by_cases hk : k < s.length + 1
  · exact h k hk
  · rw [List.take_of_length_le (by omega), h0]

/-- C13, as amended. A text `name(args) { body }` (white space allowed before `(` and
before the brace) whose name is a non-empty run of `[\w:~]`, whose args hold no `)` and no
brace, whose body is brace-balanced and starts no further match of the function pattern,
and which holds no comment, gives a table with exactly one entry: the key is the name, the
body is the text between the outer braces. -/
theorem extractFunctions_single (name sp1 args sp2 body : QString)
    (hname : name ≠ []) (hnc : ∀ c ∈ name, isNameChar c = true)
    (hsp1 : ∀ c ∈ sp1, isRegexSpace c = true) (hsp2 : ∀ c ∈ sp2, isRegexSpace c = true)
    (hargs : ')' ∉ args) (hargs2 : lbrace ∉ args) (hbal : Balanced body)
    (hinner : ∀ t, t <:+ body ++ [rbrace] → matchFunction t = none)
    (hstrip : stripComments
        (name ++ (sp1 ++ '(' :: (args ++ ')' :: (sp2 ++ lbrace :: (body ++ [rbrace])))))
      = name ++ (sp1 ++ '(' :: (args ++ ')' :: (sp2 ++ lbrace :: (body ++ [rbrace]))))) :
    extractFunctions
        (name ++ (sp1 ++ '(' :: (args ++ ')' :: (sp2 ++ lbrace :: (body ++ [rbrace])))))
      = [(name,
          { signature := trimmed (name ++ (sp1 ++ '(' :: (args ++ ')' :: sp2))),
            body := body, normalizedBody := normalizeBody body,
            bodyLines := toLines body })] := by
  have hm := matchFunction_definition name sp1 args sp2 (body ++ [rbrace]) hname hnc hsp1
    hsp2 hargs
  have hpre : lbrace ∉ name ++ (sp1 ++ '(' :: (args ++ ')' :: sp2)) := by
    intro hc
    simp only [List.mem_append, List.mem_cons] at hc
    rcases hc with hc | hc | hc | hc | hc | hc
    · have := hnc _ hc
      exact absurd this (by decide)
    · have := hsp1 _ hc
      exact absurd this (by decide)
    · exact absurd hc (by decide)
    · exact hargs2 hc
    · exact absurd hc (by decide)
    · have := hsp2 _ hc
      exact absurd this (by decide)
  have hform : name ++ (sp1 ++ '(' :: (args ++ ')' :: (sp2 ++ lbrace :: (body ++ [rbrace]))))
      = (name ++ (sp1 ++ '(' :: (args ++ ')' :: sp2))) ++ lbrace :: (body ++ rbrace :: []) := by
    simp
  have hcand := candidate_definition name _ body [] hpre hbal
  rw [← hform] at hcand
  have htrim : trimmed name = name := by
    apply trimmed_fixed
    · intro c hc
      cases name with
      | nil => simp at hc
      | cons d ds =>
        simp only [List.head?_cons, Option.mem_def, Option.some.injEq] at hc
        subst hc
        exact (isNameChar_not_space d (hnc d (List.mem_cons_self _ _))).1
    · intro c hc
      have hmem : c ∈ name := List.mem_of_mem_getLast? hc
      exact (isNameChar_not_space c (hnc c hmem)).1
  rw [htrim] at hcand
  unfold extractFunctions
  simp only []
  rw [hstrip]
  have hlen : (name ++ (sp1 ++ '(' :: (args ++ ')' :: (sp2 ++ lbrace :: (body ++ [rbrace]))))).length
      = (name ++ (sp1 ++ '(' :: (args ++ ')' :: (sp2 ++ lbrace :: (body ++ [rbrace]))))).length
        - 1 + 1 := by
    simp only [List.length_append, List.length_cons]
    omega
  rw [hlen, extractLoop_at_match _ _ _ name (body ++ [rbrace]) hm,
    extractLoop_no_match_from _ _ hinner]
  unfold extractStep
  rw [hcand]
  rfl

/-- C13 fails as stated: `f() { if (x) { y; } }` has the form `name(args) { body }` with a
balanced body, and its table has two entries, `f` and `if`. -/
theorem extractFunctions_single_counterexample :
    sampleText
        = "f".toList ++ ([] ++ '(' :: ([] ++ ')' :: ([' '] ++ lbrace ::
            (sampleEntry.2.body ++ [rbrace])))) ∧
      Balanced sampleEntry.2.body ∧
      (extractFunctions sampleText).length = 2 ∧
      (extractFunctions sampleText).map (fun e => e.1) = ["f".toList, "if".toList] :=
  ⟨by decide, balanced_of_bounded _ (by decide) (by decide), by decide, by decide⟩

/-- C13, as amended, at `f(int a) { { return a; } }`. -/
theorem extractFunctions_single_witness :
    extractFunctions
        ("f".toList ++ ([] ++ '(' :: ("int a".toList ++ ')' :: ([' '] ++ lbrace ::
          (" \x7b return a; \x7d ".toList ++ [rbrace])))))
      = [("f".toList,
          { signature := trimmed ("f".toList ++ ([] ++ '(' :: ("int a".toList ++ ')' :: [' ']))),
            body := " \x7b return a; \x7d ".toList,
            normalizedBody := normalizeBody " \x7b return a; \x7d ".toList,
            bodyLines := toLines " \x7b return a; \x7d ".toList })] :=
  extractFunctions_single "f".toList [] "int a".toList [' '] " \x7b return a; \x7d ".toList
    (by decide) (by decide) (by decide) (by decide) (by decide) (by decide)
    (balanced_of_bounded _ (by decide) (by decide))
    (fun t ht =>
      (by decide : ∀ t ∈ (" \x7b return a; \x7d ".toList ++ [rbrace]).tails,
        matchFunction t = none) t ((List.mem_tails _ _).mpr ht))
    (by decide)

/-! ## Spacing style -/

theorem collapseRuns_in_run (q : Char → Bool) (s : QString) :
    collapseRuns q true s = collapseRuns q false (s.dropWhile q) := by
  induction s with
  | nil => rfl
  | cons c cs ih =>
    by_cases hc : q c = true
    · rw [collapseRuns, if_pos hc, if_pos rfl, List.dropWhile_cons_of_pos hc, ih]
    · rw [List.dropWhile_cons_of_neg hc, collapseRuns, if_neg hc, collapseRuns, if_neg hc]

/-- The white-space pass of the code replaces every maximal run of `\s` by a space. -/
theorem spaces_eq_collapseRuns :
    ∀ (k : Nat) (s : QString), s.length ≤ k →
      replaceAll matchSpaces [' '] s = collapseRuns isRegexSpace false s := by
  intro k
  induction k with
  | zero =>
    intro s hs
    have : s = [] := List.length_eq_zero.mp (by omega)
    subst this
    rfl
  | succ k ih =>
    intro s hs
    cases s with
    | nil => rfl
    | cons c cs =>
      rw [List.length_cons] at hs
      by_cases hc : isRegexSpace c = true
      · have hl := (List.dropWhile_suffix isRegexSpace (l := cs)).length_le
        rw [spaces_cons_space c cs hc, ih _ (by omega), ← collapseRuns_in_run, collapseRuns,
          if_pos hc, if_neg (by simp)]
      · rw [spaces_cons_other c cs (by simpa using hc), ih cs (by omega), collapseRuns,
          if_neg hc]

theorem collapseRuns_tabs (f : Bool) (s : QString) :
    collapseRuns isRegexSpace f (replaceChar '\t' [' '] s) = collapseRuns isRegexSpace f s := by
  induction s generalizing f with
  | nil => rfl
  | cons c cs ih =>
    have hcons : replaceChar '\t' [' '] (c :: cs)
        = (if c = '\t' then ' ' else c) :: replaceChar '\t' [' '] cs := by
      unfold replaceChar
      rw [List.flatMap_cons]
      by_cases hc : c = '\t'
      · simp [hc]
      · simp [hc]
    rw [hcons]
    have hsp : isRegexSpace ' ' = true := by decide
    have htab : isRegexSpace '\t' = true := by decide
    by_cases hc : c = '\t'
    · subst hc
      rw [if_pos rfl]
      cases f with
      | true =>
        rw [collapseRuns, if_pos hsp, if_pos rfl, ih, collapseRuns, if_pos htab, if_pos rfl]
      | false =>
        rw [collapseRuns, if_pos hsp, if_neg (by simp), ih, collapseRuns, if_pos htab,
          if_neg (by simp)]
    · rw [if_neg hc]
      by_cases hq : isRegexSpace c = true
      · cases f with
        | true =>
          rw [collapseRuns, if_pos hq, if_pos rfl, ih, collapseRuns, if_pos hq, if_pos rfl]
        | false =>
          rw [collapseRuns, if_pos hq, if_neg (by simp), ih, collapseRuns, if_pos hq,
            if_neg (by simp)]
      · rw [collapseRuns, if_neg hq, ih, collapseRuns, if_neg hq]

/-- Collapsing the runs of a class first changes nothing for a wider class that holds the
space. -/
theorem collapseRuns_absorb (p q : Char → Bool) (hpq : ∀ c, p c = true → q c = true)
    (hq : q ' ' = true) (s : QString) :
    (∀ f, collapseRuns q f (collapseRuns p false s) = collapseRuns q f s) ∧
      collapseRuns q true (collapseRuns p true s) = collapseRuns q true s := by
  induction s with
  | nil => exact ⟨fun f => rfl, rfl⟩
  | cons c cs ih =>
    obtain ⟨ih1, ih2⟩ := ih
    by_cases hc : p c = true
    · have hqc := hpq c hc
      refine ⟨fun f => ?_, ?_⟩
      · rw [collapseRuns, if_pos hc, if_neg (by simp)]
        cases f with
        | true =>
          rw [collapseRuns, if_pos hq, if_pos rfl, ih2, collapseRuns, if_pos hqc, if_pos rfl]
        | false =>
          rw [collapseRuns, if_pos hq, if_neg (by simp), ih2, collapseRuns, if_pos hqc,
            if_neg (by simp)]
      · rw [collapseRuns, if_pos hc, if_pos rfl, ih2, collapseRuns, if_pos hqc, if_pos rfl]
    · have hstep : ∀ g f, collapseRuns q f (collapseRuns p g (c :: cs))
          = collapseRuns q f (c :: cs) := by
        intro g f
        rw [collapseRuns, if_neg hc]
        by_cases hqc : q c = true
        · rw [collapseRuns, if_pos hqc, collapseRuns, if_pos hqc, ih1]
        · rw [collapseRuns, if_neg hqc, collapseRuns, if_neg hqc, ih1]
      exact ⟨fun f => hstep false f, hstep true true⟩

/-- The result of `normalizeBody` is a function of the text without carriage returns with
its runs of plain white space collapsed. -/
theorem normalizeBody_via_collapse (x : QString) :
    normalizeBody x =
      trimmed (replaceAll (matchBrace rbrace) [rbrace]
        (replaceAll (matchBrace lbrace) [lbrace]
          (collapseRuns isRegexSpace false
            (collapseRuns isPlainSpace false (x.filter (fun c => c != '\r')))))) := by
  have hpq : ∀ c, isPlainSpace c = true → isRegexSpace c = true := by
    intro c hc
    unfold isPlainSpace at hc
    simp only [Bool.or_eq_true, beq_iff_eq] at hc
    rcases hc with (hc | hc) | hc <;> subst hc <;> decide
  unfold normalizeBody
  simp only []
  rw [spaces_eq_collapseRuns _ _ (le_refl _), collapseRuns_tabs, replaceChar_nil_eq_filter,
    (collapseRuns_absorb isPlainSpace isRegexSpace hpq (by decide) _).1 false]

/-- C12 fails as stated: `a\rb` and `a b` are equal once every maximal run of space, tab,
carriage return and line feed is replaced by a space, and `normalizeBody` gives `ab` for
the first and `a b` for the second. -/
theorem normalizeBody_spacing_counterexample :
    collapseRuns isListedSpace false ['a', '\r', 'b']
        = collapseRuns isListedSpace false ['a', ' ', 'b'] ∧
      normalizeBody ['a', '\r', 'b'] = ['a', 'b'] ∧
      normalizeBody ['a', ' ', 'b'] = ['a', ' ', 'b'] ∧
      normalizeBody ['a', '\r', 'b'] ≠ normalizeBody ['a', ' ', 'b'] := by
  decide

/-- C12, as amended. Two texts that, with their carriage returns deleted, are equal once
every maximal run of space, tab and line feed is replaced by a space have the same
`normalizeBody`. -/
theorem normalizeBody_ignores_spacing (x y : QString)
    (h : collapseRuns isPlainSpace false (x.filter (fun c => c != '\r'))
      = collapseRuns isPlainSpace false (y.filter (fun c => c != '\r'))) :
    normalizeBody x = normalizeBody y := by
  rw [normalizeBody_via_collapse x, normalizeBody_via_collapse y, h]

/-- C12, as amended, at `a \r\n\tb` and `a b`. -/
theorem normalizeBody_ignores_spacing_witness :
    normalizeBody ['a', ' ', '\r', '\n', '\t', 'b'] = normalizeBody ['a', ' ', 'b'] :=
  normalizeBody_ignores_spacing ['a', ' ', '\r', '\n', '\t', 'b'] ['a', ' ', 'b'] (by decide)

/-! ## Evaluations of the comment stripper, the extractor and the settings slot -/

/-- C22: on the text `//* a */* b */` the block-comment pass removes `/* a */`, which starts
at the second slash, and the text left, `/* b */`, is not looked at again: the output of
`stripComments` is a block comment. -/
theorem stripComments_leaves_block_comment :
    replaceAll matchBlockComment [] commentText = "/* b */".toList ∧
      stripComments commentText = "/* b */".toList ∧
      matchBlockComment (stripComments commentText) = some [] := by
  decide

/-- C24: the text `//* */ f() {}` is one line comment, yet the block-comment pass removes
`/* */` from it, the line-comment pass finds no `//` in the rest `/ f() {}`, and
`extractFunctions` returns an entry for `f`. -/
theorem extractFunctions_in_line_comment :
    '\n' ∉ (lineCommentText.drop 2) ∧ lineCommentText.take 2 = ['/', '/'] ∧
      stripComments lineCommentText = "/ f() \x7b\x7d".toList ∧
      (extractFunctions lineCommentText).map (fun e => e.1) = [['f']] := by
  decide

/-- C26: in `f(int a = {}) { x; }` the first opening brace from the match start on lies in
the argument list; the entry of `f` has the signature `f(int a =`, which does not end with
a closing parenthesis, and the empty body. -/
theorem extractFunctions_brace_in_arguments :
    (extractFunctions defaultArgText).map (fun e => (e.1, e.2.signature, e.2.body))
        = [(['f'], "f(int a =".toList, [])] ∧
      (matchFunction defaultArgText).map (fun r => r.2) = some " x; \x7d".toList := by
  decide

/-- C29: `diffLines ["x","y"] ["y","x","x"]` is Removed x, Unchanged y, Reordered x,
Reordered x: two Reordered rows against one Removed row. -/
theorem diffLines_reorder_not_paired :
    diffLines [['x'], ['y']] [['y'], ['x'], ['x']]
        = [[markRemoved, ['x'], []], [markUnchanged, ['y'], ['y']],
            [markReordered, [], ['x']], [markReordered, [], ['x']]] ∧
      countMarker markRemoved (diffLines [['x'], ['y']] [['y'], ['x'], ['x']])
        < countMarker markReordered (diffLines [['x'], ['y']] [['y'], ['x'], ['x']]) := by
  decide

/-- C30: the single definition `f() { if (x) { y; } }` gives a table of exactly two entries,
`f` with the body ` if (x) { y; } ` and `if` with the body ` y; `. -/
theorem extractFunctions_nested_candidate :
    (extractFunctions sampleText).map (fun e => (e.1, e.2.body))
        = [(['f'], " if (x) \x7b y; \x7d ".toList), (['i', 'f'], " y; ".toList)] ∧
      1 < (extractFunctions sampleText).length := by
  decide

/-- C25: in the state of `testSaveButton` (file and folders exist, fields `CMakeLists.txt`,
`temp`, `backup`) `saveSettings` returns true and the three paths are in the object
`appSettings` and its JSON file, while `QSettings("AM-Tower", "DiffCheckAI")`, which the
test reads, holds none of them. A call with an invalid CMake path returns false and leaves
the state as it was, and no call of `saveSettings` changes the `QSettings` store. -/
theorem saveSettings_not_in_qsettings :
    (saveSettings "CMakeLists.txt".toList "temp".toList "backup".toList false false
        testState).1 = true ∧
      (saveSettings "CMakeLists.txt".toList "temp".toList "backup".toList false false
        testState).2.settingsFile
        = [("paths/cmake".toList, "CMakeLists.txt".toList), ("paths/temp".toList, "temp".toList),
            ("paths/backup".toList, "backup".toList)] ∧
      storeValue (saveSettings "CMakeLists.txt".toList "temp".toList "backup".toList false false
        testState).2.qsettings "paths/cmake".toList = none ∧
      (∀ c t b (yt yb : Bool) (st : AppState), trimmed c ∉ st.fs.files →
        saveSettings c t b yt yb st = (false, st)) ∧
      ∀ c t b (yt yb : Bool) (st : AppState),
        (saveSettings c t b yt yb st).2.qsettings = st.qsettings := by
  refine ⟨by decide, by decide, by decide, ?_, ?_⟩
  · intro c t b yt yb st h
    unfold saveSettings
    simp only []
    rw [if_pos h]
  intro c t b yt yb st
  unfold saveSettings
  simp only []
  split
  · rfl
  · split
    · rfl
    · split
      · rfl
      · simp only [save, setValue]
        split <;> rfl

/-! ## The comment patterns -/

theorem matchLineComment_shrinks : Shrinks matchLineComment :=
  fun t rest h => (matchLineComment_suffix t rest h).2

theorem matchBlockComment_shrinks : Shrinks matchBlockComment :=
  fun t rest h => (matchBlockComment_suffix t rest h).2

theorem count_dropWhile_ne (b : Char) (s : QString) :
    (s.dropWhile (fun x => x != b)).count b = s.count b := by
  induction s with
  | nil => rfl
  | cons c cs ih =>
    by_cases hc : c = b
    · rw [List.dropWhile_cons_of_neg (by simp [hc])]
    · rw [List.dropWhile_cons_of_pos (by simp [hc]), ih, List.count_cons_of_ne (Ne.symm hc)]

theorem matchLineComment_none_of_head (c : Char) (cs : QString) (hc : c ≠ '/') :
    matchLineComment (c :: cs) = none := by
  cases cs with
  | nil => rfl
  | cons d ds =>
    rw [matchLineComment, if_neg]
    exact fun h => hc h.1

/-- The line-comment pass keeps the line feeds, and its result holds no two slashes in a
row and starts with a slash only if the text does. -/
theorem lineComments_removed :
    ∀ (k : Nat) (s : QString), s.length ≤ k →
      (replaceAll matchLineComment [] s).count '\n' = s.count '\n' ∧
        List.Chain' (fun u v => ¬ (u = '/' ∧ v = '/')) (replaceAll matchLineComment [] s) := by
  intro k
  induction k with
  | zero =>
    intro s hs
    have : s = [] := List.length_eq_zero.mp (by omega)
    subst this
    exact ⟨rfl, List.chain'_nil⟩
  | succ k ih =>
    intro s hs
    cases s with
    | nil => exact ⟨rfl, List.chain'_nil⟩
    | cons c cs =>
      cases hm : matchLineComment (c :: cs) with
      | some rest =>
        rw [replaceAll_cons_some _ _ matchLineComment_shrinks c cs rest hm, List.nil_append]
        have hl := (matchLineComment_suffix _ _ hm).2
        obtain ⟨h1, h2⟩ := ih rest (by simp only [List.length_cons] at hl hs; omega)
        refine ⟨?_, h2⟩
        rw [h1]
        match cs, hm with
        | d :: r, hm =>
          rw [matchLineComment] at hm
          split at hm
          · rename_i hcd
            rw [← Option.some.inj hm, count_dropWhile_ne, hcd.1, hcd.2]
            rfl
          · exact absurd hm (by simp)
      | none =>
        rw [replaceAll_cons_none _ _ c cs hm]
        obtain ⟨h1, h2⟩ := ih cs (by simp only [List.length_cons] at hs; omega)
        refine ⟨by rw [List.count_cons, List.count_cons, h1], ?_⟩
        rw [List.chain'_cons']
        refine ⟨?_, h2⟩
        intro y hy hcy
        cases cs with
        | nil => simp [replaceAll_nil] at hy
        | cons d ds =>
          by_cases hd : d = '/'
          · rw [matchLineComment, if_pos ⟨hcy.1, hd⟩] at hm
            exact absurd hm (by simp)
          · rw [replaceAll_cons_none _ _ d ds (matchLineComment_none_of_head d ds hd)] at hy
            simp only [List.head?_cons, Option.mem_def, Option.some.injEq] at hy
            exact hd (hy ▸ hcy.2)

/-- C21. The output of `stripComments` holds no two slashes in a row, and it has as many
line feeds as the text has after the block-comment pass. -/
theorem stripComments_no_line_comment (code : QString) :
    ¬ (['/', '/'] <:+: stripComments code) ∧
      (stripComments code).count '\n' = (replaceAll matchBlockComment [] code).count '\n' := by
  unfold stripComments
  simp only []
  obtain ⟨h1, h2⟩ := lineComments_removed _ (replaceAll matchBlockComment [] code) (le_refl _)
  refine ⟨?_, h1⟩
  rintro ⟨p, q, hpq⟩
  exact chain_pair_of_append _ _ p q '/' '/' h2 (by rw [← hpq]; simp) ⟨rfl, rfl⟩

/-- Behind a text without `*/` the closing `*/` is the first one. -/
theorem afterBlockEnd_closing (t : QString) (h : ¬ (['*', '/'] <:+: t)) :
    afterBlockEnd (t ++ ['*', '/']) = some [] := by
  induction t with
  | nil => rfl
  | cons c t ih =>
    have ht : ¬ (['*', '/'] <:+: t) := fun hi => h (hi.trans (List.suffix_cons c t).isInfix)
    cases t with
    | nil =>
      show afterBlockEnd [c, '*', '/'] = some []
      rw [afterBlockEnd, if_neg (by simp)]
      rfl
    | cons d ds =>
      show afterBlockEnd (c :: d :: (ds ++ ['*', '/'])) = some []
      rw [afterBlockEnd, if_neg]
      · exact ih ht
      · rintro ⟨rfl, rfl⟩
        exact h ⟨[], ds, rfl⟩

/-- C23. A text that is one block comment, `/*` then a text without `*/` then `*/`, is
stripped to the empty text and gives the empty table. -/
theorem extractFunctions_in_block_comment (t : QString) (h : ¬ (['*', '/'] <:+: t)) :
    stripComments ('/' :: '*' :: (t ++ ['*', '/'])) = [] ∧
      extractFunctions ('/' :: '*' :: (t ++ ['*', '/'])) = [] := by
  have hm : matchBlockComment ('/' :: '*' :: (t ++ ['*', '/'])) = some [] := by
    rw [matchBlockComment, if_pos ⟨rfl, rfl⟩]
    exact afterBlockEnd_closing t h
  have hs : stripComments ('/' :: '*' :: (t ++ ['*', '/'])) = [] := by
    unfold stripComments
    simp only []
    rw [replaceAll_cons_some _ _ matchBlockComment_shrinks _ _ _ hm]
    rfl
  refine ⟨hs, ?_⟩
  unfold extractFunctions
  simp only []
  rw [hs]
  rfl

/-- C23 at the comment `/* f() { x; } */`. -/
theorem extractFunctions_in_block_comment_witness :
    ¬ (['*', '/'] <:+: " f() \x7b x; \x7d ".toList) ∧
      extractFunctions "/* f() \x7b x; \x7d */".toList = [] :=
  ⟨by decide, (extractFunctions_in_block_comment " f() \x7b x; \x7d ".toList (by decide)).2⟩

/-! ## Checked indexing agrees with the total reads -/

theorem lineAtChecked_eq (lines : List QString) (i : Nat) (h : i < lines.length) :
    lineAtChecked lines i = some (lineAt lines i) := by
  unfold lineAtChecked lineAt
  rw [List.getD_eq_getElem _ _ h, List.getElem?_eq_getElem h]

theorem dpGetChecked_eq (dp : Table) (n m i j : Nat) (hd : TableDims dp n m)
    (hi : i ≤ n) (hj : j ≤ m) : dpGetChecked dp i j = some (dpGet dp i j) := by
  obtain ⟨hlen, hrows⟩ := hd
  have hil : i < dp.length := by omega
  have hrow : (dp[i]).length = m + 1 := hrows _ (List.getElem_mem _)
  unfold dpGetChecked dpGet
  rw [List.getElem?_eq_getElem hil, List.getD_eq_getElem _ _ hil]
  simp only []
  rw [List.getElem?_eq_getElem (by omega), List.getD_eq_getElem _ _ (by omega)]

theorem dpSetChecked_eq (dp : Table) (n m i j v : Nat) (hd : TableDims dp n m)
    (hi : i ≤ n) (hj : j ≤ m) : dpSetChecked dp i j v = some (dpSet dp i j v) := by
  obtain ⟨hlen, hrows⟩ := hd
  have hil : i < dp.length := by omega
  have hrow : (dp[i]).length = m + 1 := hrows _ (List.getElem_mem _)
  unfold dpSetChecked dpSet
  rw [List.getElem?_eq_getElem hil, List.getD_eq_getElem _ _ hil]
  simp only []
  rw [if_pos (by omega)]

theorem fieldAtChecked_eq (result : List DiffRow) (k f : Nat) (hr : RowsOk result)
    (hk : k < result.length) (hf : f < 3) :
    fieldAtChecked result k f = some (fieldAt result k f) := by
  have hrow : (result[k]).length = 3 := hr _ (List.getElem_mem _)
  unfold fieldAtChecked fieldAt
  rw [List.getElem?_eq_getElem hk, List.getD_eq_getElem _ _ hk]
  simp only []
  rw [List.getElem?_eq_getElem (by omega), List.getD_eq_getElem _ _ (by omega)]

theorem setMarkerChecked_eq (result : List DiffRow) (k : Nat) (v : QString) (hr : RowsOk result)
    (hk : k < result.length) :
    setMarkerChecked result k v = some (setMarker result k v) := by
  have hrow : (result[k]).length = 3 := hr _ (List.getElem_mem _)
  unfold setMarkerChecked setMarker
  rw [List.getElem?_eq_getElem hk, List.getD_eq_getElem _ _ hk]
  simp only []
  rw [if_pos (by omega)]

theorem rowsOk_setMarker (result : List DiffRow) (k : Nat) (v : QString) (hr : RowsOk result) :
    RowsOk (setMarker result k v) ∧ (setMarker result k v).length = result.length := by
  refine ⟨?_, by simp [setMarker]⟩
  intro row hrow
  unfold setMarker at hrow
  rcases List.mem_or_eq_of_mem_set hrow with h | h
  · exact hr row h
  · subst h
    by_cases hk : k < result.length
    · rw [List.length_set, List.getD_eq_getElem _ _ hk]
      exact hr _ (List.getElem_mem _)
    · rw [List.set_eq_of_length_le (by omega)] at hrow
      exact hr _ hrow

theorem cellChecked_eq (o n : List QString) (dp : Table) (i j : Nat)
    (hd : TableDims dp o.length n.length) (hi : i < o.length) (hj : j < n.length) :
    cellChecked o n dp i j
      = some (if norm (lineAt o i) = norm (lineAt n j) then 1 + dpGet dp (i + 1) (j + 1)
          else max (dpGet dp (i + 1) j) (dpGet dp i (j + 1))) := by
  unfold cellChecked
  rw [lineAtChecked_eq o i hi, lineAtChecked_eq n j hj]
  simp only []
  rw [dpGetChecked_eq dp _ _ (i + 1) (j + 1) hd (by omega) (by omega),
    dpGetChecked_eq dp _ _ (i + 1) j hd (by omega) (by omega),
    dpGetChecked_eq dp _ _ i (j + 1) hd (by omega) (by omega)]
  split <;> rfl

theorem fillInnerChecked_eq (o n : List QString) (i : Nat) (hi : i < o.length) :
    ∀ (j : Nat) (dp : Table), j ≤ n.length → TableDims dp o.length n.length →
      fillInnerChecked o n i j dp = some (fillInner o n i j dp) ∧
        TableDims (fillInner o n i j dp) o.length n.length := by
  intro j
  induction j with
  | zero => intro dp _ hd; exact ⟨rfl, hd⟩
  | succ j ih =>
    intro dp hj hd
    rw [fillInnerChecked, fillInner, cellChecked_eq o n dp i j hd hi (by omega)]
    simp only []
    rw [dpSetChecked_eq dp _ _ i j _ hd (by omega) (by omega)]
    simp only []
    exact ih _ (by omega) (tableDims_dpSet dp _ _ i j _ hd)

theorem fillOuterChecked_eq (o n : List QString) :
    ∀ (k : Nat) (dp : Table), k ≤ o.length → TableDims dp o.length n.length →
      fillOuterChecked o n k dp = some (fillOuter o n k dp) ∧
        TableDims (fillOuter o n k dp) o.length n.length := by
  intro k
  induction k with
  | zero => intro dp _ hd; exact ⟨rfl, hd⟩
  | succ k ih =>
    intro dp hk hd
    obtain ⟨h1, h2⟩ := fillInnerChecked_eq o n k (by omega) n.length dp (le_refl _) hd
    rw [fillOuterChecked, fillOuter, h1]
    simp only []
    exact ih _ (by omega) h2

theorem tableDims_replicate (n m : Nat) :
    TableDims (List.replicate (n + 1) (List.replicate (m + 1) 0)) n m := by
  refine ⟨by simp, ?_⟩
  intro row hrow
  rw [(List.mem_replicate.mp hrow).2]
  simp

theorem backtrackChecked_eq (o n : List QString) (dp : Table)
    (hd : TableDims dp o.length n.length) :
    ∀ (fuel i j : Nat) (res : List DiffRow),
      (o.length - i) + (n.length - j) ≤ fuel →
      backtrackChecked o n dp fuel i j res = some (backtrack o n dp fuel i j res) := by
  intro fuel
  induction fuel with
  | zero =>
    intro i j res h
    rw [backtrackChecked, backtrack, if_neg (by omega)]
  | succ fuel ih =>
    intro i j res h
    rw [backtrackChecked, backtrack]
    by_cases hc : i < o.length ∧ j < n.length
    · rw [if_pos hc, if_pos hc, lineAtChecked_eq o i hc.1, lineAtChecked_eq n j hc.2]
      simp only []
      rw [dpGetChecked_eq dp _ _ (i + 1) j hd (by omega) (by omega),
        dpGetChecked_eq dp _ _ i (j + 1) hd (by omega) (by omega)]
      simp only []
      by_cases he : norm (lineAt o i) = norm (lineAt n j)
      · rw [if_pos he, if_pos he]
        exact ih _ _ _ (by omega)
      · rw [if_neg he, if_neg he]
        by_cases hg : dpGet dp (i + 1) j ≥ dpGet dp i (j + 1)
        · rw [if_pos hg, if_pos hg]
          exact ih _ _ _ (by omega)
        · rw [if_neg hg, if_neg hg]
          exact ih _ _ _ (by omega)
    · rw [if_neg hc, if_neg hc]

theorem flushRemovedChecked_eq (o : List QString) :
    ∀ (fuel i : Nat) (res : List DiffRow), o.length - i ≤ fuel →
      flushRemovedChecked o fuel i res = some (flushRemoved o fuel i res) := by
  intro fuel
  induction fuel with
  | zero =>
    intro i res h
    rw [flushRemovedChecked, flushRemoved, if_neg (by omega)]
  | succ fuel ih =>
    intro i res h
    rw [flushRemovedChecked, flushRemoved]
    by_cases hc : i < o.length
    · rw [if_pos hc, if_pos hc, lineAtChecked_eq o i hc]
      exact ih _ _ (by omega)
    · rw [if_neg hc, if_neg hc]

theorem flushAddedChecked_eq (n : List QString) :
    ∀ (fuel j : Nat) (res : List DiffRow), n.length - j ≤ fuel →
      flushAddedChecked n fuel j res = some (flushAdded n fuel j res) := by
  intro fuel
  induction fuel with
  | zero =>
    intro j res h
    rw [flushAddedChecked, flushAdded, if_neg (by omega)]
  | succ fuel ih =>
    intro j res h
    rw [flushAddedChecked, flushAdded]
    by_cases hc : j < n.length
    · rw [if_pos hc, if_pos hc, lineAtChecked_eq n j hc]
      exact ih _ _ (by omega)
    · rw [if_neg hc, if_neg hc]

theorem reorderScanChecked_eq (result : List DiffRow) (k : Nat) (added : QString)
    (hr : RowsOk result) (hk : k < result.length) :
    ∀ (fuel r : Nat), result.length - r ≤ fuel →
      reorderScanChecked result k added fuel r = some (reorderScan result k added fuel r) := by
  intro fuel
  induction fuel with
  | zero =>
    intro r h
    rw [reorderScanChecked, reorderScan, if_neg (by omega)]
  | succ fuel ih =>
    intro r h
    rw [reorderScanChecked, reorderScan]
    by_cases hc : r < result.length
    · rw [if_pos hc, if_pos hc, fieldAtChecked_eq result r 0 hr hc (by omega),
        fieldAtChecked_eq result r 1 hr hc (by omega)]
      simp only []
      by_cases h1 : fieldAt result r 0 = markRemoved
      · rw [if_pos h1]
        by_cases h2 : norm (fieldAt result r 1) = added
        · rw [if_pos h2, if_pos ⟨h1, h2⟩]
          exact setMarkerChecked_eq result k _ hr hk
        · rw [if_neg h2, if_neg (fun h => h2 h.2)]
          exact ih _ (by omega)
      · rw [if_neg h1, if_neg (fun h => h1 h.1)]
        exact ih _ (by omega)
    · rw [if_neg hc, if_neg hc]

theorem rowsOk_reorderScan (result : List DiffRow) (k : Nat) (added : QString)
    (hr : RowsOk result) :
    ∀ (fuel r : Nat), RowsOk (reorderScan result k added fuel r) ∧
      (reorderScan result k added fuel r).length = result.length := by
  intro fuel
  induction fuel with
  | zero => intro r; exact ⟨hr, rfl⟩
  | succ fuel ih =>
    intro r
    rw [reorderScan]
    split
    · split
      · exact rowsOk_setMarker result k _ hr
      · exact ih _
    · exact ⟨hr, rfl⟩

theorem reorderLoopChecked_eq :
    ∀ (fuel k : Nat) (result : List DiffRow), RowsOk result → result.length - k ≤ fuel →
      reorderLoopChecked fuel k result = some (reorderLoop fuel k result) := by
  intro fuel
  induction fuel with
  | zero =>
    intro k result _ h
    rw [reorderLoopChecked, reorderLoop, if_neg (by omega)]
  | succ fuel ih =>
    intro k result hr h
    rw [reorderLoopChecked, reorderLoop]
    by_cases hc : k < result.length
    · rw [if_pos hc, if_pos hc, fieldAtChecked_eq result k 0 hr hc (by omega),
        fieldAtChecked_eq result k 2 hr hc (by omega)]
      simp only []
      by_cases h1 : fieldAt result k 0 = markAdded
      · rw [if_pos h1, if_pos h1,
          reorderScanChecked_eq result k _ hr hc result.length 0 (by omega)]
        simp only []
        obtain ⟨h2, h3⟩ := rowsOk_reorderScan result k (norm (fieldAt result k 2)) hr
          result.length 0
        exact ih _ _ h2 (by omega)
      · rw [if_neg h1, if_neg h1]
        exact ih _ _ hr (by omega)
    · rw [if_neg hc, if_neg hc]

theorem align_length_le (xs ys : List QString) :
    (align xs ys).length ≤ xs.length + ys.length := by
  induction xs, ys using align.induct with
  | case1 ys => rw [align]; simp
  | case2 a xs => rw [align]; simp
  | case3 a xs b ys he ih =>
    rw [align, if_pos he]
    simp only [List.length_cons]
    omega
  | case4 a xs b ys he hg ih =>
    rw [align, if_neg he, if_pos hg]
    simp only [List.length_cons] at ih ⊢
    omega
  | case5 a xs b ys he hg ih =>
    rw [align, if_neg he, if_neg hg]
    simp only [List.length_cons] at ih ⊢
    omega

theorem rowsOk_align (xs ys : List QString) : RowsOk (align xs ys) := by
  intro r hr
  rcases align_rows xs ys r hr with ⟨a, b, h, _⟩ | ⟨a, h⟩ | ⟨b, h⟩ <;> rw [h] <;> rfl

/-- C27. `diffLines` never reads or writes out of range and its loops end: run with every
index checked and with the backtrack loop allowed `n + m` rounds, the method fails nowhere
and returns what `diffLines` returns; the rows pushed, and so the rows returned, are at most
`n + m`. -/
theorem diffLines_in_bounds (originalLines newLines : List QString) :
    diffLinesChecked originalLines newLines = some (diffLines originalLines newLines) ∧
      (pushedRows originalLines newLines).length ≤ originalLines.length + newLines.length ∧
      (diffLines originalLines newLines).length ≤ originalLines.length + newLines.length := by
  refine ⟨?_, ?_, ?_⟩
  · obtain ⟨h1, h2⟩ := fillOuterChecked_eq originalLines newLines originalLines.length _
      (le_refl _) (tableDims_replicate originalLines.length newLines.length)
    have hp : RowsOk (pushedRows originalLines newLines) := by
      rw [pushedRows_eq]
      exact rowsOk_align _ _
    unfold diffLinesChecked
    simp only []
    rw [h1]
    simp only []
    rw [backtrackChecked_eq originalLines newLines _ h2 _ 0 0 [] (by omega)]
    simp only []
    rw [flushRemovedChecked_eq originalLines _ _ _ (le_refl _)]
    simp only []
    rw [flushAddedChecked_eq newLines _ _ _ (le_refl _)]
    simp only []
    exact reorderLoopChecked_eq _ 0 _ hp (by omega)
  · rw [pushedRows_eq]
    exact align_length_le _ _
  · rw [diffLines_eq, List.length_map]
    exact align_length_le _ _

/-! ## Tokens are kept by every step of the normal forms -/

theorem scan_space (c : Char) (cs : QString) (hc : isRegexSpace c = true) :
    scan (c :: cs) = ([], tokens cs) := by
  rw [scan, if_pos hc]
  rfl

theorem scan_brace (c : Char) (cs : QString) (hc : isRegexSpace c = false)
    (hb : isBrace c = true) : scan (c :: cs) = ([], [c] :: tokens cs) := by
  rw [scan, if_neg (by simp [hc]), if_pos hb]
  rfl

theorem scan_word (c : Char) (cs : QString) (hc : isRegexSpace c = false)
    (hb : isBrace c = false) : scan (c :: cs) = (c :: (scan cs).1, (scan cs).2) := by
  rw [scan, if_neg (by simp [hc]), if_neg (by simp [hb])]

theorem tokens_nil : tokens [] = [] := rfl

theorem tokens_space (c : Char) (cs : QString) (hc : isRegexSpace c = true) :
    tokens (c :: cs) = tokens cs := by
  unfold tokens
  rw [scan_space c cs hc]
  rfl

theorem tokens_brace (c : Char) (cs : QString) (hc : isRegexSpace c = false)
    (hb : isBrace c = true) : tokens (c :: cs) = [c] :: tokens cs := by
  unfold tokens
  rw [scan_brace c cs hc hb]
  rfl

theorem tokens_word (c : Char) (cs : QString) (hc : isRegexSpace c = false)
    (hb : isBrace c = false) : tokens (c :: cs) = (c :: (scan cs).1) :: (scan cs).2 := by
  unfold tokens
  rw [scan_word c cs hc hb]
  rfl

/-- The scan of a text depends on the rest of the text only through the scan of the rest. -/
theorem scan_cons_congr (c : Char) (s t : QString) (h : scan s = scan t) :
    scan (c :: s) = scan (c :: t) := by
  rw [scan, scan, h]

theorem scan_append_congr (p s t : QString) (h : scan s = scan t) :
    scan (p ++ s) = scan (p ++ t) := by
  induction p with
  | nil => exact h
  | cons c p ih => exact scan_cons_congr c _ _ ih

theorem tokens_of_scan (s t : QString) (h : scan s = scan t) : tokens s = tokens t := by
  unfold tokens
  rw [h]

theorem scan_spaces (w : QString) (h : ∀ c ∈ w, isRegexSpace c = true) : scan w = ([], []) := by
  induction w with
  | nil => rfl
  | cons c w ih =>
    rw [scan_space c w (h c (List.mem_cons_self _ _)), tokens,
      ih (fun d hd => h d (List.mem_cons_of_mem _ hd))]
    rfl

theorem tokens_spaces_append (w s : QString) (h : ∀ c ∈ w, isRegexSpace c = true) :
    tokens (w ++ s) = tokens s := by
  induction w with
  | nil => rfl
  | cons c w ih =>
    rw [List.cons_append, tokens_space c _ (h c (List.mem_cons_self _ _))]
    exact ih (fun d hd => h d (List.mem_cons_of_mem _ hd))

theorem scan_append_spaces (s w : QString) (h : ∀ c ∈ w, isRegexSpace c = true) :
    scan (s ++ w) = scan s := by
  have := scan_append_congr s w [] (scan_spaces w h)
  rwa [List.append_nil] at this

theorem tokens_dropWhile (s : QString) : tokens (s.dropWhile isRegexSpace) = tokens s := by
  induction s with
  | nil => rfl
  | cons c cs ih =>
    by_cases hc : isRegexSpace c = true
    · rw [List.dropWhile_cons_of_pos hc, ih, tokens_space c cs hc]
    · rw [List.dropWhile_cons_of_neg hc]

/-- A text that is white space up to a brace. -/
theorem scan_to_brace (b : Char) (hb : isRegexSpace b = false) (hbb : isBrace b = true)
    (s r : QString) (h : s.dropWhile isRegexSpace = b :: r) :
    scan s = ([], [b] :: tokens r) := by
  cases s with
  | nil => simp at h
  | cons c cs =>
    by_cases hc : isRegexSpace c = true
    · rw [scan_space c cs hc, ← tokens_space c cs hc, ← tokens_dropWhile, h,
        tokens_brace b r hb hbb]
    · rw [List.dropWhile_cons_of_neg hc] at h
      rw [h]
      exact scan_brace b r hb hbb

/-- Behind white space the scan has collected nothing. -/
theorem scan_after_space (c : Char) (t : QString) (hc : isRegexSpace c = true) (l : QString) :
    scan (l ++ c :: t) = ((scan l).1, (scan l).2 ++ tokens t) := by
  induction l with
  | nil => rw [List.nil_append, scan_space c t hc]; rfl
  | cons d l ih =>
    rw [List.cons_append, scan, scan, ih]
    split
    · simp
    · split
      · simp
      · rfl

theorem tokens_append_space (l t : QString) (c : Char) (hc : isRegexSpace c = true) :
    tokens (l ++ c :: t) = tokens l ++ tokens t := by
  unfold tokens
  rw [scan_after_space c t hc l]
  simp [tokens]

theorem tokens_intercalate (ls : List QString) :
    tokens (List.intercalate ['\n'] ls) = ls.flatMap tokens := by
  induction ls with
  | nil => rfl
  | cons l ls ih =>
    cases ls with
    | nil => rw [intercalate_singleton]; simp
    | cons l2 ls =>
      rw [intercalate_cons_cons, List.append_assoc, List.singleton_append,
        tokens_append_space l _ '\n' (by decide), ih, List.flatMap_cons, List.flatMap_cons,
        List.flatMap_cons]

/-- The tokens of a text are the tokens of its lines. -/
theorem tokens_splitLines (s : QString) : tokens s = (splitLines s).flatMap tokens := by
  rw [← tokens_intercalate, intercalate_splitLines]

theorem replaceChar_cons_tab (c : Char) (cs : QString) :
    replaceChar '\t' [' '] (c :: cs)
      = (if c = '\t' then ' ' else c) :: replaceChar '\t' [' '] cs := by
  unfold replaceChar
  rw [List.flatMap_cons]
  by_cases h : c = '\t'
  · simp [h]
  · simp [h]

theorem scan_tabs (s : QString) : scan (replaceChar '\t' [' '] s) = scan s := by
  induction s with
  | nil => rfl
  | cons c cs ih =>
    rw [replaceChar_cons_tab]
    by_cases h : c = '\t'
    · rw [if_pos h, h, scan_space ' ' _ (by decide), scan_space '\t' _ (by decide),
        tokens_of_scan _ _ ih]
    · rw [if_neg h]
      exact scan_cons_congr c _ _ ih

theorem scan_collapseRuns (s : QString) :
    (∀ f, tokens (collapseRuns isRegexSpace f s) = tokens s) ∧
      scan (collapseRuns isRegexSpace false s) = scan s := by
  induction s with
  | nil => exact ⟨fun _ => rfl, rfl⟩
  | cons c cs ih =>
    by_cases hc : isRegexSpace c = true
    · have h2 : scan (collapseRuns isRegexSpace false (c :: cs)) = scan (c :: cs) := by
        rw [collapseRuns, if_pos hc, if_neg (by simp), scan_space ' ' _ (by decide),
          scan_space c cs hc, ih.1 true]
      refine ⟨?_, h2⟩
      intro f
      cases f with
      | false => exact tokens_of_scan _ _ h2
      | true => rw [collapseRuns, if_pos hc, if_pos rfl, ih.1 true, tokens_space c cs hc]
    · have h2 : ∀ f, scan (collapseRuns isRegexSpace f (c :: cs)) = scan (c :: cs) := by
        intro f
        rw [collapseRuns, if_neg hc]
        exact scan_cons_congr c _ _ ih.2
      exact ⟨fun f => tokens_of_scan _ _ (h2 f), h2 false⟩

theorem scan_spaces_pass (s : QString) : scan (replaceAll matchSpaces [' '] s) = scan s := by
  rw [spaces_eq_collapseRuns s.length s (le_refl _)]
  exact (scan_collapseRuns s).2

theorem scan_brace_pass (b : Char) (hb : isRegexSpace b = false) (hbb : isBrace b = true) :
    ∀ (k : Nat) (s : QString), s.length ≤ k →
      scan (replaceAll (matchBrace b) [b] s) = scan s := by
  intro k
  induction k with
  | zero =>
    intro s hs
    have : s = [] := List.length_eq_zero.mp (by omega)
    subst this
    rfl
  | succ k ih =>
    intro s hs
    cases s with
    | nil => rfl
    | cons c cs =>
      cases hm : matchBrace b (c :: cs) with
      | none =>
        rw [replaceAll_cons_none _ _ c cs hm]
        exact scan_cons_congr c _ _ (ih cs (by simp only [List.length_cons] at hs; omega))
      | some rest =>
        rw [replaceAll_cons_some _ _ (matchBrace_shrinks b) c cs rest hm]
        have hl := matchBrace_shrinks b _ _ hm
        have hrest := ih rest (by simp only [List.length_cons] at hl hs; omega)
        unfold matchBrace at hm
        split at hm
        · exact absurd hm (by simp)
        · rename_i d r hd
          split at hm
          · rename_i hdb
            have hdb2 : d = b := by simpa using hdb
            subst hdb2
            rw [scan_to_brace d hb hbb (c :: cs) r hd, List.singleton_append,
              scan_brace d _ hb hbb, tokens_of_scan _ _ hrest, ← Option.some.inj hm,
              tokens_dropWhile]
          · exact absurd hm (by simp)

theorem plainSpaces_of_mem (s t : QString) (h : PlainSpaces s)
    (hm : ∀ c ∈ t, c ∈ s ∨ c = ' ' ∨ c = lbrace ∨ c = rbrace) : PlainSpaces t := by
  intro c hc hs
  rcases hm c hc with h1 | h1 | h1 | h1
  · exact h c h1 hs
  · rw [h1]; decide
  · rw [h1] at hs; exact absurd hs (by decide)
  · rw [h1] at hs; exact absurd hs (by decide)

theorem mem_replaceChar (b : Char) (after s : QString) :
    ∀ c ∈ replaceChar b after s, c ∈ s ∨ c ∈ after := by
  intro c hc
  unfold replaceChar at hc
  rw [List.mem_flatMap] at hc
  obtain ⟨d, hd, hcd⟩ := hc
  split at hcd
  · exact Or.inr hcd
  · rw [List.mem_singleton] at hcd
    exact Or.inl (hcd ▸ hd)

theorem mem_collapseRuns (p : Char → Bool) (s : QString) :
    ∀ (f : Bool), ∀ c ∈ collapseRuns p f s, c ∈ s ∨ c = ' ' := by
  induction s with
  | nil => intro f c hc; simp [collapseRuns] at hc
  | cons d ds ih =>
    intro f c hc
    rw [collapseRuns] at hc
    split at hc
    · split at hc
      · rcases ih _ c hc with h | h
        · exact Or.inl (List.mem_cons_of_mem _ h)
        · exact Or.inr h
      · rcases List.mem_cons.mp hc with h | h
        · exact Or.inr h
        · rcases ih _ c h with h | h
          · exact Or.inl (List.mem_cons_of_mem _ h)
          · exact Or.inr h
    · rcases List.mem_cons.mp hc with h | h
      · exact Or.inl (h ▸ List.mem_cons_self _ _)
      · rcases ih _ c h with h | h
        · exact Or.inl (List.mem_cons_of_mem _ h)
        · exact Or.inr h

/-- With no white space but that of `\s` in the text, trimming keeps the tokens. -/
theorem tokens_trimmed (s : QString) (h : PlainSpaces s) : tokens (trimmed s) = tokens s := by
  rw [trimmed_eq]
  have h1 : s = s.takeWhile isSpace ++ s.dropWhile isSpace :=
    (List.takeWhile_append_dropWhile isSpace s).symm
  have h2 : s.dropWhile isSpace
      = (s.dropWhile isSpace).rdropWhile isSpace
        ++ (s.dropWhile isSpace).rtakeWhile isSpace := by
    rw [List.rdropWhile, List.rtakeWhile, ← List.reverse_append,
      List.takeWhile_append_dropWhile, List.reverse_reverse]
  have hpre : ∀ c ∈ s.takeWhile isSpace, isRegexSpace c = true := by
    intro c hc
    exact h c ((List.takeWhile_prefix isSpace).subset hc) (List.mem_takeWhile_imp hc)
  have hsuf : ∀ c ∈ (s.dropWhile isSpace).rtakeWhile isSpace, isRegexSpace c = true := by
    intro c hc
    have hc2 : c ∈ (s.dropWhile isSpace).reverse.takeWhile isSpace := by
      rw [List.rtakeWhile] at hc
      exact List.mem_reverse.mp hc
    have hmem : c ∈ s :=
      (List.dropWhile_suffix isSpace).subset
        (List.mem_reverse.mp ((List.takeWhile_prefix isSpace).subset hc2))
    exact h c hmem (List.mem_takeWhile_imp hc2)
  have e1 : tokens s = tokens (s.dropWhile isSpace) := by
    conv => lhs; rw [h1]
    exact tokens_spaces_append _ _ hpre
  rw [e1]
  conv => rhs; rw [h2]
  exact (tokens_of_scan _ _ (scan_append_spaces _ _ hsuf)).symm

theorem tokens_norm (l : QString) (h : PlainSpaces l) : tokens (norm l) = tokens l := by
  unfold norm
  simp only []
  have hp : PlainSpaces (replaceAll matchSpaces [' '] (replaceChar '\t' [' '] l)) := by
    apply plainSpaces_of_mem l _ h
    intro c hc
    rw [spaces_eq_collapseRuns _ _ (le_refl _)] at hc
    rcases mem_collapseRuns _ _ _ c hc with h1 | h1
    · rcases mem_replaceChar _ _ _ c h1 with h2 | h2
      · exact Or.inl h2
      · exact Or.inr (Or.inl (List.mem_singleton.mp h2))
    · exact Or.inr (Or.inl h1)
  rw [tokens_trimmed _ hp, tokens_of_scan _ _ (scan_spaces_pass _), tokens_of_scan _ _ (scan_tabs _)]

theorem tokens_normalizeBody (x : QString) (h : PlainSpaces x) :
    tokens (normalizeBody x) = tokens (replaceChar '\r' [] x) := by
  unfold normalizeBody
  simp only []
  have hp : PlainSpaces (replaceAll (matchBrace rbrace) [rbrace]
      (replaceAll (matchBrace lbrace) [lbrace]
        (replaceAll matchSpaces [' '] (replaceChar '\t' [' '] (replaceChar '\r' [] x))))) := by
    apply plainSpaces_of_mem x _ h
    intro c hc
    rcases brace_mem rbrace rbrace_not_space _ _ (le_refl _) c hc with h1 | h1
    · rcases brace_mem lbrace lbrace_not_space _ _ (le_refl _) c h1 with h2 | h2
      · rw [spaces_eq_collapseRuns _ _ (le_refl _)] at h2
        rcases mem_collapseRuns _ _ _ c h2 with h3 | h3
        · rcases mem_replaceChar _ _ _ c h3 with h4 | h4
          · rcases mem_replaceChar _ _ _ c h4 with h5 | h5
            · exact Or.inl h5
            · exact absurd h5 (List.not_mem_nil c)
          · exact Or.inr (Or.inl (List.mem_singleton.mp h4))
        · exact Or.inr (Or.inl h3)
      · exact Or.inr (Or.inr (Or.inl h2))
    · exact Or.inr (Or.inr (Or.inr h1))
  rw [tokens_trimmed _ hp,
    tokens_of_scan _ _ (scan_brace_pass rbrace rbrace_not_space (by decide) _ _ (le_refl _)),
    tokens_of_scan _ _ (scan_brace_pass lbrace lbrace_not_space (by decide) _ _ (le_refl _)),
    tokens_of_scan _ _ (scan_spaces_pass _), tokens_of_scan _ _ (scan_tabs _)]

/-! ## A canonical text is its tokens written out -/

theorem render_brace (c : Char) (ts : List QString) (hb : isBrace c = true) :
    render ([c] :: ts) = c :: render ts := by
  cases ts with
  | nil => rfl
  | cons u rest =>
    rw [render, if_pos (Or.inl (show startsBrace [c] = true from hb))]
    rfl

theorem render_before_brace (c d : Char) (ts : List QString) (hd : isBrace d = true) :
    render ([c] :: [d] :: ts) = c :: render ([d] :: ts) := by
  rw [render, if_pos (Or.inr (show startsBrace [d] = true from hd))]
  rfl

theorem render_word_cons (c d : Char) (w : QString) (ts : List QString)
    (hc : isBrace c = false) (hd : isBrace d = false) :
    render ((c :: d :: w) :: ts) = c :: render ((d :: w) :: ts) := by
  cases ts with
  | nil => rfl
  | cons u rest =>
    rw [render, render]
    by_cases hu : startsBrace u = true
    · rw [if_pos (Or.inr hu), if_pos (Or.inr hu)]
      rfl
    · have n1 : ¬ (startsBrace (c :: d :: w) = true ∨ startsBrace u = true) := by
        rintro (h | h)
        · rw [startsBrace, hc] at h; exact absurd h (by simp)
        · exact hu h
      have n2 : ¬ (startsBrace (d :: w) = true ∨ startsBrace u = true) := by
        rintro (h | h)
        · rw [startsBrace, hd] at h; exact absurd h (by simp)
        · exact hu h
      rw [if_neg n1, if_neg n2]
      rfl

theorem render_word_space (c e : Char) (w : QString) (ts : List QString)
    (hc : isBrace c = false) (he : isBrace e = false) :
    render ([c] :: (e :: w) :: ts) = c :: ' ' :: render ((e :: w) :: ts) := by
  rw [render]
  rw [if_neg]
  · rfl
  · rintro (h | h)
    · rw [startsBrace, hc] at h; exact absurd h (by simp)
    · rw [startsBrace, he] at h; exact absurd h (by simp)

theorem canonicalTail_tail (c : Char) (cs : QString) (h : CanonicalTail (c :: cs)) :
    CanonicalTail cs := by
  obtain ⟨h1, h2, h3, h4, h5⟩ := h
  refine ⟨fun x hx => h1 x (List.mem_cons_of_mem _ hx), h2.tail, h3.tail, h4.tail, ?_⟩
  cases cs with
  | nil => intro x hx; simp at hx
  | cons d ds =>
    intro x hx
    exact h5 x (by rw [List.getLast?_cons_cons]; exact hx)

theorem isBrace_iff (c : Char) : isBrace c = true ↔ c = lbrace ∨ c = rbrace := by
  unfold isBrace
  simp

/-- In a canonical text the character after a brace is no white space, and the character
after a blank is neither white space nor a brace. -/
theorem canonicalTail_next (c d : Char) (ds : QString) (h : CanonicalTail (c :: d :: ds)) :
    (isBrace c = true → isRegexSpace d = false) ∧
      (isRegexSpace c = true → isRegexSpace d = false ∧ isBrace d = false) := by
  obtain ⟨_, h2, h3, h4, _⟩ := h
  have p2 := (List.chain'_cons.mp h2).1
  have p3 := (List.chain'_cons.mp h3).1
  have p4 := (List.chain'_cons.mp h4).1
  constructor
  · intro hb
    rcases (isBrace_iff c).mp hb with hc | hc
    · cases hd : isRegexSpace d with
      | false => rfl
      | true => exact absurd ⟨hc, hd⟩ p3.1
    · cases hd : isRegexSpace d with
      | false => rfl
      | true => exact absurd ⟨hc, hd⟩ p4.1
  · intro hc
    constructor
    · cases hd : isRegexSpace d with
      | false => rfl
      | true => exact absurd ⟨hc, hd⟩ p2
    · cases hd : isBrace d with
      | false => rfl
      | true =>
        rcases (isBrace_iff d).mp hd with hd2 | hd2
        · exact absurd ⟨hc, hd2⟩ p3.2
        · exact absurd ⟨hc, hd2⟩ p4.2

theorem render_tokens :
    ∀ y : QString, CanonicalTail y → y.dropWhile isRegexSpace = render (tokens y) := by
  intro y
  induction y with
  | nil => intro _; rfl
  | cons c cs ih =>
    intro hP
    have hP2 := canonicalTail_tail c cs hP
    have ih2 := ih hP2
    by_cases hc : isRegexSpace c = true
    · rw [List.dropWhile_cons_of_pos hc, tokens_space c cs hc]
      exact ih2
    · have hc2 : isRegexSpace c = false := by simpa using hc
      rw [List.dropWhile_cons_of_neg hc]
      cases hb : isBrace c with
      | true =>
        rw [tokens_brace c cs hc2 hb, render_brace c _ hb, ← ih2]
        cases cs with
        | nil => rfl
        | cons d ds =>
          rw [List.dropWhile_cons_of_neg]
          rw [(canonicalTail_next c d ds hP).1 hb]
          simp
      | false =>
        rw [tokens_word c cs hc2 hb]
        cases cs with
        | nil => rfl
        | cons d ds =>
          by_cases hd : isRegexSpace d = true
          · rw [scan_space d ds hd]
            rw [List.dropWhile_cons_of_pos hd, tokens_space d ds hd] at ih2
            have hdb : d = ' ' := hP2.1 d (List.mem_cons_self _ _) hd
            cases ds with
            | nil =>
              have := hP2.2.2.2.2 d (by simp)
              rw [hd] at this
              exact absurd this (by simp)
            | cons e es =>
              obtain ⟨he1, he2⟩ := (canonicalTail_next d e es hP2).2 hd
              rw [List.dropWhile_cons_of_neg (by simp [he1]), tokens_word e es he1 he2] at ih2
              show c :: d :: e :: es = render ([c] :: tokens (e :: es))
              rw [tokens_word e es he1 he2, render_word_space c e _ _ hb he2, ← ih2, hdb]
          · have hd2 : isRegexSpace d = false := by simpa using hd
            rw [List.dropWhile_cons_of_neg hd] at ih2
            cases hdb : isBrace d with
            | true =>
              rw [scan_brace d ds hd2 hdb]
              rw [tokens_brace d ds hd2 hdb] at ih2
              show c :: d :: ds = render ([c] :: [d] :: tokens ds)
              rw [render_before_brace c d _ hdb, ← ih2]
            | false =>
              rw [scan_word d ds hd2 hdb]
              rw [tokens_word d ds hd2 hdb] at ih2
              show c :: d :: ds = render ((c :: d :: (scan ds).1) :: (scan ds).2)
              rw [render_word_cons c d _ _ hb hdb, ← ih2]

theorem canonical_render (y : QString) (h : Canonical y) : y = render (tokens y) := by
  obtain ⟨h1, h2, h3, h4, h5⟩ := h
  have hlast : ∀ c ∈ y.getLast?, isRegexSpace c = false := by
    intro c hc
    have := trimmed_last_not y c (by rw [h5]; exact hc)
    cases hs : isRegexSpace c with
    | false => rfl
    | true => rw [isSpace_of_isRegexSpace c hs] at this; exact absurd this (by simp)
  have hhead : ∀ c ∈ y.head?, isRegexSpace c = false := by
    intro c hc
    have := trimmed_head_not y c (by rw [h5]; exact hc)
    cases hs : isRegexSpace c with
    | false => rfl
    | true => rw [isSpace_of_isRegexSpace c hs] at this; exact absurd this (by simp)
  rw [← render_tokens y ⟨h1, h2, h3, h4, hlast⟩, dropWhile_of_head isRegexSpace y hhead]

/-- Two canonical texts with the same tokens are equal. -/
theorem canonical_unique (y z : QString) (hy : Canonical y) (hz : Canonical z)
    (h : tokens y = tokens z) : y = z := by
  rw [canonical_render y hy, canonical_render z hz, h]

/-! ## A diff of unchanged rows and the normalised bodies -/

theorem plainSpaces_toLines (a : QString) (h : PlainSpaces a) :
    ∀ l ∈ toLines a, PlainSpaces l := by
  intro l hl c hc
  rcases mem_replaceChar '\r' [] a c ((splitLines_lines _ l hl).2 c hc) with h1 | h1
  · exact h c h1
  · exact absurd h1 (List.not_mem_nil c)

theorem unchanged_rows_tokens :
    ∀ rows : List DiffRow,
      (∀ r ∈ rows, ∃ a b, r = [markUnchanged, a, b] ∧ norm a = norm b) →
      (∀ l ∈ originalTexts rows, PlainSpaces l) → (∀ l ∈ newTexts rows, PlainSpaces l) →
      (originalTexts rows).flatMap tokens = (newTexts rows).flatMap tokens := by
  intro rows
  induction rows with
  | nil => intro _ _ _; rfl
  | cons r rows ih =>
    intro h1 h2 h3
    obtain ⟨a, b, hr, hab⟩ := h1 r (List.mem_cons_self _ _)
    subst hr
    rw [(texts_unchanged_cons a b rows).1] at h2 ⊢
    rw [(texts_unchanged_cons a b rows).2] at h3 ⊢
    rw [List.flatMap_cons, List.flatMap_cons,
      ih (fun q hq => h1 q (List.mem_cons_of_mem _ hq))
        (fun l hl => h2 l (List.mem_cons_of_mem _ hl))
        (fun l hl => h3 l (List.mem_cons_of_mem _ hl)),
      ← tokens_norm a (h2 a (List.mem_cons_self _ _)), hab,
      tokens_norm b (h3 b (List.mem_cons_self _ _))]

/-- C28 fails as stated: the lines of `x`, no-break space, line feed, `y` and of `x`, line
feed, `y` have the same line-normal forms, since `trimmed` takes the no-break space off the
first line, so the diff holds Unchanged rows only; `normalizeBody` keeps the no-break space,
which is inside the text and not in the class `\s`, and the two results differ. -/
theorem diffLines_unchanged_counterexample :
    (∀ r ∈ diffLines (toLines nbspText) (toLines plainText), marker r = markUnchanged) ∧
      normalizeBody nbspText = ['x', Char.ofNat 160, ' ', 'y'] ∧
      normalizeBody plainText = ['x', ' ', 'y'] ∧
      normalizeBody nbspText ≠ normalizeBody plainText := by
  decide

/-- C28, as amended. For body texts whose only white space is that of the class `\s`: if
`diffLines (toLines a) (toLines b)` holds Unchanged rows only, then `normalizeBody a` and
`normalizeBody b` are equal. -/
theorem diffLines_unchanged_same_body (a b : QString) (ha : PlainSpaces a) (hb : PlainSpaces b)
    (h : ∀ r ∈ diffLines (toLines a) (toLines b), marker r = markUnchanged) :
    normalizeBody a = normalizeBody b := by
  apply canonical_unique _ _ (normalizeBody_canonical a) (normalizeBody_canonical b)
  rw [tokens_normalizeBody a ha, tokens_normalizeBody b hb, tokens_splitLines (replaceChar '\r' [] a),
    tokens_splitLines (replaceChar '\r' [] b)]
  have ht := texts_align (align (toLines a) (toLines b)) (toLines a) (toLines b)
  rw [← diffLines_eq] at ht
  have h1 : ∀ r ∈ diffLines (toLines a) (toLines b),
      ∃ x y, r = [markUnchanged, x, y] ∧ norm x = norm y := by
    intro r hr
    have hm := h r hr
    rcases diffLines_rows _ _ r hr with ⟨x, y, e, he⟩ | ⟨x, e⟩ | ⟨y, e, _⟩ | ⟨y, e, _⟩
    · exact ⟨x, y, e, he⟩
    · rw [e, marker_row] at hm; exact absurd hm removed_ne_unchanged
    · rw [e, marker_row] at hm; exact absurd hm added_ne_unchanged
    · rw [e, marker_row] at hm; exact absurd hm reordered_ne_unchanged
  have h2 := unchanged_rows_tokens _ h1
    (by rw [ht.1]; exact plainSpaces_toLines a ha) (by rw [ht.2]; exact plainSpaces_toLines b hb)
  rw [ht.1, ht.2] at h2
  exact h2

/-- C28, as amended, at the texts ` x`, tab, line feed, ` y ` and `x`, line feed, tab, `y`. -/
theorem diffLines_unchanged_same_body_witness :
    PlainSpaces [' ', 'x', '\t', '\n', ' ', 'y', ' '] ∧ PlainSpaces ['x', '\n', '\t', 'y'] ∧
      (∀ r ∈ diffLines (toLines [' ', 'x', '\t', '\n', ' ', 'y', ' '])
        (toLines ['x', '\n', '\t', 'y']), marker r = markUnchanged) ∧
      normalizeBody [' ', 'x', '\t', '\n', ' ', 'y', ' '] = normalizeBody ['x', '\n', '\t', 'y'] :=
  ⟨by unfold PlainSpaces; decide, by unfold PlainSpaces; decide, by decide,
    diffLines_unchanged_same_body [' ', 'x', '\t', '\n', ' ', 'y', ' '] ['x', '\n', '\t', 'y']
      (by unfold PlainSpaces; decide) (by unfold PlainSpaces; decide) (by decide)⟩

/-! ## The report and its numerals -/

theorem digitChar_toNat : ∀ k, k < 10 → (Nat.digitChar k).toNat = 48 + k := by
  decide

theorem digitsValue_append (s : QString) (c : Char) :
    digitsValue (s ++ [c]) = 10 * digitsValue s + (c.toNat - 48) := by
  unfold digitsValue
  rw [List.foldl_append]
  rfl

/-- The digits that `Nat.toDigitsCore` puts before `ds` are the decimal numeral of `n`. -/
theorem toDigitsCore_isDecimal :
    ∀ (fuel n : Nat) (ds : QString), n < fuel →
      ∃ pre, Nat.toDigitsCore 10 fuel n ds = pre ++ ds ∧ IsDecimal pre n ∧
        (n ≠ 0 → pre.head? ≠ some '0') := by
  intro fuel
  induction fuel with
  | zero => intro n ds h; omega
  | succ fuel ih =>
    intro n ds h
    have hd := digitChar_toNat (n % 10) (Nat.mod_lt _ (by decide))
    rw [Nat.toDigitsCore]
    by_cases h0 : n / 10 = 0
    · rw [if_pos h0]
      have hn : n % 10 = n := Nat.mod_eq_of_lt (by omega)
      refine ⟨[Nat.digitChar (n % 10)], rfl, ⟨by simp, ?_, ?_, ?_⟩, ?_⟩
      · intro c hc
        rw [List.mem_singleton] at hc
        rw [hc, hd]
        have := Nat.mod_lt n (show 10 > 0 by decide)
        omega
      · intro hh
        simp only [List.head?_cons, Option.some.injEq] at hh
        rw [hh]
      · show 10 * 0 + ((Nat.digitChar (n % 10)).toNat - 48) = n
        rw [hd]
        omega
      · intro hne hh
        simp only [List.head?_cons, Option.some.injEq] at hh
        have : (Nat.digitChar (n % 10)).toNat = 48 := by rw [hh]; rfl
        omega
    · rw [if_neg h0]
      obtain ⟨pre, hp, ⟨hne, hdig, _, hval⟩, hhead⟩ :=
        ih (n / 10) (Nat.digitChar (n % 10) :: ds) (by omega)
      refine ⟨pre ++ [Nat.digitChar (n % 10)], by rw [hp]; simp, ⟨by simp, ?_, ?_, ?_⟩, ?_⟩
      · intro c hc
        rcases List.mem_append.mp hc with hc | hc
        · exact hdig c hc
        · rw [List.mem_singleton] at hc
          rw [hc, hd]
          have := Nat.mod_lt n (show 10 > 0 by decide)
          omega
      · intro hh
        cases pre with
        | nil => exact absurd rfl hne
        | cons p ps => exact absurd hh (hhead h0)
      · rw [digitsValue_append, hval, hd]
        omega
      · intro _
        cases pre with
        | nil => exact absurd rfl hne
        | cons p ps => exact hhead h0

theorem decimal_isDecimal (n : Nat) : IsDecimal (decimal n) n := by
  obtain ⟨pre, hp, h, _⟩ := toDigitsCore_isDecimal (n + 1) n [] (by omega)
  unfold decimal Nat.toDigits
  rw [hp, List.append_nil]
  exact h

theorem specNumeral_eq (n : Nat) : specNumeral n = decimal n := rfl

/-- The report of `buildSummary` is the report of the specification for the three lists
that the two loops gather. -/
theorem buildSummary_eq_spec (orig news : FunctionTable) :
    buildSummary orig news
      = specSummary (missingFuncs orig news) (newFuncs orig news) (changedFuncs orig news) := by
  unfold buildSummary specSummary
  simp only [appendItems_eq, specNumeral_eq]
  simp

theorem tableOk_keys (t : FunctionTable) (h : TableOk t) (k : QString) (b c : FunctionBlock)
    (hb : (k, b) ∈ t) (hc : (k, c) ∈ t) : b = c := by
  rw [← tableValue_of_mem t h k b hb, ← tableValue_of_mem t h k c hc]

/-- C19. For tables with ascending keys, the report of `buildSummary` is the report laid
out for three lists of names of which the first, under Missing, holds exactly the keys of
`orig` that are no keys of `news`, the second, under New, exactly the keys of `news` that
are no keys of `orig`, the third, under Changed, exactly the keys of both whose normalized
bodies differ, each list strictly ascending in the key order. -/
theorem buildSummary_lists (orig news : FunctionTable) (hO : TableOk orig)
    (hN : TableOk news) :
    ∃ missing new changed : List QString,
      buildSummary orig news = specSummary missing new changed ∧
      (∀ k, k ∈ missing ↔ k ∈ orig.map (fun e => e.1) ∧ k ∉ news.map (fun e => e.1)) ∧
      (∀ k, k ∈ new ↔ k ∈ news.map (fun e => e.1) ∧ k ∉ orig.map (fun e => e.1)) ∧
      (∀ k, k ∈ changed ↔
        ∃ bo bn, (k, bo) ∈ orig ∧ (k, bn) ∈ news ∧ bo.normalizedBody ≠ bn.normalizedBody) ∧
      missing.Pairwise (fun a b => keyLt a b = true) ∧
      new.Pairwise (fun a b => keyLt a b = true) ∧
      changed.Pairwise (fun a b => keyLt a b = true) :=
  ⟨missingFuncs orig news, newFuncs orig news, changedFuncs orig news,
    buildSummary_eq_spec orig news, gathered_lists orig news hO hN⟩

/-- C19 at the tables `{foo, bar}` and `{bar, baz}` with the same normalized body of
`bar`: the report lists `foo` under Missing, `baz` under New and nothing under Changed. -/
theorem buildSummary_lists_witness :
    sampleOrig.map (fun e => e.1) = ["bar".toList, "foo".toList] ∧
    sampleNews.map (fun e => e.1) = ["bar".toList, "baz".toList] ∧
    (tableValue sampleOrig "bar".toList).body ≠ (tableValue sampleNews "bar".toList).body ∧
    (tableValue sampleOrig "bar".toList).normalizedBody
      = (tableValue sampleNews "bar".toList).normalizedBody ∧
    buildSummary sampleOrig sampleNews = specSummary ["foo".toList] ["baz".toList] [] ∧
    buildSummary sampleOrig sampleNews =
      ("=== Summary ===\nMissing functions in new (1):\n - foo\n" ++
        "New functions not in original (1):\n + baz\nChanged function bodies (0):").toList ∧
    ∃ missing new changed : List QString,
      buildSummary sampleOrig sampleNews = specSummary missing new changed ∧
      (∀ k, k ∈ missing ↔
        k ∈ sampleOrig.map (fun e => e.1) ∧ k ∉ sampleNews.map (fun e => e.1)) ∧
      (∀ k, k ∈ new ↔
        k ∈ sampleNews.map (fun e => e.1) ∧ k ∉ sampleOrig.map (fun e => e.1)) ∧
      (∀ k, k ∈ changed ↔
        ∃ bo bn, (k, bo) ∈ sampleOrig ∧ (k, bn) ∈ sampleNews ∧
          bo.normalizedBody ≠ bn.normalizedBody) ∧
      missing.Pairwise (fun a b => keyLt a b = true) ∧
      new.Pairwise (fun a b => keyLt a b = true) ∧
      changed.Pairwise (fun a b => keyLt a b = true) :=
  ⟨by decide, by decide, by decide, by decide, by decide, by decide,
    buildSummary_lists sampleOrig sampleNews (by unfold TableOk; decide)
      (by unfold TableOk; decide)⟩

/-- C20. The text of `buildSummary` is the report as the specification lays it out for the
three lists gathered: the title line, then for Missing, New and Changed, in this order, a
header line with the count followed by one line per name, joined by single line feeds. Each
count is the decimal numeral of the length of its list: digits only, no leading zero, of
that value. Evaluated for two empty tables (the four header lines with count 0), for the
tables `{foo, bar}` and `{bar, baz}` (counts 1, 1, 0) and for ten missing functions (count
10). -/
theorem buildSummary_format (orig news : FunctionTable) :
    buildSummary orig news =
      List.intercalate ['\n']
        (["=== Summary ===".toList,
            "Missing functions in new (".toList
              ++ specNumeral (missingFuncs orig news).length ++ "):".toList]
          ++ (missingFuncs orig news).map (fun name => " - ".toList ++ name)
          ++ ["New functions not in original (".toList
              ++ specNumeral (newFuncs orig news).length ++ "):".toList]
          ++ (newFuncs orig news).map (fun name => " + ".toList ++ name)
          ++ ["Changed function bodies (".toList
              ++ specNumeral (changedFuncs orig news).length ++ "):".toList]
          ++ (changedFuncs orig news).map (fun name => " * ".toList ++ name)) ∧
    (∀ n, IsDecimal (specNumeral n) n) ∧
    specNumeral 0 = ['0'] ∧ specNumeral 7 = ['7'] ∧ specNumeral 10 = ['1', '0'] ∧
    specNumeral 2048 = ['2', '0', '4', '8'] ∧
    buildSummary [] [] =
      ("=== Summary ===\nMissing functions in new (0):\n" ++
        "New functions not in original (0):\nChanged function bodies (0):").toList ∧
    buildSummary sampleOrig sampleNews =
      ("=== Summary ===\nMissing functions in new (1):\n - foo\n" ++
        "New functions not in original (1):\n + baz\nChanged function bodies (0):").toList ∧
    buildSummary tenTable [] =
      ("=== Summary ===\nMissing functions in new (10):\n - a\n - b\n - c\n - d\n - e\n" ++
        " - f\n - g\n - h\n - i\n - j\n" ++
        "New functions not in original (0):\nChanged function bodies (0):").toList := by
  refine ⟨buildSummary_eq_spec orig news, fun n => decimal_isDecimal n, by decide, by decide,
    by decide, by decide, by decide, by decide, by decide⟩

end CompareEngine
